import Mathlib

/-!
# Bingo room server (`src/server.js`): shallow embedding

The in-memory state of the server is the `rooms` map (room code to room object).
Every socket handler is embedded as a function from the registry, the acting
socket and the event payload to the new registry and the list of emitted
messages.

Modelling conventions:

* `socket.data.userId` is a `randomUUID()` value.  It is an opaque, never empty
  token, so it is a `Nat` here and the JavaScript truthiness of an `ownerId` is
  "is not null".
* JavaScript strings are Lean strings (sequences of characters).
* Events carry `code`, the value computed by the first line of each room
  handler, `String(roomCode || '').toUpperCase()`.
* `Number(index)` is an `Option Int`: `some i` when `Number.isInteger` holds,
  `none` otherwise.
* Outcomes of `Math.random()` and of reading `data/phrases.json` are explicit
  parameters (`BoardSource`, the code draws of `createRoom`).
* The socket.io subscription lists (`socket.join` / `socket.leave`) belong to
  the transport and are not part of `rooms`; they are not modelled.
* The HTTP handler `POST /rooms` is embedded as `postRooms`; it is not a socket
  event, so it takes no part in `Reachable`.
-/

namespace Bingo

/-! ## Data model -/

/-- Identity bound to a connection: the value of `randomUUID()`. -/
abbrev UserId := Nat

/-- Board cell `{ label, ownerId, color }`. -/
structure Tile where
  label : String
  ownerId : Option UserId
  color : Option String
deriving DecidableEq, Repr

/-- Room member `{ userId, name, color, score }`. -/
structure Player where
  userId : UserId
  name : String
  color : Option String
  score : Nat
deriving DecidableEq, Repr

/-- Values of `room.status`: `'waiting'`, `'started'`, `'finished'`. -/
inductive Status where
  | waiting
  | started
  | finished
deriving DecidableEq, Repr

/-- Room object `{ board, players, status }`. -/
structure Room where
  board : List Tile
  players : List Player
  status : Status
deriving DecidableEq, Repr

/-- The `rooms` map in insertion order: room code to room. -/
abbrev Rooms := List (String × Room)

/-- The connection a handler closes over: `socket.id` and `socket.data.userId`. -/
structure Socket where
  id : String
  userId : UserId
deriving DecidableEq, Repr

/-! ## Constants -/

def BOARD_SIZE : Nat := 5

def TOTAL_TILES : Nat := BOARD_SIZE * BOARD_SIZE

def ALLOWED_COLORS : List String :=
  ["#e74c3c", "#3498db", "#2ecc71", "#f1c40f", "#9b59b6"]

/-! ## JavaScript helpers -/

/-- Truthiness of a value that is `null` or a string. -/
def truthy : Option String → Bool
  | some s => decide (s ≠ "")
  | none => false

/-- Code points removed by `String.prototype.trim` (white space and line terminators). -/
def isJsSpace (c : Char) : Bool :=
  let n := c.toNat
  n == 9 || n == 10 || n == 11 || n == 12 || n == 13 || n == 32 || n == 160 ||
  n == 5760 || (8192 ≤ n && n ≤ 8202) || n == 8232 || n == 8233 || n == 8239 ||
  n == 8287 || n == 12288 || n == 65279

/-- Model of `s.trim()`. -/
def jsTrim (s : String) : String :=
  ⟨((s.data.dropWhile isJsSpace).reverse.dropWhile isJsSpace).reverse⟩

/-- Model of `s.slice(0, n)`. -/
def sliceTo (s : String) (n : Nat) : String := ⟨s.data.take n⟩

/-- Model of `s.slice(-n)`. -/
def sliceLast (s : String) (n : Nat) : String := ⟨s.data.drop (s.data.length - n)⟩

/-- Default display name given on join: "Gracz-" followed by the last four characters of `socket.id`. -/
def defaultName (socket : Socket) : String := "Gracz-" ++ sliceLast socket.id 4

/-! ## Registry (`Map`) operations -/

/-- Model of `rooms.get(code)`. -/
def Rooms.get : Rooms → String → Option Room
  | [], _ => none
  | (c, r) :: rest, code => if c = code then some r else Rooms.get rest code

/-- Model of `rooms.has(code)`. -/
def Rooms.has (rooms : Rooms) (code : String) : Bool := (rooms.get code).isSome

/-- Write-back of the room object stored under `code` after it was mutated in place. -/
def Rooms.replace : Rooms → String → Room → Rooms
  | [], _, _ => []
  | (c, r) :: rest, code, room =>
    if c = code then (c, room) :: rest else (c, r) :: Rooms.replace rest code room

/-- Model of `rooms.set(code, room)`: overwrite an existing key, else insert last. -/
def Rooms.set (rooms : Rooms) (code : String) (room : Room) : Rooms :=
  if rooms.has code then rooms.replace code room else rooms ++ [(code, room)]

/-- Model of `rooms.delete(code)`. -/
def Rooms.delete : Rooms → String → Rooms
  | [], _ => []
  | (c, r) :: rest, code => if c = code then rest else (c, r) :: Rooms.delete rest code

/-! ## Board generation -/

/-- Outcome of the side effects of one `generateBoard()` call: the parsed content of
`data/phrases.json` (`none` when reading or parsing throws or the value is not an
array; an element is `none` when it is not a string) and, for each loop index `i` of
`pickUnique`, the value of `Math.floor(Math.random() * (i + 1))`. -/
structure BoardSource where
  file : Option (List (Option String))
  rand : Nat → Nat

def loadPhrases (file : Option (List (Option String))) : List String :=
  match file with
  | none => []
  | some arr => arr.filterMap (fun t =>
      match t with
      | some s => if (jsTrim s).length > 0 then some s else none
      | none => none)

/-- The destructuring swap `[copy[i], copy[j]] = [copy[j], copy[i]]`. -/
def swapAt (copy : List String) (i j : Nat) : List String :=
  match copy[i]?, copy[j]? with
  | some a, some b => (copy.set i b).set j a
  | _, _ => copy

/-- The loop `for (let i = k; i > 0; i--)` of `pickUnique`. -/
def shuffleLoop (rand : Nat → Nat) : Nat → List String → List String
  | 0, copy => copy
  | i + 1, copy => shuffleLoop rand i (swapAt copy (i + 1) (rand (i + 1)))

def pickUnique (rand : Nat → Nat) (items : List String) (count : Nat) : List String :=
  (shuffleLoop rand (items.length - 1) items).take count

def generateBoard (src : BoardSource) : List Tile :=
  let phrases := loadPhrases src.file
  let labels :=
    if phrases.length ≥ TOTAL_TILES then pickUnique src.rand phrases TOTAL_TILES
    else phrases ++ (List.range (TOTAL_TILES - phrases.length)).map
      (fun i => "Task " ++ toString (phrases.length + i + 1))
  labels.map (fun label => { label := label, ownerId := none, color := none })

def getInitialRoomState (src : BoardSource) : Room :=
  { board := generateBoard src, players := [], status := Status.waiting }

/-! ## Line catalog -/

def computeLines : List (List Nat) :=
  (List.range BOARD_SIZE).map (fun r => (List.range BOARD_SIZE).map (fun c => r * BOARD_SIZE + c))
  ++ (List.range BOARD_SIZE).map (fun c => (List.range BOARD_SIZE).map (fun r => r * BOARD_SIZE + c))
  ++ [(List.range BOARD_SIZE).map (fun i => i * BOARD_SIZE + i)]
  ++ [(List.range BOARD_SIZE).map (fun i => i * BOARD_SIZE + (BOARD_SIZE - 1 - i))]

def BINGO_LINES : List (List Nat) := computeLines

/-! ## Public projection and emitted messages -/

structure PublicTile where
  label : String
  color : Option String
deriving DecidableEq, Repr

structure PublicRoomState where
  board : List PublicTile
  players : List Player
  status : Status
deriving DecidableEq, Repr

structure RoomSummary where
  code : String
  playersCount : Nat
  status : Status
deriving DecidableEq, Repr

def getPublicRoomState (room : Room) : PublicRoomState :=
  { board := room.board.map (fun t => { label := t.label, color := t.color }),
    players := room.players.map
      (fun p => { userId := p.userId, name := p.name, color := p.color, score := p.score }),
    status := room.status }

def getRoomsSummary (rooms : Rooms) : List RoomSummary :=
  rooms.map (fun e => { code := e.1, playersCount := e.2.players.length, status := e.2.status })

/-- Addressee of an emit: `io.to(socket.id)`, `io.to(code)` or `io` (everyone). -/
inductive Target where
  | socket (id : String)
  | room (code : String)
  | all
deriving DecidableEq, Repr

/-- Event name and payload of an emit. -/
inductive Message where
  | roomCreated (roomCode : String)
  | joined (roomCode : String) (state : PublicRoomState)
  | stateUpdate (state : PublicRoomState)
  | roomsUpdate (summary : List RoomSummary)
  | error (message : String)
  | gameOver (winner : Option UserId) (reason : String)
  | gameStarted
deriving DecidableEq, Repr

structure Emit where
  target : Target
  msg : Message
deriving DecidableEq, Repr

/-- Ways a handler fails to complete: `room.board[i]` is `undefined` and reading a
field of it throws, or the `do ... while (rooms.has(code))` loop of `createRoom` has
not drawn a free code within the given draws. -/
inductive Fault where
  | typeError
  | noFreshCode
deriving DecidableEq, Repr

abbrev Result := Except Fault (Rooms × List Emit)

/-! ## Room code generation -/

/-- The characters of `alphabet` in `generateRoomCode`. -/
def alphabet : List Char :=
  ['A', 'B', 'C', 'D', 'E', 'F', 'G', 'H', 'J', 'K', 'L', 'M', 'N', 'P', 'Q', 'R',
   'S', 'T', 'U', 'V', 'W', 'X', 'Y', 'Z', '2', '3', '4', '5', '6', '7', '8', '9']

/-- Outcome of the four `Math.floor(Math.random() * alphabet.length)` of one
`generateRoomCode()` call. -/
abbrev CodeDraw := Fin 32 × Fin 32 × Fin 32 × Fin 32

def generateRoomCode (d : CodeDraw) : String :=
  ⟨[alphabet.get (Fin.cast (by rfl) d.1),
    alphabet.get (Fin.cast (by rfl) d.2.1),
    alphabet.get (Fin.cast (by rfl) d.2.2.1),
    alphabet.get (Fin.cast (by rfl) d.2.2.2)]⟩

/-! ## Player helpers -/

/-- Model of `room.players.find(p => p.userId === uid)`. -/
def findPlayer : List Player → UserId → Option Player
  | [], _ => none
  | p :: rest, uid => if p.userId = uid then some p else findPlayer rest uid

/-- In-place mutation `f` of the player object returned by `find`: the first entry
with that `userId`. -/
def updatePlayer (f : Player → Player) : List Player → UserId → List Player
  | [], _ => []
  | p :: rest, uid => if p.userId = uid then f p :: rest else p :: updatePlayer f rest uid

/-- The object pushed by `createRoom` and `joinRoom`. -/
def newPlayer (socket : Socket) : Player :=
  { userId := socket.userId, name := defaultName socket, color := none, score := 0 }

/-- The room after `room.players = room.players.filter(p => p.userId !== uid)`. -/
def removePlayer (room : Room) (uid : UserId) : Room :=
  { room with players := room.players.filter (fun p => decide (p.userId ≠ uid)) }

/-- Emit `io.to(code).emit('stateUpdate', getPublicRoomState(room))`. -/
def stateUpdate (code : String) (room : Room) : Emit :=
  ⟨Target.room code, Message.stateUpdate (getPublicRoomState room)⟩

/-- Emit `io.emit('roomsUpdate', getRoomsSummary())`. -/
def roomsUpdate (rooms : Rooms) : Emit :=
  ⟨Target.all, Message.roomsUpdate (getRoomsSummary rooms)⟩

/-! ## Socket handlers -/

def createRoom (rooms : Rooms) (socket : Socket) (draws : List CodeDraw) (src : BoardSource) :
    Result :=
  match (draws.map generateRoomCode).find? (fun c => !rooms.has c) with
  | none => Except.error Fault.noFreshCode
  | some code =>
    let room := getInitialRoomState src
    let rooms0 := rooms.set code room
    let room1 : Room :=
      if (findPlayer room.players socket.userId).isNone then
        { room with players := room.players ++ [newPlayer socket] }
      else room
    let rooms1 := rooms0.replace code room1
    Except.ok (rooms1,
      [⟨Target.socket socket.id, Message.roomCreated code⟩,
       ⟨Target.socket socket.id, Message.joined code (getPublicRoomState room1)⟩,
       stateUpdate code room1,
       roomsUpdate rooms1])

def joinRoom (rooms : Rooms) (socket : Socket) (code : String) : Result :=
  match rooms.get code with
  | none => Except.ok (rooms, [⟨Target.socket socket.id, Message.error "Room not found"⟩])
  | some room =>
    let alreadyIn := findPlayer room.players socket.userId
    if alreadyIn.isNone ∧ room.players.length ≥ 2 then
      Except.ok (rooms, [⟨Target.socket socket.id, Message.error "Room full"⟩])
    else
      let room1 : Room :=
        if alreadyIn.isNone then { room with players := room.players ++ [newPlayer socket] }
        else room
      let rooms1 := rooms.replace code room1
      Except.ok (rooms1,
        [⟨Target.socket socket.id, Message.joined code (getPublicRoomState room1)⟩,
         stateUpdate code room1,
         roomsUpdate rooms1])

def leaveRoom (rooms : Rooms) (socket : Socket) (code : String) : Result :=
  match rooms.get code with
  | none => Except.ok (rooms, [])
  | some room =>
    let room1 : Room := removePlayer room socket.userId
    if room1.players.length = 0 then
      let rooms1 := rooms.delete code
      Except.ok (rooms1, [roomsUpdate rooms1])
    else
      let rooms1 := rooms.replace code room1
      Except.ok (rooms1, [stateUpdate code room1, roomsUpdate rooms1])

/-- The payload `color` is `none` when `typeof color !== 'string'`. -/
def chooseColor (rooms : Rooms) (socket : Socket) (code : String) (color : Option String) :
    Result :=
  match rooms.get code with
  | none => Except.ok (rooms, [])
  | some room =>
    match color with
    | none => Except.ok (rooms, [])
    | some c =>
      if c ∉ ALLOWED_COLORS then Except.ok (rooms, []) else
      match findPlayer room.players socket.userId with
      | none => Except.ok (rooms, [])
      | some player =>
        if room.players.any (fun p => decide (p.userId ≠ player.userId ∧ p.color = some c)) then
          Except.ok (rooms, [])
        else
          let room1 : Room :=
            { room with players :=
                updatePlayer (fun p => { p with color := some c }) room.players player.userId }
          Except.ok (rooms.replace code room1, [stateUpdate code room1])

/-- The payload `name` is the string `String(name || '')`. -/
def setName (rooms : Rooms) (socket : Socket) (code : String) (name : String) : Result :=
  match rooms.get code with
  | none => Except.ok (rooms, [])
  | some room =>
    match findPlayer room.players socket.userId with
    | none => Except.ok (rooms, [])
    | some player =>
      let trimmed := sliceTo (jsTrim name) 24
      if trimmed = "" then Except.ok (rooms, []) else
      let room1 : Room :=
        { room with players :=
            updatePlayer (fun p => { p with name := trimmed }) room.players player.userId }
      Except.ok (rooms.replace code room1, [stateUpdate code room1])

/-- The statement `if (player.score > 0) player.score -= 1`. -/
def decScore (p : Player) : Player :=
  if p.score > 0 then { p with score := p.score - 1 } else p

/-- The set `owned` of `clickTile`: board indices whose tile has `ownerId === uid`. -/
def ownedIndices (board : List Tile) (uid : UserId) : List Int :=
  (board.enum.map (fun e => if e.2.ownerId = some uid then (e.1 : Int) else -1)).filter
    (fun idx => decide (idx ≥ 0))

/-- The test `BINGO_LINES.some(line => line.every(idx => owned.has(idx)))`. -/
def hasBingo (board : List Tile) (uid : UserId) : Bool :=
  BINGO_LINES.any (fun line => line.all (fun idx => (ownedIndices board uid).contains (idx : Int)))

/-- The `winner` computed from `const [p1 = { score: 0 }, p2 = { score: 0 }] = room.players`. -/
def pointsWinner (players : List Player) : Option UserId :=
  let s1 : Nat := (players[0]?.map (fun p => p.score)).getD 0
  let s2 : Nat := (players[1]?.map (fun p => p.score)).getD 0
  if s1 > s2 then players[0]?.map (fun p => p.userId)
  else if s2 > s1 then players[1]?.map (fun p => p.userId)
  else none

def clickTile (rooms : Rooms) (socket : Socket) (code : String) (index : Option Int) : Result :=
  match rooms.get code with
  | none => Except.ok (rooms, [])
  | some room =>
    if room.status = Status.finished then Except.ok (rooms, []) else
    match findPlayer room.players socket.userId with
    | none => Except.ok (rooms, [])
    | some player =>
      if !truthy player.color then Except.ok (rooms, []) else
      match index with
      | none => Except.ok (rooms, [])
      | some i =>
        if i < 0 ∨ i ≥ (TOTAL_TILES : Int) then Except.ok (rooms, []) else
        match room.board[i.toNat]? with
        | none => Except.error Fault.typeError
        | some tile =>
          if truthy tile.color && truthy player.color && decide (tile.color = player.color) then
            let room1 : Room :=
              { room with
                board := room.board.set i.toNat { tile with ownerId := none, color := none },
                players := updatePlayer decScore room.players player.userId }
            Except.ok (rooms.replace code room1, [stateUpdate code room1])
          else if tile.ownerId.isSome then Except.ok (rooms, [])
          else
            let room1 : Room :=
              { room with
                board := room.board.set i.toNat
                  { tile with ownerId := some player.userId, color := player.color },
                players := updatePlayer (fun p => { p with score := p.score + 1 })
                  room.players player.userId }
            if hasBingo room1.board player.userId then
              let room2 : Room := { room1 with status := Status.finished }
              Except.ok (rooms.replace code room2,
                [stateUpdate code room2,
                 ⟨Target.room code, Message.gameOver (some player.userId) "bingo"⟩])
            else if room1.board.all (fun t => t.ownerId.isSome) then
              let room2 : Room := { room1 with status := Status.finished }
              Except.ok (rooms.replace code room2,
                [stateUpdate code room2,
                 ⟨Target.room code, Message.gameOver (pointsWinner room2.players) "points"⟩])
            else
              Except.ok (rooms.replace code room1, [stateUpdate code room1])

/-- The payload `text` is the string `String(text || '')`. -/
def editTile (rooms : Rooms) (code : String) (tileId : Option Int) (text : String) : Result :=
  match rooms.get code with
  | none => Except.ok (rooms, [])
  | some room =>
    match tileId with
    | none => Except.ok (rooms, [])
    | some i =>
      if i < 0 ∨ i ≥ (TOTAL_TILES : Int) then Except.ok (rooms, []) else
      match room.board[i.toNat]? with
      | none => Except.error Fault.typeError
      | some tile =>
        if tile.ownerId.isSome then Except.ok (rooms, []) else
        let room1 : Room :=
          { room with
            board := room.board.set i.toNat { tile with label := sliceTo (jsTrim text) 50 } }
        Except.ok (rooms.replace code room1, [stateUpdate code room1])

def clearRoom (rooms : Rooms) (code : String) (src : BoardSource) : Result :=
  match rooms.get code with
  | none => Except.ok (rooms, [])
  | some room =>
    let room1 : Room := { room with board := generateBoard src }
    Except.ok (rooms.replace code room1, [stateUpdate code room1])

def clearBoard (rooms : Rooms) (code : String) : Result :=
  match rooms.get code with
  | none => Except.ok (rooms, [])
  | some room =>
    let room1 : Room :=
      { room with board := room.board.map (fun tile => { tile with label := "", color := none }) }
    Except.ok (rooms.replace code room1, [stateUpdate code room1])

def startGame (rooms : Rooms) (code : String) : Result :=
  match rooms.get code with
  | none => Except.ok (rooms, [])
  | some room =>
    let room1 : Room := { room with status := Status.started }
    Except.ok (rooms.replace code room1,
      [stateUpdate code room1, ⟨Target.room code, Message.gameStarted⟩])

def undoTile (rooms : Rooms) (socket : Socket) (code : String) (index : Option Int) : Result :=
  match rooms.get code with
  | none => Except.ok (rooms, [])
  | some room =>
    if room.status = Status.finished then Except.ok (rooms, []) else
    match findPlayer room.players socket.userId with
    | none => Except.ok (rooms, [])
    | some player =>
      match index with
      | none => Except.ok (rooms, [])
      | some i =>
        if i < 0 ∨ i ≥ (TOTAL_TILES : Int) then Except.ok (rooms, []) else
        match room.board[i.toNat]? with
        | none => Except.error Fault.typeError
        | some tile =>
          if !truthy tile.color || !truthy player.color || decide (tile.color ≠ player.color) then
            Except.ok (rooms, [])
          else
            let room1 : Room :=
              { room with
                board := room.board.set i.toNat { tile with ownerId := none, color := none },
                players := updatePlayer decScore room.players player.userId }
            Except.ok (rooms.replace code room1, [stateUpdate code room1])

/-- The loop `for (const [code, room] of rooms.entries())` of the disconnect handler:
the surviving entries and the `stateUpdate` emits, in iteration order. -/
def disconnectLoop (uid : UserId) : Rooms → Rooms × List Emit
  | [] => ([], [])
  | (code, room) :: rest =>
    let room1 : Room := removePlayer room uid
    let tail := disconnectLoop uid rest
    if room.players.length ≠ room1.players.length then
      if room1.players.length = 0 then tail
      else ((code, room1) :: tail.1, stateUpdate code room1 :: tail.2)
    else ((code, room1) :: tail.1, tail.2)

def disconnect (rooms : Rooms) (socket : Socket) : Result :=
  let r := disconnectLoop socket.userId rooms
  Except.ok (r.1, r.2 ++ [roomsUpdate r.1])

/-! ## HTTP endpoint -/

/-- The handler of `POST /rooms`: a room without players is stored under a fresh code, and
the code is the response. -/
def postRooms (rooms : Rooms) (draws : List CodeDraw) (src : BoardSource) :
    Except Fault (Rooms × String) :=
  match (draws.map generateRoomCode).find? (fun c => !rooms.has c) with
  | none => Except.error Fault.noFreshCode
  | some code => Except.ok (rooms.set code (getInitialRoomState src), code)

/-! ## Events and reachable states -/

/-- Inbound socket event with its payload and the outcomes of the random draws. -/
inductive Event where
  | createRoom (draws : List CodeDraw) (src : BoardSource)
  | joinRoom (code : String)
  | leaveRoom (code : String)
  | chooseColor (code : String) (color : Option String)
  | setName (code : String) (name : String)
  | clickTile (code : String) (index : Option Int)
  | undoTile (code : String) (index : Option Int)
  | editTile (code : String) (tileId : Option Int) (text : String)
  | clearRoom (code : String) (src : BoardSource)
  | clearBoard (code : String)
  | startGame (code : String)
  | disconnect

/-- Dispatch of one event received on `socket`. -/
def handle (rooms : Rooms) (socket : Socket) : Event → Result
  | Event.createRoom draws src => createRoom rooms socket draws src
  | Event.joinRoom code => joinRoom rooms socket code
  | Event.leaveRoom code => leaveRoom rooms socket code
  | Event.chooseColor code color => chooseColor rooms socket code color
  | Event.setName code name => setName rooms socket code name
  | Event.clickTile code index => clickTile rooms socket code index
  | Event.undoTile code index => undoTile rooms socket code index
  | Event.editTile code tileId text => editTile rooms code tileId text
  | Event.clearRoom code src => clearRoom rooms code src
  | Event.clearBoard code => clearBoard rooms code
  | Event.startGame code => startGame rooms code
  | Event.disconnect => disconnect rooms socket

/-- Registries reachable from the empty one by events that satisfy `allowed` and
whose handler completes. -/
inductive ReachableVia (allowed : Rooms → Socket → Event → Bool) : Rooms → Prop where
  | init : ReachableVia allowed []
  | step {rooms rooms1 : Rooms} {socket : Socket} {event : Event} {out : List Emit} :
      ReachableVia allowed rooms → allowed rooms socket event = true →
      handle rooms socket event = Except.ok (rooms1, out) → ReachableVia allowed rooms1

/-- Every event is allowed. -/
def anyEvent : Rooms → Socket → Event → Bool := fun _ _ _ => true

/-- Registries reachable from the empty one by any finite sequence of socket events. -/
def Reachable : Rooms → Prop := ReachableVia anyEvent

/-! ## Effect of one handler on one room -/

/-- What a completed handler does to the room object it mutates, by event. -/
inductive RoomStep (socket : Socket) : Event → Room → Room → Prop where
  | join {code : String} {room : Room} :
      findPlayer room.players socket.userId = none → room.players.length < 2 →
      RoomStep socket (Event.joinRoom code) room
        { room with players := room.players ++ [newPlayer socket] }
  | leave {code : String} {room : Room} :
      (removePlayer room socket.userId).players ≠ [] →
      RoomStep socket (Event.leaveRoom code) room (removePlayer room socket.userId)
  | disconnect {room : Room} :
      ((removePlayer room socket.userId).players ≠ [] ∨
        (removePlayer room socket.userId).players.length = room.players.length) →
      RoomStep socket Event.disconnect room (removePlayer room socket.userId)
  | color {code : String} {room : Room} {c : String} {player : Player} :
      c ∈ ALLOWED_COLORS → findPlayer room.players socket.userId = some player →
      (∀ p ∈ room.players, p.userId ≠ socket.userId → p.color ≠ some c) →
      RoomStep socket (Event.chooseColor code (some c)) room
        { room with players :=
            updatePlayer (fun p => { p with color := some c }) room.players socket.userId }
  | name {code : String} {room : Room} {name trimmed : String} :
      RoomStep socket (Event.setName code name) room
        { room with players :=
            updatePlayer (fun p => { p with name := trimmed }) room.players socket.userId }
  | toggle {code : String} {room : Room} {i : Int} {tile : Tile} {player : Player} :
      room.status ≠ Status.finished →
      findPlayer room.players socket.userId = some player → room.board[i.toNat]? = some tile →
      truthy player.color = true → tile.color = player.color →
      RoomStep socket (Event.clickTile code (some i)) room
        { room with
          board := room.board.set i.toNat { tile with ownerId := none, color := none },
          players := updatePlayer decScore room.players socket.userId }
  | undo {code : String} {room : Room} {i : Int} {tile : Tile} {player : Player} :
      room.status ≠ Status.finished →
      findPlayer room.players socket.userId = some player → room.board[i.toNat]? = some tile →
      truthy player.color = true → tile.color = player.color →
      RoomStep socket (Event.undoTile code (some i)) room
        { room with
          board := room.board.set i.toNat { tile with ownerId := none, color := none },
          players := updatePlayer decScore room.players socket.userId }
  | claim {code : String} {room : Room} {i : Int} {tile : Tile} {player : Player}
      {status1 : Status} :
      room.status ≠ Status.finished →
      findPlayer room.players socket.userId = some player → room.board[i.toNat]? = some tile →
      truthy player.color = true → tile.ownerId = none →
      (status1 = room.status ∨ status1 = Status.finished) →
      RoomStep socket (Event.clickTile code (some i)) room
        { board := room.board.set i.toNat
            { tile with ownerId := some socket.userId, color := player.color },
          players := updatePlayer (fun p => { p with score := p.score + 1 })
            room.players socket.userId,
          status := status1 }
  | edit {code : String} {room : Room} {i : Int} {tile : Tile} {text : String} :
      room.board[i.toNat]? = some tile → tile.ownerId = none →
      RoomStep socket (Event.editTile code (some i) text) room
        { room with
          board := room.board.set i.toNat { tile with label := sliceTo (jsTrim text) 50 } }
  | clearRoom {code : String} {room : Room} {src : BoardSource} :
      RoomStep socket (Event.clearRoom code src) room { room with board := generateBoard src }
  | clearBoard {code : String} {room : Room} :
      RoomStep socket (Event.clearBoard code) room
        { room with board := room.board.map (fun tile => { tile with label := "", color := none }) }
  | start {code : String} {room : Room} :
      RoomStep socket (Event.startGame code) room { room with status := Status.started }

/-- The room code an event is addressed to, when it has one. -/
def Event.code? : Event → Option String
  | Event.createRoom _ _ => none
  | Event.joinRoom code => some code
  | Event.leaveRoom code => some code
  | Event.chooseColor code _ => some code
  | Event.setName code _ => some code
  | Event.clickTile code _ => some code
  | Event.undoTile code _ => some code
  | Event.editTile code _ _ => some code
  | Event.clearRoom code _ => some code
  | Event.clearBoard code => some code
  | Event.startGame code => some code
  | Event.disconnect => none

/-- The registry after a room-scoped handler: untouched, or the addressed room written
back after a `RoomStep`, or (leaveRoom only) the addressed room deleted. -/
def Scoped (rooms : Rooms) (socket : Socket) (event : Event) (code : String)
    (rooms1 : Rooms) : Prop :=
  rooms1 = rooms ∨
  (∃ room room1, rooms.get code = some room ∧ rooms1 = rooms.replace code room1 ∧
    RoomStep socket event room room1) ∨
  ((∃ c, event = Event.leaveRoom c) ∧ rooms1 = rooms.delete code)


/-! ## Invariants and trace helpers -/

/-- No two entries of a players list share a `userId` or a non-null color. -/
def DistinctPlayers (players : List Player) : Prop :=
  players.Pairwise (fun p q => p.userId ≠ q.userId ∧ ∀ c, p.color = some c → q.color ≠ some c)

/-- Run a list of (socket, event) pairs from a registry, checking `allowed` before each
event; `none` when an event is not allowed or a handler faults. -/
def runVia (allowed : Rooms → Socket → Event → Bool) : Rooms → List (Socket × Event) → Option Rooms
  | rooms, [] => some rooms
  | rooms, (socket, event) :: rest =>
    if allowed rooms socket event then
      match handle rooms socket event with
      | Except.ok (rooms1, _) => runVia allowed rooms1 rest
      | Except.error _ => none
    else none

/-- The room stored under `code` after a handler completed; `none` when the handler
faulted or the registry has no such room. -/
def roomAfter (result : Result) (code : String) : Option Room :=
  match result with
  | Except.ok (rooms, _) => rooms.get code
  | Except.error _ => none

/-- The messages emitted by a handler that completed. -/
def emitsOf (result : Result) : List Emit :=
  match result with
  | Except.ok (_, out) => out
  | Except.error _ => []

/-- Position of a status in the order waiting < started < finished. -/
def Status.rank : Status → Nat
  | Status.waiting => 0
  | Status.started => 1
  | Status.finished => 2

/-- The registry is a map: no room code occurs twice. -/
def UniqueCodes (rooms : Rooms) : Prop := (rooms.map Prod.fst).Nodup

instance (rooms : Rooms) : Decidable (UniqueCodes rooms) :=
  inferInstanceAs (Decidable (rooms.map Prod.fst).Nodup)

/-- The board of `clickTile` after its claim branch wrote `tile.ownerId` and `tile.color`. -/
def claimedBoard (room : Room) (i : Int) (tile : Tile) (player : Player) : List Tile :=
  room.board.set i.toNat { tile with ownerId := some player.userId, color := player.color }

/-- The players of `clickTile` after its claim branch ran `player.score += 1`. -/
def scoredPlayers (room : Room) (player : Player) : List Player :=
  updatePlayer (fun p => { p with score := p.score + 1 }) room.players player.userId

/-- Every non-null `ownerId` on the board is the `userId` of a current member. -/
def OwnersAreMembers (room : Room) : Prop :=
  ∀ t ∈ room.board, ∀ u, t.ownerId = some u → ∃ p ∈ room.players, p.userId = u

/-- Events other than `leaveRoom` and `disconnect`. -/
def noLeave : Rooms → Socket → Event → Bool
  | _, _, Event.leaveRoom _ => false
  | _, _, Event.disconnect => false
  | _, _, _ => true

/-- Number of tiles of a board whose `ownerId` is `uid`. -/
def ownedCount (board : List Tile) (uid : UserId) : Nat :=
  board.countP (fun t => decide (t.ownerId = some uid))

/-- Events that keep the scores in step with the board: no `leaveRoom`, `disconnect` or
`clearRoom`, and `chooseColor` only from a socket whose player in the addressed room has
no color yet. -/
def keepsScores (rooms : Rooms) (socket : Socket) : Event → Bool
  | Event.leaveRoom _ => false
  | Event.disconnect => false
  | Event.clearRoom _ _ => false
  | Event.chooseColor code _ =>
    match rooms.get code with
    | some room =>
      match findPlayer room.players socket.userId with
      | some p => p.color.isNone
      | none => true
    | none => true
  | _ => true

/-- Every colored tile is owned by a member who holds that color. -/
def ColoredByOwner (room : Room) : Prop :=
  ∀ t ∈ room.board, ∀ c, t.color = some c →
    ∃ p ∈ room.players, t.ownerId = some p.userId ∧ p.color = some c

/-- Every member's score is the number of tiles the member owns. -/
def ScoresMatch (room : Room) : Prop :=
  ∀ p ∈ room.players, p.score = ownedCount room.board p.userId

/-- The room invariant behind the score count. -/
def ScoreInv (room : Room) : Prop :=
  DistinctPlayers room.players ∧ OwnersAreMembers room ∧ ColoredByOwner room ∧
    ScoresMatch room

/-- Whether a message is a `gameOver`. -/
def Message.isGameOver : Message → Bool
  | Message.gameOver _ _ => true
  | _ => false

/-- The `gameOver` emits among the output of a handler, in order. -/
def gameOvers (out : List Emit) : List Emit := out.filter (fun e => e.msg.isGameOver)

/-- The registry after `leaveRoom` by `socket` on `code`. -/
def leaveRoomRegistry (socket : Socket) (rooms : Rooms) (code : String) : Rooms :=
  match leaveRoom rooms socket code with
  | Except.ok (rooms1, _) => rooms1
  | Except.error _ => rooms

/-- The registry obtained by applying `leaveRoom` for the identity of `socket` to every
room code present in the registry, in registry order. -/
def leaveEveryRoom (socket : Socket) (rooms : Rooms) : Rooms :=
  (rooms.map Prod.fst).foldl (leaveRoomRegistry socket) rooms

/-- The outcomes a choice sequence can take: at loop index `i` the value of
`Math.floor(Math.random() * (i + 1))` lies between 0 and `i`. -/
def ValidChoices (rand : Nat → Nat) : Prop := ∀ i, rand i ≤ i

/-! ## Concrete sockets, rooms and traces -/

/-- First example connection. -/
def sockA : Socket := { id := "Xq1-aaaaAAAA", userId := 1 }

/-- Second example connection. -/
def sockB : Socket := { id := "Xq1-bbbbBBBB", userId := 2 }

/-- Board source with an unreadable phrase file: the board is "Task 1" .. "Task 25". -/
def noPhrases : BoardSource := { file := none, rand := fun _ => 0 }

/-- Room "AAAA" created by `sockA`, joined by `sockB`; both pick different colors. -/
def twoColorsTrace : List (Socket × Event) :=
  [(sockA, Event.createRoom [(0, 0, 0, 0)] noPhrases),
   (sockB, Event.joinRoom "AAAA"),
   (sockA, Event.chooseColor "AAAA" (some "#e74c3c")),
   (sockB, Event.chooseColor "AAAA" (some "#3498db"))]

/-- Registry after `twoColorsTrace`. -/
def twoColorsRooms : Rooms := (runVia anyEvent [] twoColorsTrace).getD []

/-- Player `sockA` creates room "AAAA", picks a color, claims tile 0, then `clearBoard`. -/
def clearBoardTrace : List (Socket × Event) :=
  [(sockA, Event.createRoom [(0, 0, 0, 0)] noPhrases),
   (sockA, Event.chooseColor "AAAA" (some "#e74c3c")),
   (sockA, Event.clickTile "AAAA" (some 0)),
   (sockA, Event.clearBoard "AAAA")]

/-- Registry after `clearBoardTrace`. -/
def clearBoardRooms : Rooms := (runVia anyEvent [] clearBoardTrace).getD []

/-- Both players claim a tile, then `sockA` moves from red to blue and `sockB` from
green to red, the color still painted on tile 0 that `sockA` owns. -/
def colorSwapTrace : List (Socket × Event) :=
  [(sockA, Event.createRoom [(0, 0, 0, 0)] noPhrases),
   (sockB, Event.joinRoom "AAAA"),
   (sockA, Event.chooseColor "AAAA" (some "#e74c3c")),
   (sockB, Event.chooseColor "AAAA" (some "#2ecc71")),
   (sockA, Event.clickTile "AAAA" (some 0)),
   (sockB, Event.clickTile "AAAA" (some 1)),
   (sockA, Event.chooseColor "AAAA" (some "#3498db")),
   (sockB, Event.chooseColor "AAAA" (some "#e74c3c"))]

/-- Registry after `colorSwapTrace`. -/
def colorSwapRooms : Rooms := (runVia anyEvent [] colorSwapTrace).getD []

/-- Player `sockA` creates room "AAAA", picks a color and claims the top row 0..4. -/
def topRowTrace : List (Socket × Event) :=
  [(sockA, Event.createRoom [(0, 0, 0, 0)] noPhrases),
   (sockA, Event.chooseColor "AAAA" (some "#e74c3c")),
   (sockA, Event.clickTile "AAAA" (some 0)),
   (sockA, Event.clickTile "AAAA" (some 1)),
   (sockA, Event.clickTile "AAAA" (some 2)),
   (sockA, Event.clickTile "AAAA" (some 3)),
   (sockA, Event.clickTile "AAAA" (some 4))]

/-- Registry after `topRowTrace`: room "AAAA" is finished by bingo. -/
def topRowRooms : Rooms := (runVia anyEvent [] topRowTrace).getD []

/-- The room stored under "AAAA" in `twoColorsRooms`. -/
def twoColorsRoom : Room :=
  { board := generateBoard noPhrases,
    players := [{ userId := 1, name := "Gracz-AAAA", color := some "#e74c3c", score := 0 },
                { userId := 2, name := "Gracz-BBBB", color := some "#3498db", score := 0 }],
    status := Status.waiting }

/-- Third example connection. -/
def sockC : Socket := { id := "Xq1-ccccCCCC", userId := 3 }

/-- Player `sockA` creates room "AAAA", picks a color and claims tiles 0..3. -/
def fourTilesTrace : List (Socket × Event) :=
  [(sockA, Event.createRoom [(0, 0, 0, 0)] noPhrases),
   (sockA, Event.chooseColor "AAAA" (some "#e74c3c")),
   (sockA, Event.clickTile "AAAA" (some 0)),
   (sockA, Event.clickTile "AAAA" (some 1)),
   (sockA, Event.clickTile "AAAA" (some 2)),
   (sockA, Event.clickTile "AAAA" (some 3))]

/-- Registry after `fourTilesTrace`. -/
def fourTilesRooms : Rooms := (runVia anyEvent [] fourTilesTrace).getD []

/-- The room stored under "AAAA" in `fourTilesRooms`. -/
def fourTilesRoom : Room :=
  (fourTilesRooms.get "AAAA").getD { board := [], players := [], status := Status.waiting }

/-- Owners of tiles 0..23 of `nearlyFullRoom`, row by row: no row, column or diagonal
is held by one player; tile 24 is free. -/
def nearlyFullOwners : List (Option UserId) :=
  [some 1, some 1, some 2, some 2, some 1,
   some 2, some 2, some 1, some 1, some 2,
   some 1, some 1, some 2, some 2, some 1,
   some 2, some 2, some 1, some 1, some 2,
   some 1, some 2, some 1, some 2, none]

/-- Color painted by an owner in `nearlyFullRoom`. -/
def nearlyFullColor : Option UserId → Option String
  | some 1 => some "#e74c3c"
  | some _ => some "#3498db"
  | none => none

/-- A started room with 24 claimed tiles, 12 by each of two players. -/
def nearlyFullRoom : Room :=
  { board := nearlyFullOwners.map
      (fun o => { label := "x", ownerId := o, color := nearlyFullColor o }),
    players := [{ userId := 1, name := "Gracz-AAAA", color := some "#e74c3c", score := 12 },
                { userId := 2, name := "Gracz-BBBB", color := some "#3498db", score := 12 }],
    status := Status.started }

/-- Both players join room "AAAA", `sockA` claims tile 0 and leaves. -/
def ownerLeavesTrace : List (Socket × Event) :=
  [(sockA, Event.createRoom [(0, 0, 0, 0)] noPhrases),
   (sockB, Event.joinRoom "AAAA"),
   (sockA, Event.chooseColor "AAAA" (some "#e74c3c")),
   (sockA, Event.clickTile "AAAA" (some 0)),
   (sockA, Event.leaveRoom "AAAA")]

/-- Registry after `ownerLeavesTrace`. -/
def ownerLeavesRooms : Rooms := (runVia anyEvent [] ownerLeavesTrace).getD []

/-- Registry after `ownerLeavesTrace` without its last event. -/
def ownerStaysRooms : Rooms := (runVia noLeave [] (ownerLeavesTrace.take 4)).getD []

/-- Player `sockA` creates room "AAAA", picks a color, claims tile 0, then `clearRoom`. -/
def clearRoomTrace : List (Socket × Event) :=
  [(sockA, Event.createRoom [(0, 0, 0, 0)] noPhrases),
   (sockA, Event.chooseColor "AAAA" (some "#e74c3c")),
   (sockA, Event.clickTile "AAAA" (some 0)),
   (sockA, Event.clearRoom "AAAA" noPhrases)]

/-- Registry after `clearRoomTrace`. -/
def clearRoomRooms : Rooms := (runVia anyEvent [] clearRoomTrace).getD []

/-- The 25 sample phrases of `seed.js`. -/
def seedSample : List String :=
  ["Pokonaj minibossa", "Zdobądź rzadki drop", "Ukończ questa pobocznego",
   "Znajdź tajny skrót", "Wygraj pojedynek", "Zbierz 100 złota", "Ulepsz przedmiot",
   "Odwiedź nowe miasto", "Zrekrutuj towarzysza", "Wykonaj misję na czas",
   "Odkryj ukrytą lokację", "Użyj rzadkiej mikstury", "Wytrenuj umiejętność",
   "Pokonaj wroga bez obrażeń", "Złap rzadkiego potwora", "Zdobycz z rajdu",
   "Wygraj turniej", "Znajdź skarb", "Rozwiąż zagadkę", "Ukończ dungeon",
   "Wykonaj łańcuch zadań", "Wyeliminuj elitę", "Zaplanuj strategię",
   "Wymień się z graczem", "Kup legendarny item"]

/-- Board source whose phrase file holds `seedSample`; the draw at loop index `i` is
`i / 2`. -/
def seedSource : BoardSource :=
  { file := some (seedSample.map some), rand := fun i => i / 2 }

/-- Registry after one `POST /rooms` on the empty registry: room "AAAA" has no players. -/
def emptyRoomRooms : Rooms :=
  [("AAAA", { board := generateBoard noPhrases, players := [], status := Status.waiting })]

/-! # Theorems -/

/-! ## Registry lemmas -/

theorem Rooms.get_mem {rooms : Rooms} {code : String} {room : Room}
    (h : rooms.get code = some room) : (code, room) ∈ rooms := by
  induction rooms with
  | nil => simp [Rooms.get] at h
  | cons e rest ih =>
    obtain ⟨c, r⟩ := e
    by_cases hc : c = code
    · simp [Rooms.get, hc] at h
      simp [hc, h]
    · simp [Rooms.get, hc] at h
      exact List.mem_cons_of_mem _ (ih h)

theorem Rooms.mem_replace {rooms : Rooms} {code : String} {room : Room} {e : String × Room}
    (h : e ∈ rooms.replace code room) : e ∈ rooms ∨ e = (code, room) := by
  induction rooms with
  | nil => simp [Rooms.replace] at h
  | cons x rest ih =>
    obtain ⟨c, r⟩ := x
    by_cases hc : c = code
    · simp [Rooms.replace, hc] at h
      rcases h with h | h
      · right; exact h
      · left; exact List.mem_cons_of_mem _ h
    · simp [Rooms.replace, hc] at h
      rcases h with h | h
      · left; simp [h]
      · rcases ih h with h1 | h1
        · left; exact List.mem_cons_of_mem _ h1
        · right; exact h1

theorem Rooms.mem_delete {rooms : Rooms} {code : String} {e : String × Room}
    (h : e ∈ rooms.delete code) : e ∈ rooms := by
  induction rooms with
  | nil => simp [Rooms.delete] at h
  | cons x rest ih =>
    obtain ⟨c, r⟩ := x
    by_cases hc : c = code
    · simp [Rooms.delete, hc] at h
      exact List.mem_cons_of_mem _ h
    · simp [Rooms.delete, hc] at h
      rcases h with h | h
      · simp [h]
      · exact List.mem_cons_of_mem _ (ih h)

theorem Rooms.get_replace_self {rooms : Rooms} {code : String} {r : Room} (room : Room)
    (h : rooms.get code = some r) : (rooms.replace code room).get code = some room := by
  induction rooms with
  | nil => simp [Rooms.get] at h
  | cons x rest ih =>
    obtain ⟨c, r0⟩ := x
    by_cases hc : c = code
    · simp [Rooms.replace, Rooms.get, hc]
    · simp [Rooms.get, hc] at h
      simp [Rooms.replace, Rooms.get, hc, ih h]

theorem Rooms.get_replace_ne {rooms : Rooms} {code c : String} (room : Room)
    (hne : c ≠ code) : (rooms.replace code room).get c = rooms.get c := by
  induction rooms with
  | nil => simp [Rooms.replace]
  | cons x rest ih =>
    obtain ⟨c0, r0⟩ := x
    by_cases hc : c0 = code
    · subst hc
      have : ¬ c0 = c := fun h => hne h.symm
      simp [Rooms.replace, Rooms.get, this]
    · by_cases hc2 : c0 = c
      · subst hc2
        simp [Rooms.replace, Rooms.get, hc]
      · simp [Rooms.replace, Rooms.get, hc, hc2, ih]

theorem Rooms.replace_get_self {rooms : Rooms} {code : String} {room : Room}
    (h : rooms.get code = some room) : rooms.replace code room = rooms := by
  induction rooms with
  | nil => rfl
  | cons x rest ih =>
    obtain ⟨c, r0⟩ := x
    by_cases hc : c = code
    · simp [Rooms.get, hc] at h
      simp [Rooms.replace, hc, h]
    · simp [Rooms.get, hc] at h
      simp [Rooms.replace, hc, ih h]

theorem Rooms.replace_append_fresh {rooms : Rooms} {code : String} (room room1 : Room)
    (h : rooms.get code = none) :
    Rooms.replace (rooms ++ [(code, room)]) code room1 = rooms ++ [(code, room1)] := by
  induction rooms with
  | nil => simp [Rooms.replace]
  | cons x rest ih =>
    obtain ⟨c, r0⟩ := x
    by_cases hc : c = code
    · simp [Rooms.get, hc] at h
    · simp [Rooms.get, hc] at h
      simp [Rooms.replace, hc, ih h]

theorem Rooms.get_append_fresh {rooms : Rooms} {code : String} (room : Room)
    (h : rooms.get code = none) : Rooms.get (rooms ++ [(code, room)]) code = some room := by
  induction rooms with
  | nil => simp [Rooms.get]
  | cons x rest ih =>
    obtain ⟨c, r0⟩ := x
    by_cases hc : c = code
    · simp [Rooms.get, hc] at h
    · simp [Rooms.get, hc] at h
      simp [Rooms.get, hc, ih h]

/-! ## Player list lemmas -/

theorem findPlayer_some {ps : List Player} {uid : UserId} {p : Player}
    (h : findPlayer ps uid = some p) : p ∈ ps ∧ p.userId = uid := by
  induction ps with
  | nil => simp [findPlayer] at h
  | cons q rest ih =>
    by_cases hq : q.userId = uid
    · simp [findPlayer, hq] at h
      subst h
      exact ⟨List.mem_cons_self _ _, hq⟩
    · simp [findPlayer, hq] at h
      exact ⟨List.mem_cons_of_mem _ (ih h).1, (ih h).2⟩

theorem findPlayer_none {ps : List Player} {uid : UserId}
    (h : findPlayer ps uid = none) : ∀ p ∈ ps, p.userId ≠ uid := by
  induction ps with
  | nil => simp
  | cons q rest ih =>
    by_cases hq : q.userId = uid
    · simp [findPlayer, hq] at h
    · simp [findPlayer, hq] at h
      intro p hp
      rcases List.mem_cons.mp hp with rfl | hp
      · exact hq
      · exact ih h p hp

theorem findPlayer_isSome_of_mem {ps : List Player} {p : Player} (hp : p ∈ ps) :
    ∃ q, findPlayer ps p.userId = some q := by
  cases h : findPlayer ps p.userId with
  | none => exact absurd rfl (findPlayer_none h p hp)
  | some q => exact ⟨q, rfl⟩


/-! ## Each handler as a `RoomStep` -/

theorem joinRoom_scoped {rooms rooms1 : Rooms} {socket : Socket} {code : String}
    {out : List Emit} (h : joinRoom rooms socket code = Except.ok (rooms1, out)) :
    Scoped rooms socket (Event.joinRoom code) code rooms1 := by
  unfold joinRoom at h
  cases hg : rooms.get code with
  | none => simp [hg] at h; exact Or.inl h.1.symm
  | some room =>
    cases hf : findPlayer room.players socket.userId with
    | some p =>
      simp [hg, hf] at h
      left
      rw [← h.1, Rooms.replace_get_self hg]
    | none =>
      by_cases hlen : 2 ≤ room.players.length
      · simp [hg, hf, hlen] at h
        exact Or.inl h.1.symm
      · simp [hg, hf, hlen] at h
        right; left
        exact ⟨room, _, hg, h.1.symm, RoomStep.join hf (by omega)⟩

theorem leaveRoom_scoped {rooms rooms1 : Rooms} {socket : Socket} {code : String}
    {out : List Emit} (h : leaveRoom rooms socket code = Except.ok (rooms1, out)) :
    Scoped rooms socket (Event.leaveRoom code) code rooms1 := by
  unfold leaveRoom at h
  cases hg : rooms.get code with
  | none => simp [hg] at h; exact Or.inl h.1.symm
  | some room =>
    simp only [hg] at h
    split at h
    · simp at h
      exact Or.inr (Or.inr ⟨⟨code, rfl⟩, h.1.symm⟩)
    · rename_i hlen
      simp at h
      exact Or.inr (Or.inl ⟨room, _, hg, h.1.symm,
        RoomStep.leave (fun he => hlen (by rw [he]; rfl))⟩)

theorem chooseColor_scoped {rooms rooms1 : Rooms} {socket : Socket} {code : String}
    {color : Option String} {out : List Emit}
    (h : chooseColor rooms socket code color = Except.ok (rooms1, out)) :
    Scoped rooms socket (Event.chooseColor code color) code rooms1 := by
  unfold chooseColor at h
  cases hg : rooms.get code with
  | none => simp [hg] at h; exact Or.inl h.1.symm
  | some room =>
    cases color with
    | none => simp [hg] at h; exact Or.inl h.1.symm
    | some c =>
      by_cases hc : c ∈ ALLOWED_COLORS
      · cases hf : findPlayer room.players socket.userId with
        | none => simp [hg, hc, hf] at h; exact Or.inl h.1.symm
        | some player =>
          have hu := (findPlayer_some hf).2
          simp only [hg, hc, hf, hu, not_true_eq_false, if_false] at h
          split at h
          · simp at h; exact Or.inl h.1.symm
          · rename_i hany
            simp at h
            simp at hany
            refine Or.inr (Or.inl ⟨room, _, hg, h.1.symm, RoomStep.color hc hf ?_⟩)
            intro p hp hne
            exact hany p hp hne
      · simp [hg, hc] at h; exact Or.inl h.1.symm

theorem setName_scoped {rooms rooms1 : Rooms} {socket : Socket} {code name : String}
    {out : List Emit} (h : setName rooms socket code name = Except.ok (rooms1, out)) :
    Scoped rooms socket (Event.setName code name) code rooms1 := by
  unfold setName at h
  cases hg : rooms.get code with
  | none => simp [hg] at h; exact Or.inl h.1.symm
  | some room =>
    cases hf : findPlayer room.players socket.userId with
    | none => simp [hg, hf] at h; exact Or.inl h.1.symm
    | some player =>
      have hu := (findPlayer_some hf).2
      simp only [hg, hf, hu] at h
      split at h
      · simp at h; exact Or.inl h.1.symm
      · simp at h
        exact Or.inr (Or.inl ⟨room, _, hg, h.1.symm, RoomStep.name⟩)

theorem clickTile_scoped {rooms rooms1 : Rooms} {socket : Socket} {code : String}
    {index : Option Int} {out : List Emit}
    (h : clickTile rooms socket code index = Except.ok (rooms1, out)) :
    Scoped rooms socket (Event.clickTile code index) code rooms1 := by
  unfold clickTile at h
  cases hg : rooms.get code with
  | none => simp [hg] at h; exact Or.inl h.1.symm
  | some room =>
    by_cases hst : room.status = Status.finished
    · simp [hg, hst] at h; exact Or.inl h.1.symm
    cases hf : findPlayer room.players socket.userId with
    | none => simp [hg, hst, hf] at h; exact Or.inl h.1.symm
    | some player =>
      have hu := (findPlayer_some hf).2
      cases hpc : truthy player.color with
      | false => simp [hg, hst, hf, hpc] at h; exact Or.inl h.1.symm
      | true =>
        cases index with
        | none => simp [hg, hst, hf, hpc] at h; exact Or.inl h.1.symm
        | some i =>
          by_cases hr : i < 0 ∨ i ≥ (TOTAL_TILES : Int)
          · simp [hg, hst, hf, hpc, hr] at h; exact Or.inl h.1.symm
          cases hb : room.board[i.toNat]? with
          | none => simp [hg, hst, hf, hpc, hr, hb] at h
          | some tile =>
            simp only [hg, hst, hf, hpc, hr, hb, hu, if_false, Bool.not_true, Bool.false_eq_true] at h
            by_cases htog : (truthy tile.color && true && decide (tile.color = player.color)) = true
            · rw [if_pos htog] at h
              simp at h
              simp at htog
              exact Or.inr (Or.inl ⟨room, _, hg, h.1.symm,
                RoomStep.toggle hst hf hb hpc htog.2⟩)
            · rw [if_neg htog] at h
              by_cases ho : tile.ownerId.isSome = true
              · rw [if_pos ho] at h
                simp at h; exact Or.inl h.1.symm
              · rw [if_neg ho] at h
                simp at ho
                split at h
                · simp at h
                  exact Or.inr (Or.inl ⟨room, _, hg, h.1.symm,
                    RoomStep.claim hst hf hb hpc ho (Or.inr rfl)⟩)
                · split at h
                  · simp at h
                    exact Or.inr (Or.inl ⟨room, _, hg, h.1.symm,
                      RoomStep.claim hst hf hb hpc ho (Or.inr rfl)⟩)
                  · simp at h
                    exact Or.inr (Or.inl ⟨room, _, hg, h.1.symm,
                      RoomStep.claim hst hf hb hpc ho (Or.inl rfl)⟩)

theorem undoTile_scoped {rooms rooms1 : Rooms} {socket : Socket} {code : String}
    {index : Option Int} {out : List Emit}
    (h : undoTile rooms socket code index = Except.ok (rooms1, out)) :
    Scoped rooms socket (Event.undoTile code index) code rooms1 := by
  unfold undoTile at h
  cases hg : rooms.get code with
  | none => simp [hg] at h; exact Or.inl h.1.symm
  | some room =>
    by_cases hst : room.status = Status.finished
    · simp [hg, hst] at h; exact Or.inl h.1.symm
    cases hf : findPlayer room.players socket.userId with
    | none => simp [hg, hst, hf] at h; exact Or.inl h.1.symm
    | some player =>
      have hu := (findPlayer_some hf).2
      cases index with
      | none => simp [hg, hst, hf] at h; exact Or.inl h.1.symm
      | some i =>
        by_cases hr : i < 0 ∨ i ≥ (TOTAL_TILES : Int)
        · simp [hg, hst, hf, hr] at h; exact Or.inl h.1.symm
        cases hb : room.board[i.toNat]? with
        | none => simp [hg, hst, hf, hr, hb] at h
        | some tile =>
          simp only [hg, hst, hf, hr, hb, hu, if_false] at h
          split at h
          · simp at h; exact Or.inl h.1.symm
          · rename_i hcond
            simp at h
            simp at hcond
            exact Or.inr (Or.inl ⟨room, _, hg, h.1.symm,
              RoomStep.undo hst hf hb hcond.1.2 hcond.2⟩)

theorem editTile_scoped {rooms rooms1 : Rooms} {socket : Socket} {code text : String}
    {tileId : Option Int} {out : List Emit}
    (h : editTile rooms code tileId text = Except.ok (rooms1, out)) :
    Scoped rooms socket (Event.editTile code tileId text) code rooms1 := by
  unfold editTile at h
  cases hg : rooms.get code with
  | none => simp [hg] at h; exact Or.inl h.1.symm
  | some room =>
    cases tileId with
    | none => simp [hg] at h; exact Or.inl h.1.symm
    | some i =>
      by_cases hr : i < 0 ∨ i ≥ (TOTAL_TILES : Int)
      · simp [hg, hr] at h; exact Or.inl h.1.symm
      cases hb : room.board[i.toNat]? with
      | none => simp [hg, hr, hb] at h
      | some tile =>
        simp only [hg, hr, hb, if_false] at h
        split at h
        · simp at h; exact Or.inl h.1.symm
        · rename_i ho
          simp at h
          simp at ho
          exact Or.inr (Or.inl ⟨room, _, hg, h.1.symm, RoomStep.edit hb ho⟩)

theorem clearRoom_scoped {rooms rooms1 : Rooms} {socket : Socket} {code : String}
    {src : BoardSource} {out : List Emit}
    (h : clearRoom rooms code src = Except.ok (rooms1, out)) :
    Scoped rooms socket (Event.clearRoom code src) code rooms1 := by
  unfold clearRoom at h
  cases hg : rooms.get code with
  | none => simp [hg] at h; exact Or.inl h.1.symm
  | some room =>
    simp [hg] at h
    exact Or.inr (Or.inl ⟨room, _, hg, h.1.symm, RoomStep.clearRoom⟩)

theorem clearBoard_scoped {rooms rooms1 : Rooms} {socket : Socket} {code : String}
    {out : List Emit} (h : clearBoard rooms code = Except.ok (rooms1, out)) :
    Scoped rooms socket (Event.clearBoard code) code rooms1 := by
  unfold clearBoard at h
  cases hg : rooms.get code with
  | none => simp [hg] at h; exact Or.inl h.1.symm
  | some room =>
    simp only [hg, Except.ok.injEq, Prod.mk.injEq] at h
    exact Or.inr (Or.inl ⟨room, _, hg, h.1.symm, RoomStep.clearBoard⟩)

theorem startGame_scoped {rooms rooms1 : Rooms} {socket : Socket} {code : String}
    {out : List Emit} (h : startGame rooms code = Except.ok (rooms1, out)) :
    Scoped rooms socket (Event.startGame code) code rooms1 := by
  unfold startGame at h
  cases hg : rooms.get code with
  | none => simp [hg] at h; exact Or.inl h.1.symm
  | some room =>
    simp only [hg, Except.ok.injEq, Prod.mk.injEq] at h
    exact Or.inr (Or.inl ⟨room, _, hg, h.1.symm, RoomStep.start⟩)
theorem createRoom_eq {rooms rooms1 : Rooms} {socket : Socket} {draws : List CodeDraw}
    {src : BoardSource} {out : List Emit}
    (h : createRoom rooms socket draws src = Except.ok (rooms1, out)) :
    ∃ code, rooms.get code = none ∧
      rooms1 = rooms ++ [(code, { board := generateBoard src, players := [newPlayer socket],
                                  status := Status.waiting })] := by
  unfold createRoom at h
  cases hfind : (draws.map generateRoomCode).find? (fun c => !rooms.has c) with
  | none => simp [hfind] at h
  | some code =>
    have hfresh := List.find?_some hfind
    simp [Rooms.has] at hfresh
    simp only [hfind, Except.ok.injEq, Prod.mk.injEq] at h
    refine ⟨code, hfresh, ?_⟩
    rw [← h.1]
    simp [Rooms.set, Rooms.has, hfresh, getInitialRoomState, findPlayer,
      Rooms.replace_append_fresh _ _ hfresh]

theorem disconnectLoop_mem {uid : UserId} {rooms : Rooms} {c : String} {r1 : Room}
    (h : (c, r1) ∈ (disconnectLoop uid rooms).1) :
    ∃ r, (c, r) ∈ rooms ∧ r1 = removePlayer r uid ∧
      ((removePlayer r uid).players ≠ [] ∨
        (removePlayer r uid).players.length = r.players.length) := by
  induction rooms with
  | nil => simp [disconnectLoop] at h
  | cons x rest ih =>
    obtain ⟨c0, r0⟩ := x
    simp only [disconnectLoop] at h
    split at h
    · split at h
      · obtain ⟨r, hr, he⟩ := ih h
        exact ⟨r, List.mem_cons_of_mem _ hr, he⟩
      · rename_i hlen
        rcases List.mem_cons.mp h with h | h
        · simp at h
          exact ⟨r0, by simp [h.1], h.2, Or.inl (fun he => hlen (by rw [he]; rfl))⟩
        · obtain ⟨r, hr, he⟩ := ih h
          exact ⟨r, List.mem_cons_of_mem _ hr, he⟩
    · rename_i hsame
      rcases List.mem_cons.mp h with h | h
      · simp at h
        refine ⟨r0, by simp [h.1], h.2, Or.inr ?_⟩
        by_contra hne
        exact hsame (fun he => hne he.symm)
      · obtain ⟨r, hr, he⟩ := ih h
        exact ⟨r, List.mem_cons_of_mem _ hr, he⟩

/-- Every room-scoped handler leaves the registry as `Scoped` describes. -/
theorem handle_scoped {rooms rooms1 : Rooms} {socket : Socket} {event : Event} {code : String}
    {out : List Emit} (hc : event.code? = some code)
    (h : handle rooms socket event = Except.ok (rooms1, out)) :
    Scoped rooms socket event code rooms1 := by
  cases event <;> simp [Event.code?] at hc <;> subst hc <;> simp only [handle] at h
  · exact joinRoom_scoped h
  · exact leaveRoom_scoped h
  · exact chooseColor_scoped h
  · exact setName_scoped h
  · exact clickTile_scoped h
  · exact undoTile_scoped h
  · exact editTile_scoped h
  · exact clearRoom_scoped h
  · exact clearBoard_scoped h
  · exact startGame_scoped h

/-- Origin of every room found in the registry after one event: it was there before,
or it is the written-back result of a `RoomStep` on a room that was there, or it is the
room just created. -/
theorem handle_mem {rooms rooms1 : Rooms} {socket : Socket} {event : Event} {out : List Emit}
    (h : handle rooms socket event = Except.ok (rooms1, out)) {c : String} {r1 : Room}
    (hm : (c, r1) ∈ rooms1) :
    (c, r1) ∈ rooms ∨
    (∃ r, (c, r) ∈ rooms ∧
      (∀ code, event.code? = some code → code = c ∧ rooms.get code = some r) ∧
      RoomStep socket event r r1) ∨
    (∃ draws src, event = Event.createRoom draws src ∧ rooms.get c = none ∧
      r1 = { board := generateBoard src, players := [newPlayer socket],
             status := Status.waiting }) := by
  cases hcode : event.code? with
  | some code =>
    rcases handle_scoped hcode h with hs | ⟨room, room1, hg, hs, hstep⟩ | ⟨_, hs⟩
    · left; rw [hs] at hm; exact hm
    · rw [hs] at hm
      rcases Rooms.mem_replace hm with hm | hm
      · left; exact hm
      · right; left
        simp only [Prod.mk.injEq] at hm
        obtain ⟨rfl, rfl⟩ := hm
        refine ⟨room, Rooms.get_mem hg, ?_, hstep⟩
        intro code1 h1
        cases h1
        exact ⟨rfl, hg⟩
    · left; rw [hs] at hm; exact Rooms.mem_delete hm
  | none =>
    cases event <;> simp [Event.code?] at hcode
    · rename_i draws src
      simp only [handle] at h
      obtain ⟨code, hfresh, hs⟩ := createRoom_eq h
      rw [hs] at hm
      rcases List.mem_append.mp hm with hm | hm
      · left; exact hm
      · right; right
        simp at hm
        exact ⟨draws, src, rfl, hm.1 ▸ hfresh, hm.2⟩
    · simp only [handle, disconnect, Except.ok.injEq, Prod.mk.injEq] at h
      rw [← h.1] at hm
      obtain ⟨r, hr, he⟩ := disconnectLoop_mem hm
      right; left
      exact ⟨r, hr, by simp, he.1 ▸ RoomStep.disconnect he.2⟩

/-! ## Room codes stay unique -/

theorem Rooms.keys_replace (rooms : Rooms) (code : String) (room : Room) :
    (rooms.replace code room).map Prod.fst = rooms.map Prod.fst := by
  induction rooms with
  | nil => rfl
  | cons x rest ih =>
    obtain ⟨c, r⟩ := x
    by_cases hc : c = code
    · simp [Rooms.replace, hc]
    · simp [Rooms.replace, hc, ih]

theorem Rooms.keys_delete_sublist (rooms : Rooms) (code : String) :
    ((rooms.delete code).map Prod.fst).Sublist (rooms.map Prod.fst) := by
  induction rooms with
  | nil => exact List.Sublist.refl _
  | cons x rest ih =>
    obtain ⟨c, r⟩ := x
    by_cases hc : c = code
    · simp only [Rooms.delete, hc, if_true, List.map_cons]
      exact List.sublist_cons_self _ _
    · simp only [Rooms.delete, hc, if_false, List.map_cons]
      exact List.Sublist.cons₂ _ ih

theorem Rooms.not_mem_keys_of_get_none {rooms : Rooms} {code : String}
    (h : rooms.get code = none) : code ∉ rooms.map Prod.fst := by
  induction rooms with
  | nil => simp
  | cons x rest ih =>
    obtain ⟨c, r⟩ := x
    by_cases hc : c = code
    · simp [Rooms.get, hc] at h
    · simp only [Rooms.get, hc, if_false] at h
      simp only [List.map_cons, List.mem_cons, not_or]
      exact ⟨fun he => hc he.symm, ih h⟩

theorem disconnectLoop_keys_sublist (uid : UserId) (rooms : Rooms) :
    ((disconnectLoop uid rooms).1.map Prod.fst).Sublist (rooms.map Prod.fst) := by
  induction rooms with
  | nil => exact List.Sublist.refl _
  | cons x rest ih =>
    obtain ⟨c, r⟩ := x
    simp only [disconnectLoop]
    split
    · split
      · exact List.Sublist.cons _ ih
      · exact List.Sublist.cons₂ _ ih
    · exact List.Sublist.cons₂ _ ih

/-- Every handler keeps the room codes of the registry pairwise distinct. -/
theorem handle_uniqueCodes {rooms rooms1 : Rooms} {socket : Socket} {event : Event}
    {out : List Emit} (hu : UniqueCodes rooms)
    (h : handle rooms socket event = Except.ok (rooms1, out)) : UniqueCodes rooms1 := by
  unfold UniqueCodes at hu ⊢
  cases hcode : event.code? with
  | some code =>
    rcases handle_scoped hcode h with hs | ⟨room, room1, _, hs, _⟩ | ⟨_, hs⟩
    · rw [hs]; exact hu
    · rw [hs, Rooms.keys_replace]; exact hu
    · rw [hs]; exact List.Nodup.sublist (Rooms.keys_delete_sublist _ _) hu
  | none =>
    cases event <;> simp [Event.code?] at hcode
    · simp only [handle] at h
      obtain ⟨code, hfresh, hs⟩ := createRoom_eq h
      rw [hs, List.map_append, List.nodup_append]
      refine ⟨hu, List.nodup_singleton _, ?_⟩
      intro a ha hb
      simp only [List.map_cons, List.map_nil, List.mem_singleton] at hb
      exact Rooms.not_mem_keys_of_get_none hfresh (hb ▸ ha)
    · simp only [handle, disconnect, Except.ok.injEq, Prod.mk.injEq] at h
      rw [← h.1]
      exact List.Nodup.sublist (disconnectLoop_keys_sublist _ _) hu

/-- Every reachable registry has pairwise distinct room codes. -/
theorem reachableVia_uniqueCodes {allowed : Rooms → Socket → Event → Bool} {rooms : Rooms}
    (h : ReachableVia allowed rooms) : UniqueCodes rooms := by
  induction h with
  | init => exact List.nodup_nil
  | step _ _ hh ih => exact handle_uniqueCodes ih hh

/-! ## Reachability and invariants -/

theorem reachableVia_runVia {allowed : Rooms → Socket → Event → Bool} {rooms : Rooms}
    (h : ReachableVia allowed rooms) (tr : List (Socket × Event)) {rooms1 : Rooms}
    (hr : runVia allowed rooms tr = some rooms1) : ReachableVia allowed rooms1 := by
  induction tr generalizing rooms with
  | nil => simp [runVia] at hr; exact hr ▸ h
  | cons x rest ih =>
    obtain ⟨socket, event⟩ := x
    simp only [runVia] at hr
    split at hr
    · rename_i ha
      split at hr
      · rename_i rooms2 out hh
        exact ih (ReachableVia.step h ha hh) hr
      · simp at hr
    · simp at hr

/-- A predicate on rooms that holds of a freshly created room and is preserved by every
allowed `RoomStep` holds of every room of every reachable registry. -/
theorem reachableVia_invariant {allowed : Rooms → Socket → Event → Bool} (P : Room → Prop)
    (hnew : ∀ socket src, P { board := generateBoard src, players := [newPlayer socket],
                              status := Status.waiting })
    (hstep : ∀ rooms socket event c r r1, allowed rooms socket event = true →
      (∀ code, event.code? = some code → code = c ∧ rooms.get code = some r) →
      P r → RoomStep socket event r r1 → P r1)
    {rooms : Rooms} (h : ReachableVia allowed rooms) :
    ∀ c r, (c, r) ∈ rooms → P r := by
  induction h with
  | init => intro c r hm; simp at hm
  | step _ ha hh ih =>
    intro c r1 hm
    rcases handle_mem hh hm with hm | ⟨r, hr, hcode, hs⟩ | ⟨draws, src, _, _, he⟩
    · exact ih c r1 hm
    · exact hstep _ _ _ c r r1 ha hcode (ih c r hr) hs
    · rw [he]; exact hnew _ _

/-! ## C9: distinct colors -/

theorem map_update_of_absent (f : Player → Player) {ps : List Player} {uid : UserId}
    (h : ∀ q ∈ ps, q.userId ≠ uid) :
    ps.map (fun p => if p.userId = uid then f p else p) = ps := by
  induction ps with
  | nil => rfl
  | cons p rest ih =>
    have hp : p.userId ≠ uid := h p (List.mem_cons_self _ _)
    simp only [List.map_cons, if_neg hp]
    rw [ih (fun q hq => h q (List.mem_cons_of_mem _ hq))]

theorem updatePlayer_eq_map (f : Player → Player) {ps : List Player} (uid : UserId)
    (h : ps.Pairwise (fun p q => p.userId ≠ q.userId)) :
    updatePlayer f ps uid = ps.map (fun p => if p.userId = uid then f p else p) := by
  induction ps with
  | nil => rfl
  | cons p rest ih =>
    rw [List.pairwise_cons] at h
    by_cases hp : p.userId = uid
    · simp only [updatePlayer, hp, if_true, List.map_cons]
      rw [map_update_of_absent f (fun q hq => by have := h.1 q hq; rw [hp] at this; exact Ne.symm this)]
    · simp [updatePlayer, hp, ih h.2]

theorem DistinctPlayers.uids {ps : List Player} (h : DistinctPlayers ps) :
    ps.Pairwise (fun p q => p.userId ≠ q.userId) :=
  List.Pairwise.imp (fun hR => hR.1) h

theorem DistinctPlayers.map_of {ps : List Player} (h : DistinctPlayers ps) (g : Player → Player)
    (hg : ∀ p ∈ ps, ∀ q ∈ ps, p.userId ≠ q.userId →
      (∀ c, p.color = some c → q.color ≠ some c) →
      (g p).userId ≠ (g q).userId ∧ ∀ c, (g p).color = some c → (g q).color ≠ some c) :
    DistinctPlayers (ps.map g) := by
  unfold DistinctPlayers
  rw [List.pairwise_map]
  exact List.Pairwise.imp_of_mem (fun ha hb hR => hg _ ha _ hb hR.1 hR.2) h

/-- Updating the acting player by a function that keeps `userId` and `color`. -/
theorem DistinctPlayers.update_same {ps : List Player} (h : DistinctPlayers ps)
    (f : Player → Player) (uid : UserId) (hid : ∀ p, (f p).userId = p.userId)
    (hcol : ∀ p, (f p).color = p.color) : DistinctPlayers (updatePlayer f ps uid) := by
  rw [updatePlayer_eq_map f uid h.uids]
  have gid : ∀ p : Player, (if p.userId = uid then f p else p).userId = p.userId := by
    intro p; by_cases hp : p.userId = uid
    · rw [if_pos hp]; exact hid p
    · rw [if_neg hp]
  have gcol : ∀ p : Player, (if p.userId = uid then f p else p).color = p.color := by
    intro p; by_cases hp : p.userId = uid
    · rw [if_pos hp]; exact hcol p
    · rw [if_neg hp]
  apply h.map_of
  intro p _ q _ hne hc
  refine ⟨?_, ?_⟩
  · show (if p.userId = uid then f p else p).userId ≠ (if q.userId = uid then f q else q).userId
    rw [gid, gid]; exact hne
  · intro c hc1
    have h1 : (if p.userId = uid then f p else p).color = some c := hc1
    show (if q.userId = uid then f q else q).color ≠ some c
    rw [gcol] at h1 ⊢
    exact hc c h1

theorem DistinctPlayers.update_color {ps : List Player} (h : DistinctPlayers ps)
    (uid : UserId) (c : String)
    (hothers : ∀ p ∈ ps, p.userId ≠ uid → p.color ≠ some c) :
    DistinctPlayers (updatePlayer (fun p => { p with color := some c }) ps uid) := by
  rw [updatePlayer_eq_map _ uid h.uids]
  apply h.map_of
  intro p hp q hq hne hc
  by_cases h1 : p.userId = uid <;> by_cases h2 : q.userId = uid
  · exact absurd (h1.trans h2.symm) hne
  · simp only [if_pos h1, if_neg h2]
    refine ⟨hne, ?_⟩
    intro c1 hc1
    simp at hc1
    subst hc1
    exact hothers q hq h2
  · simp only [if_neg h1, if_pos h2]
    refine ⟨hne, ?_⟩
    intro c1 hc1 heq
    simp at heq
    subst heq
    exact hothers p hp h1 hc1
  · simp only [if_neg h1, if_neg h2]
    exact ⟨hne, hc⟩

/-- Invariant `DistinctPlayers` is preserved by every handler. -/
theorem distinctPlayers_step {socket : Socket} {event : Event} {r r1 : Room}
    (hP : DistinctPlayers r.players) (hs : RoomStep socket event r r1) :
    DistinctPlayers r1.players := by
  cases hs with
  | join hf hlen =>
    unfold DistinctPlayers
    simp only [List.pairwise_append, List.pairwise_singleton, List.mem_singleton, true_and]
    refine ⟨hP, ?_⟩
    intro a ha b hb
    subst hb
    exact ⟨findPlayer_none hf a ha, by simp [newPlayer]⟩
  | leave => exact List.Pairwise.filter _ hP
  | disconnect => exact List.Pairwise.filter _ hP
  | color hc hf hothers => exact hP.update_color _ _ hothers
  | name => exact hP.update_same _ _ (fun _ => rfl) (fun _ => rfl)
  | toggle _ _ _ _ _ =>
    refine hP.update_same _ _ ?_ ?_ <;> intro p <;> unfold decScore <;> split <;> rfl
  | undo _ _ _ _ _ =>
    refine hP.update_same _ _ ?_ ?_ <;> intro p <;> unfold decScore <;> split <;> rfl
  | claim _ _ _ _ _ _ => exact hP.update_same _ _ (fun _ => rfl) (fun _ => rfl)
  | edit _ _ => exact hP
  | clearRoom => exact hP
  | clearBoard => exact hP
  | start => exact hP
/-- Claim C9. In every registry reachable by any finite sequence of socket events, two
entries at different positions of a room's players list never hold the same non-null
color. -/
theorem C9_no_shared_color (rooms : Rooms) (h : Reachable rooms) (code : String) (room : Room)
    (hg : rooms.get code = some room) (i j : Nat) (p q : Player) (hij : i ≠ j)
    (hp : room.players[i]? = some p) (hq : room.players[j]? = some q) (c : String)
    (hc : p.color = some c) : q.color ≠ some c := by
  have hinv : DistinctPlayers room.players :=
    reachableVia_invariant (fun r => DistinctPlayers r.players)
      (fun _ _ => List.pairwise_singleton _ _)
      (fun _ _ _ _ _ _ _ _ hP hs => distinctPlayers_step hP hs) h code room (Rooms.get_mem hg)
  have hpw := List.pairwise_iff_getElem.mp hinv
  obtain ⟨hi, hpi⟩ := List.getElem?_eq_some_iff.mp hp
  obtain ⟨hj, hqj⟩ := List.getElem?_eq_some_iff.mp hq
  rcases Nat.lt_or_gt_of_ne hij with hlt | hgt
  · have := (hpw i j hi hj hlt).2 c
    rw [hpi, hqj] at this
    exact this hc
  · have := (hpw j i hj hi hgt).2
    rw [hpi, hqj] at this
    intro hqc
    exact this c hqc hc

/-- Witness for C9: the two players of room "AAAA" in `twoColorsRooms`. -/
theorem C9_no_shared_color_witness :
    Reachable twoColorsRooms ∧
    (twoColorsRooms.get "AAAA").map (fun r => r.players.map (fun p => p.color))
      = some [some "#e74c3c", some "#3498db"] ∧
    (some "#3498db" : Option String) ≠ some "#e74c3c" :=
  ⟨reachableVia_runVia ReachableVia.init twoColorsTrace (by rfl), by rfl,
   C9_no_shared_color twoColorsRooms
     (reachableVia_runVia ReachableVia.init twoColorsTrace (by rfl)) "AAAA"
     { board := generateBoard noPhrases,
       players := [{ userId := 1, name := "Gracz-AAAA", color := some "#e74c3c", score := 0 },
                   { userId := 2, name := "Gracz-BBBB", color := some "#3498db", score := 0 }],
       status := Status.waiting }
     (by rfl) 0 1 _ _ (by decide) (by rfl) (by rfl) "#e74c3c" (by rfl)⟩

/-! ## C1 and C4: evaluations of the handlers on reachable registries -/

/-- Claim C1. The tile invariant "ownerId is null iff color is null" is broken by the
`clearBoard` handler: after `sockA` creates room "AAAA", picks a color, claims tile 0
and sends `clearBoard`, the reachable registry holds a tile 0 whose `ownerId` is still
`sockA` while its `color` is null. -/
theorem C1_clearBoard_keeps_owner_without_color :
    Reachable clearBoardRooms ∧
    (clearBoardRooms.get "AAAA").bind (fun r => r.board[0]?)
      = some { label := "", ownerId := some 1, color := none } :=
  ⟨reachableVia_runVia ReachableVia.init clearBoardTrace (by rfl), by rfl⟩

/-- Claim C4. A click on a tile owned by another player is not always rejected: in the
reachable registry `colorSwapRooms` tile 0 is owned by `sockA` (userId 1), `sockB`
(userId 2) is a member holding the color painted on it, both scores are 1, and
`clickTile` by `sockB` on index 0 clears the tile and lowers the score of `sockB` to 0. -/
theorem C4_click_on_foreign_tile_clears_it :
    Reachable colorSwapRooms ∧
    (colorSwapRooms.get "AAAA").map
        (fun r => (r.board[0]?, r.players.map (fun p => (p.userId, p.color, p.score))))
      = some (some { label := "Task 1", ownerId := some 1, color := some "#e74c3c" },
              [(1, some "#3498db", 1), (2, some "#e74c3c", 1)]) ∧
    (roomAfter (clickTile colorSwapRooms sockB "AAAA" (some 0)) "AAAA").map
        (fun r => (r.board[0]?, r.players.map (fun p => (p.userId, p.score))))
      = some (some { label := "Task 1", ownerId := none, color := none }, [(1, 1), (2, 0)]) :=
  ⟨reachableVia_runVia ReachableVia.init colorSwapTrace (by rfl), by rfl, by rfl⟩

/-! ## C8: status order -/

theorem Rooms.get_of_mem {rooms : Rooms} (hu : UniqueCodes rooms) {c : String} {r : Room}
    (hm : (c, r) ∈ rooms) : rooms.get c = some r := by
  induction rooms with
  | nil => simp at hm
  | cons x rest ih =>
    obtain ⟨c0, r0⟩ := x
    unfold UniqueCodes at hu
    simp only [List.map_cons, List.nodup_cons] at hu
    rcases List.mem_cons.mp hm with hm | hm
    · simp only [Prod.mk.injEq] at hm
      simp [Rooms.get, hm.1, hm.2]
    · have hne : c0 ≠ c := by
        intro he
        apply hu.1
        rw [he]
        exact List.mem_map_of_mem Prod.fst hm
      simp [Rooms.get, hne, ih hu.2 hm]

/-- Claim C8, amended. In a registry without duplicate codes, no socket event other than
`startGame` moves the status of a room that exists before and after it backwards in the
order waiting < started < finished, and `startGame` on an existing room sets its status
to started whatever it was before. -/
theorem C8_status_regresses_only_by_startGame (rooms : Rooms) (hu : UniqueCodes rooms)
    (socket : Socket) (event : Event) (rooms1 : Rooms) (out : List Emit)
    (h : handle rooms socket event = Except.ok (rooms1, out))
    (code : String) (room room1 : Room)
    (hg : rooms.get code = some room) (hg1 : rooms1.get code = some room1) :
    ((∀ c, event ≠ Event.startGame c) → room.status.rank ≤ room1.status.rank) ∧
    (event = Event.startGame code → room1.status = Status.started) := by
  constructor
  · intro hne
    rcases handle_mem h (Rooms.get_mem hg1) with hm | ⟨r, hr, _, hs⟩ | ⟨_, _, _, hnone, _⟩
    · have := Rooms.get_of_mem hu hm
      rw [hg] at this
      cases this
      exact Nat.le_refl _
    · have := Rooms.get_of_mem hu hr
      rw [hg] at this
      cases this
      cases hs with
      | claim _ _ _ _ _ hst =>
        rcases hst with hst | hst
        · simp [hst]
        · simp only [hst]
          cases room.status <;> simp [Status.rank]
      | start => exact absurd rfl (hne _)
      | _ => exact Nat.le_refl _
    · rw [hg] at hnone; cases hnone
  · intro he
    subst he
    simp only [handle, startGame, hg, Except.ok.injEq, Prod.mk.injEq] at h
    rw [← h.1, Rooms.get_replace_self _ hg] at hg1
    cases hg1
    rfl

/-- Witness for C8: a `clickTile` on tile 12 in `twoColorsRooms`. -/
theorem C8_status_regresses_only_by_startGame_witness :
    UniqueCodes twoColorsRooms ∧
    (roomAfter (handle twoColorsRooms sockA (Event.clickTile "AAAA" (some 12))) "AAAA").map
        (fun r => r.status) = some Status.waiting ∧
    Status.waiting.rank ≤ Status.waiting.rank :=
  ⟨by decide, by rfl,
   (C8_status_regresses_only_by_startGame twoColorsRooms (by decide) sockA
     (Event.clickTile "AAAA" (some 12))
     ((handle twoColorsRooms sockA (Event.clickTile "AAAA" (some 12))).toOption.getD ([], [])).1
     ((handle twoColorsRooms sockA (Event.clickTile "AAAA" (some 12))).toOption.getD ([], [])).2
     (by rfl) "AAAA"
     { board := generateBoard noPhrases,
       players := [{ userId := 1, name := "Gracz-AAAA", color := some "#e74c3c", score := 0 },
                   { userId := 2, name := "Gracz-BBBB", color := some "#3498db", score := 0 }],
       status := Status.waiting }
     { board := (generateBoard noPhrases).set 12
         { label := "Task 13", ownerId := some 1, color := some "#e74c3c" },
       players := [{ userId := 1, name := "Gracz-AAAA", color := some "#e74c3c", score := 1 },
                   { userId := 2, name := "Gracz-BBBB", color := some "#3498db", score := 0 }],
       status := Status.waiting }
     (by rfl) (by rfl)).1 (fun c h => by cases h)⟩

/-- Claim C8, counterexample. A finished room returns to started: in the reachable
registry `topRowRooms` room "AAAA" is finished (bingo on the top row), and after
`startGame` its status is started, which is earlier in the order. -/
theorem C8_counterexample_startGame_reopens_finished :
    Reachable topRowRooms ∧
    (topRowRooms.get "AAAA").map (fun r => r.status) = some Status.finished ∧
    (roomAfter (handle topRowRooms sockA (Event.startGame "AAAA")) "AAAA").map
        (fun r => r.status) = some Status.started ∧
    ¬ (Status.finished.rank ≤ Status.started.rank) :=
  ⟨reachableVia_runVia ReachableVia.init topRowTrace (by rfl), by rfl, by rfl, by decide⟩

/-! ## C10: joinRoom -/

/-- Claim C10. `joinRoom` on an existing room: when the acting identity is already a
member the room (hence `players`) is unchanged; otherwise, when the room already has 2
players (the code tests `length >= 2`), the registry is unchanged and the only emit is
`error {message: 'Room full'}` to the caller; otherwise exactly one player with that
`userId`, color null and score 0 is appended after the existing players. -/
theorem C10_joinRoom_players (rooms : Rooms) (socket : Socket) (code : String) (room : Room)
    (hg : rooms.get code = some room) :
    ((∃ p, findPlayer room.players socket.userId = some p) →
      roomAfter (joinRoom rooms socket code) code = some room) ∧
    (findPlayer room.players socket.userId = none → 2 ≤ room.players.length →
      joinRoom rooms socket code
        = Except.ok (rooms, [⟨Target.socket socket.id, Message.error "Room full"⟩])) ∧
    (findPlayer room.players socket.userId = none → room.players.length < 2 →
      roomAfter (joinRoom rooms socket code) code
        = some { room with players := room.players ++
            [{ userId := socket.userId, name := defaultName socket, color := none,
               score := 0 }] }) := by
  refine ⟨?_, ?_, ?_⟩
  · rintro ⟨p, hp⟩
    simp [joinRoom, hg, hp, roomAfter, Rooms.get_replace_self _ hg]
  · intro hn hlen
    simp [joinRoom, hg, hn, hlen]
  · intro hn hlen
    have : ¬ 2 ≤ room.players.length := by omega
    simp [joinRoom, hg, hn, this, roomAfter, Rooms.get_replace_self _ hg, newPlayer]

/-- Witness for C10: a third identity joining the full room of `twoColorsRooms`. -/
theorem C10_joinRoom_players_witness :
    twoColorsRooms.get "AAAA" = some twoColorsRoom ∧
    joinRoom twoColorsRooms sockC "AAAA"
      = Except.ok (twoColorsRooms, [⟨Target.socket sockC.id, Message.error "Room full"⟩]) :=
  ⟨by rfl, (C10_joinRoom_players twoColorsRooms sockC "AAAA" twoColorsRoom (by rfl)).2.1
    (by rfl) (by decide)⟩

/-! ## C6 and C7: the claim branch of clickTile -/

theorem mem_ownedIndices {board : List Tile} {uid : UserId} {idx : Nat} :
    (idx : Int) ∈ ownedIndices board uid ↔
      ∃ t, board[idx]? = some t ∧ t.ownerId = some uid := by
  unfold ownedIndices
  simp only [List.mem_filter, List.mem_map, decide_eq_true_eq]
  constructor
  · rintro ⟨⟨e, he, hfe⟩, _⟩
    rw [List.mem_enum_iff_getElem?] at he
    by_cases ho : e.2.ownerId = some uid
    · rw [if_pos ho] at hfe
      have : e.1 = idx := by exact_mod_cast hfe
      exact ⟨e.2, this ▸ he, ho⟩
    · rw [if_neg ho] at hfe
      omega
  · rintro ⟨t, ht, ho⟩
    refine ⟨⟨(idx, t), List.mem_enum_iff_getElem?.mpr ht, ?_⟩, by omega⟩
    simp [ho]

theorem hasBingo_iff {board : List Tile} {uid : UserId} :
    hasBingo board uid = true ↔
      ∃ line ∈ BINGO_LINES, ∀ idx ∈ line, ∃ t, board[idx]? = some t ∧ t.ownerId = some uid := by
  unfold hasBingo
  simp only [List.any_eq_true, List.all_eq_true, List.contains_eq_any_beq, beq_iff_eq]
  have key : ∀ idx : Nat, (∃ x ∈ ownedIndices board uid, (idx : Int) = x) ↔
      ∃ t, board[idx]? = some t ∧ t.ownerId = some uid := by
    intro idx
    rw [← mem_ownedIndices]
    constructor
    · rintro ⟨x, hx, rfl⟩; exact hx
    · intro hx; exact ⟨_, hx, rfl⟩
  simp only [key]
/-- The claim branch of `clickTile`, reached when the room is live, the acting member
has a color, the index is in range and the tile is neither colored like the player nor
owned. -/
theorem clickTile_claim_eq {rooms : Rooms} {socket : Socket} {code : String} {room : Room}
    {player : Player} {i : Int} {tile : Tile}
    (hg : rooms.get code = some room) (hst : room.status ≠ Status.finished)
    (hf : findPlayer room.players socket.userId = some player)
    (hpc : truthy player.color = true) (hi0 : 0 ≤ i) (hi : i < 25)
    (hb : room.board[i.toNat]? = some tile) (ho : tile.ownerId = none)
    (hc : tile.color ≠ player.color) :
    clickTile rooms socket code (some i) =
      if hasBingo (claimedBoard room i tile player) player.userId then
        Except.ok (rooms.replace code
            { board := claimedBoard room i tile player, players := scoredPlayers room player,
              status := Status.finished },
          [stateUpdate code
            { board := claimedBoard room i tile player, players := scoredPlayers room player,
              status := Status.finished },
           ⟨Target.room code, Message.gameOver (some player.userId) "bingo"⟩])
      else if (claimedBoard room i tile player).all (fun t => t.ownerId.isSome) then
        Except.ok (rooms.replace code
            { board := claimedBoard room i tile player, players := scoredPlayers room player,
              status := Status.finished },
          [stateUpdate code
            { board := claimedBoard room i tile player, players := scoredPlayers room player,
              status := Status.finished },
           ⟨Target.room code,
            Message.gameOver (pointsWinner (scoredPlayers room player)) "points"⟩])
      else
        Except.ok (rooms.replace code
            { board := claimedBoard room i tile player, players := scoredPlayers room player,
              status := room.status },
          [stateUpdate code
            { board := claimedBoard room i tile player, players := scoredPlayers room player,
              status := room.status }]) := by
  have hr : ¬ (i < 0 ∨ i ≥ (TOTAL_TILES : Int)) := by
    simp only [TOTAL_TILES, BOARD_SIZE]; push_cast; omega
  have htog : decide (tile.color = player.color) = false := by simp [hc]
  unfold clickTile
  simp only [hg, hst, hf, hpc, hr, hb, htog, ho, if_false, Bool.not_true, Bool.false_eq_true,
    Bool.and_false, Option.isSome_none, claimedBoard, scoredPlayers]

/-- Claim C6. For a live room, a member with a color and an index in [0,25) whose tile has
null `ownerId` and a color different from the member's: after `clickTile` the room's
status is finished and `gameOver {winner: the member's userId, reason: 'bingo'}` was
emitted to the room if and only if some line of `BINGO_LINES` has all its indices on
tiles owned by the member in the board after the claim. -/
theorem C6_bingo_iff_line_owned (rooms : Rooms) (socket : Socket) (code : String) (room : Room)
    (player : Player) (i : Int) (tile : Tile)
    (hg : rooms.get code = some room) (hst : room.status ≠ Status.finished)
    (hf : findPlayer room.players socket.userId = some player)
    (hpc : truthy player.color = true) (hi0 : 0 ≤ i) (hi : i < 25)
    (hb : room.board[i.toNat]? = some tile) (ho : tile.ownerId = none)
    (hc : tile.color ≠ player.color) :
    ∃ room1, roomAfter (clickTile rooms socket code (some i)) code = some room1 ∧
      room1.board = room.board.set i.toNat
        { label := tile.label, ownerId := some player.userId, color := player.color } ∧
      ((room1.status = Status.finished ∧
          (⟨Target.room code, Message.gameOver (some player.userId) "bingo"⟩ : Emit) ∈
            emitsOf (clickTile rooms socket code (some i))) ↔
        ∃ line ∈ BINGO_LINES, ∀ idx ∈ line,
          ∃ t, room1.board[idx]? = some t ∧ t.ownerId = some player.userId) := by
  rw [clickTile_claim_eq hg hst hf hpc hi0 hi hb ho hc]
  by_cases hbin : hasBingo (claimedBoard room i tile player) player.userId = true
  · rw [if_pos hbin]
    refine ⟨_, by simp only [roomAfter]; exact Rooms.get_replace_self _ hg, rfl, ?_⟩
    simp only [emitsOf, List.mem_cons, true_or, or_true, and_self, true_iff]
    exact hasBingo_iff.mp hbin
  · have hno := fun h => hbin (hasBingo_iff.mpr h)
    rw [if_neg hbin]
    split
    · refine ⟨_, by simp only [roomAfter]; exact Rooms.get_replace_self _ hg, rfl, ?_⟩
      constructor
      · rintro ⟨_, hmem⟩
        simp [emitsOf, stateUpdate] at hmem
      · intro h; exact absurd h hno
    · refine ⟨_, by simp only [roomAfter]; exact Rooms.get_replace_self _ hg, rfl, ?_⟩
      constructor
      · rintro ⟨_, hmem⟩
        simp [emitsOf, stateUpdate] at hmem
      · intro h; exact absurd h hno
/-- Witness for C6: the click on tile 4 that completes the top row in `fourTilesRooms`. -/
theorem C6_bingo_iff_line_owned_witness :
    fourTilesRooms.get "AAAA" = some fourTilesRoom ∧
    ∃ room1, roomAfter (clickTile fourTilesRooms sockA "AAAA" (some 4)) "AAAA" = some room1 ∧
      room1.board = fourTilesRoom.board.set 4
        { label := "Task 5", ownerId := some 1, color := some "#e74c3c" } ∧
      ((room1.status = Status.finished ∧
          (⟨Target.room "AAAA", Message.gameOver (some 1) "bingo"⟩ : Emit) ∈
            emitsOf (clickTile fourTilesRooms sockA "AAAA" (some 4))) ↔
        ∃ line ∈ BINGO_LINES, ∀ idx ∈ line,
          ∃ t, room1.board[idx]? = some t ∧ t.ownerId = some 1) :=
  ⟨by rfl,
   C6_bingo_iff_line_owned fourTilesRooms sockA "AAAA" fourTilesRoom
     { userId := 1, name := "Gracz-AAAA", color := some "#e74c3c", score := 4 } 4
     { label := "Task 5", ownerId := none, color := none }
     (by rfl) (by decide) (by rfl) (by rfl) (by decide) (by decide) (by rfl) (by rfl)
     (by decide)⟩

theorem updatePlayer_length (f : Player → Player) (ps : List Player) (uid : UserId) :
    (updatePlayer f ps uid).length = ps.length := by
  induction ps with
  | nil => rfl
  | cons p rest ih =>
    by_cases hp : p.userId = uid <;> simp [updatePlayer, hp, ih]

/-- Claim C7. For a successful claim (live room, member with a color, index in [0,25),
tile with null `ownerId` and a color different from the member's) that completes no line
for the acting member and after which every tile has a non-null `ownerId`: the status
becomes finished and `gameOver` is emitted to the room
with reason 'points' and a winner that is the single member's userId when there is one
member, and with two members the userId of the one whose score is strictly greater, or
null when the scores are equal, whichever of the two joined first. -/
theorem C7_points_winner (rooms : Rooms) (socket : Socket) (code : String) (room : Room)
    (player : Player) (i : Int) (tile : Tile)
    (hg : rooms.get code = some room) (hst : room.status ≠ Status.finished)
    (hf : findPlayer room.players socket.userId = some player)
    (hpc : truthy player.color = true) (hi0 : 0 ≤ i) (hi : i < 25)
    (hb : room.board[i.toNat]? = some tile) (ho : tile.ownerId = none)
    (hc : tile.color ≠ player.color)
    (hnoline : ¬ ∃ line ∈ BINGO_LINES, ∀ idx ∈ line, ∃ t,
      (room.board.set i.toNat
        { label := tile.label, ownerId := some player.userId, color := player.color })[idx]?
          = some t ∧ t.ownerId = some player.userId)
    (hall : ∀ t ∈ room.board.set i.toNat
        { label := tile.label, ownerId := some player.userId, color := player.color },
      t.ownerId ≠ none) :
    ∃ room1 winner, roomAfter (clickTile rooms socket code (some i)) code = some room1 ∧
      room1.status = Status.finished ∧
      (⟨Target.room code, Message.gameOver winner "points"⟩ : Emit) ∈
        emitsOf (clickTile rooms socket code (some i)) ∧
      (∀ a, room1.players = [a] → winner = some a.userId) ∧
      (∀ a b, room1.players = [a, b] →
        (b.score < a.score → winner = some a.userId) ∧
        (a.score < b.score → winner = some b.userId) ∧
        (a.score = b.score → winner = none)) := by
  rw [clickTile_claim_eq hg hst hf hpc hi0 hi hb ho hc]
  have hbin : ¬ hasBingo (claimedBoard room i tile player) player.userId = true :=
    fun h => hnoline (hasBingo_iff.mp h)
  have hfull : (claimedBoard room i tile player).all (fun t => t.ownerId.isSome) = true := by
    rw [List.all_eq_true]
    intro t ht
    have := hall t ht
    cases hto : t.ownerId with
    | none => exact absurd hto this
    | some u => rfl
  rw [if_neg hbin, if_pos hfull]
  refine ⟨_, pointsWinner (scoredPlayers room player),
    by simp only [roomAfter]; exact Rooms.get_replace_self _ hg, rfl, by simp [emitsOf], ?_, ?_⟩
  · intro a ha
    simp only at ha
    obtain ⟨_, hu⟩ := findPlayer_some hf
    unfold scoredPlayers at ha ⊢
    match hps : room.players, hf with
    | [], hf => simp [hps, findPlayer] at hf
    | [a0], hf =>
      rw [hps] at ha
      by_cases h0 : a0.userId = player.userId
      · simp [updatePlayer, h0] at ha
        subst ha
        simp [updatePlayer, h0, pointsWinner]
      · simp [findPlayer] at hf
        exact absurd (hf.1.trans hu.symm) h0
    | _ :: _ :: _, _ =>
      have := congrArg List.length ha
      rw [updatePlayer_length, hps] at this
      simp at this
  · intro a b hab
    simp only at hab
    rw [hab]
    refine ⟨?_, ?_, ?_⟩
    · intro h; simp [pointsWinner, h]
    · intro h
      have : ¬ a.score > b.score := by omega
      simp [pointsWinner, h, this]
    · intro h; simp [pointsWinner, h]

/-- Witness for C7: the click on the last free tile of `nearlyFullRoom`. -/
theorem C7_points_winner_witness :
    Rooms.get [("AAAA", nearlyFullRoom)] "AAAA" = some nearlyFullRoom ∧
    ∃ room1 winner,
      roomAfter (clickTile [("AAAA", nearlyFullRoom)] sockB "AAAA" (some 24)) "AAAA"
        = some room1 ∧
      room1.status = Status.finished ∧
      (⟨Target.room "AAAA", Message.gameOver winner "points"⟩ : Emit) ∈
        emitsOf (clickTile [("AAAA", nearlyFullRoom)] sockB "AAAA" (some 24)) ∧
      (∀ a, room1.players = [a] → winner = some a.userId) ∧
      (∀ a b, room1.players = [a, b] →
        (b.score < a.score → winner = some a.userId) ∧
        (a.score < b.score → winner = some b.userId) ∧
        (a.score = b.score → winner = none)) :=
  ⟨by rfl,
   C7_points_winner [("AAAA", nearlyFullRoom)] sockB "AAAA" nearlyFullRoom
     { userId := 2, name := "Gracz-BBBB", color := some "#3498db", score := 12 } 24
     { label := "x", ownerId := none, color := none }
     (by rfl) (by decide) (by rfl) (by rfl) (by decide) (by decide) (by rfl) (by rfl)
     (by decide) (fun h => absurd (hasBingo_iff.mpr h) (by decide)) (by decide)⟩

/-! ## C5: claim then undo -/

theorem updatePlayer_decScore_incr (ps : List Player) (uid : UserId) :
    updatePlayer decScore
      (updatePlayer (fun p => { p with score := p.score + 1 }) ps uid) uid = ps := by
  induction ps with
  | nil => rfl
  | cons p rest ih =>
    by_cases hp : p.userId = uid
    · subst hp
      simp [updatePlayer, decScore]
    · simp [updatePlayer, hp, ih]

theorem findPlayer_updatePlayer (f : Player → Player) (hid : ∀ p, (f p).userId = p.userId)
    (ps : List Player) (uid : UserId) :
    findPlayer (updatePlayer f ps uid) uid = (findPlayer ps uid).map f := by
  induction ps with
  | nil => rfl
  | cons p rest ih =>
    by_cases hp : p.userId = uid
    · simp [updatePlayer, findPlayer, hp, hid]
    · simp [updatePlayer, findPlayer, hp, ih]

/-- Claim C5, amended. For a live room, a member with a color and an index in [0,25)
whose tile has null `ownerId` and a color different from the member's, when the claim
completes no line for the member and leaves some tile unowned: `clickTile` followed by
`undoTile` by the same member on the same index both complete and leave tile `i` with
its label unchanged, `ownerId` null and `color` null, the member's score equal to its
value before the `clickTile`, and the rest of the room as it was. -/
theorem C5_claim_then_undo_restores (rooms : Rooms) (socket : Socket) (code : String)
    (room : Room) (player : Player) (i : Int) (tile : Tile)
    (hg : rooms.get code = some room) (hst : room.status ≠ Status.finished)
    (hf : findPlayer room.players socket.userId = some player)
    (hpc : truthy player.color = true) (hi0 : 0 ≤ i) (hi : i < 25)
    (hb : room.board[i.toNat]? = some tile) (ho : tile.ownerId = none)
    (hc : tile.color ≠ player.color)
    (hnoline : ¬ ∃ line ∈ BINGO_LINES, ∀ idx ∈ line, ∃ t,
      (room.board.set i.toNat
        { label := tile.label, ownerId := some player.userId, color := player.color })[idx]?
          = some t ∧ t.ownerId = some player.userId)
    (hfree : ∃ t ∈ room.board.set i.toNat
        { label := tile.label, ownerId := some player.userId, color := player.color },
      t.ownerId = none) :
    ∃ rooms1 out1 rooms2 out2 room2 player2,
      clickTile rooms socket code (some i) = Except.ok (rooms1, out1) ∧
      undoTile rooms1 socket code (some i) = Except.ok (rooms2, out2) ∧
      rooms2.get code = some room2 ∧
      room2.board[i.toNat]? = some { label := tile.label, ownerId := none, color := none } ∧
      findPlayer room2.players socket.userId = some player2 ∧
      player2.score = player.score ∧
      room2 = { room with board := (room.board.set i.toNat
                  { label := tile.label, ownerId := none, color := none }) } := by
  have hu := (findPlayer_some hf).2
  have hlt : i.toNat < room.board.length := (List.getElem?_eq_some_iff.mp hb).1
  have hbin : ¬ hasBingo (claimedBoard room i tile player) player.userId = true :=
    fun h => hnoline (hasBingo_iff.mp h)
  have hfull : ¬ (claimedBoard room i tile player).all (fun t => t.ownerId.isSome) = true := by
    rw [List.all_eq_true]
    intro h
    obtain ⟨t, ht, hto⟩ := hfree
    have := h t ht
    rw [hto] at this
    simp at this
  have hclick := clickTile_claim_eq hg hst hf hpc hi0 hi hb ho hc
  rw [if_neg hbin, if_neg hfull] at hclick
  have hr : ¬ (i < 0 ∨ i ≥ (TOTAL_TILES : Int)) := by
    simp only [TOTAL_TILES, BOARD_SIZE]; push_cast; omega
  have hg1 := Rooms.get_replace_self
    { board := claimedBoard room i tile player, players := scoredPlayers room player,
      status := room.status } hg
  have hf1 : findPlayer (scoredPlayers room player) socket.userId
      = some { player with score := player.score + 1 } := by
    have h1 := findPlayer_updatePlayer (fun p => { p with score := p.score + 1 })
      (fun _ => rfl) room.players socket.userId
    rw [hf] at h1
    unfold scoredPlayers
    rw [hu, h1]
    simp [hu]
  have hb1 : (claimedBoard room i tile player)[i.toNat]?
      = some { label := tile.label, ownerId := some player.userId, color := player.color } := by
    unfold claimedBoard
    rw [List.getElem?_set_self hlt]
  have hundo : undoTile (rooms.replace code
        { board := claimedBoard room i tile player, players := scoredPlayers room player,
          status := room.status }) socket code (some i)
      = Except.ok ((rooms.replace code
          { board := claimedBoard room i tile player, players := scoredPlayers room player,
            status := room.status }).replace code
          { room with board := (room.board.set i.toNat
              { label := tile.label, ownerId := none, color := none }) },
        [stateUpdate code
          { room with board := (room.board.set i.toNat
              { label := tile.label, ownerId := none, color := none }) }]) := by
    unfold undoTile
    simp only [hg1, hst, hf1, hr, hb1, hpc, if_false, Bool.not_true, Bool.false_or,
      Bool.or_false, ne_eq, not_true_eq_false, decide_False, Bool.false_eq_true]
    simp only [claimedBoard, scoredPlayers, List.set_set, hu, updatePlayer_decScore_incr]
  refine ⟨_, _, _, _, _, player, hclick, hundo, Rooms.get_replace_self _ hg1, ?_, hf, rfl, rfl⟩
  simp only
  rw [List.getElem?_set_self hlt]

/-- Witness for C5: claim and undo of tile 12 in `twoColorsRooms`. -/
theorem C5_claim_then_undo_restores_witness :
    twoColorsRooms.get "AAAA" = some twoColorsRoom ∧
    ∃ rooms1 out1 rooms2 out2 room2 player2,
      clickTile twoColorsRooms sockA "AAAA" (some 12) = Except.ok (rooms1, out1) ∧
      undoTile rooms1 sockA "AAAA" (some 12) = Except.ok (rooms2, out2) ∧
      rooms2.get "AAAA" = some room2 ∧
      room2.board[12]? = some { label := "Task 13", ownerId := none, color := none } ∧
      findPlayer room2.players 1 = some player2 ∧
      player2.score = 0 ∧
      room2 = { twoColorsRoom with board := (twoColorsRoom.board.set 12
                  { label := "Task 13", ownerId := none, color := none }) } :=
  ⟨by rfl,
   C5_claim_then_undo_restores twoColorsRooms sockA "AAAA" twoColorsRoom
     { userId := 1, name := "Gracz-AAAA", color := some "#e74c3c", score := 0 } 12
     { label := "Task 13", ownerId := none, color := none }
     (by rfl) (by decide) (by rfl) (by rfl) (by decide) (by decide) (by rfl) (by rfl)
     (by decide) (fun h => absurd (hasBingo_iff.mpr h) (by decide)) (by decide)⟩

/-- Claim C5, counterexample. In the reachable registry `fourTilesRooms` tile 0 of room
"AAAA" is owned by `sockA` itself (so not by another player) and the score of `sockA` is
4; `clickTile` by `sockA` on 0 is an undo and the following `undoTile` is rejected, so the
score ends at 3, not at its value before the `clickTile`. -/
theorem C5_counterexample_own_tile :
    Reachable fourTilesRooms ∧
    (fourTilesRooms.get "AAAA").map
        (fun r => (r.board[0]?.map (fun t => t.ownerId),
                   r.players.map (fun p => (p.userId, p.score))))
      = some (some (some 1), [(1, 4)]) ∧
    ((runVia anyEvent fourTilesRooms
        [(sockA, Event.clickTile "AAAA" (some 0)), (sockA, Event.undoTile "AAAA" (some 0))]).bind
        (fun rooms => rooms.get "AAAA")).map
        (fun r => (r.board[0]?.map (fun t => t.ownerId),
                   r.players.map (fun p => (p.userId, p.score))))
      = some (some none, [(1, 3)]) :=
  ⟨reachableVia_runVia ReachableVia.init fourTilesTrace (by rfl), by rfl, by rfl⟩

/-! ## C2: owners are members -/

theorem generateBoard_blank (src : BoardSource) :
    ∀ t ∈ generateBoard src, t.ownerId = none ∧ t.color = none := by
  intro t ht
  unfold generateBoard at ht
  simp only [List.mem_map] at ht
  obtain ⟨_, _, rfl⟩ := ht
  exact ⟨rfl, rfl⟩

theorem updatePlayer_userId_mem (f : Player → Player) (hid : ∀ p, (f p).userId = p.userId)
    {ps : List Player} (uid : UserId) {u : UserId} (h : ∃ p ∈ ps, p.userId = u) :
    ∃ p ∈ updatePlayer f ps uid, p.userId = u := by
  induction ps with
  | nil => simp at h
  | cons q rest ih =>
    obtain ⟨p, hp, hpu⟩ := h
    by_cases hq : q.userId = uid
    · simp only [updatePlayer, hq, if_true]
      rcases List.mem_cons.mp hp with rfl | hp
      · exact ⟨f p, List.mem_cons_self _ _, (hid p).trans hpu⟩
      · exact ⟨p, List.mem_cons_of_mem _ hp, hpu⟩
    · simp only [updatePlayer, hq, if_false]
      rcases List.mem_cons.mp hp with rfl | hp
      · exact ⟨p, List.mem_cons_self _ _, hpu⟩
      · obtain ⟨p1, hp1, hpu1⟩ := ih ⟨p, hp, hpu⟩
        exact ⟨p1, List.mem_cons_of_mem _ hp1, hpu1⟩

theorem decScore_userId (p : Player) : (decScore p).userId = p.userId := by
  unfold decScore; split <;> rfl

theorem decScore_color (p : Player) : (decScore p).color = p.color := by
  unfold decScore; split <;> rfl

/-- Invariant `OwnersAreMembers` is preserved by every handler except `leaveRoom` and `disconnect`. -/
theorem ownersAreMembers_step {socket : Socket} {event : Event} {r r1 : Room}
    (hP : OwnersAreMembers r) (hs : RoomStep socket event r r1)
    (hev : ∀ rooms, noLeave rooms socket event = true) : OwnersAreMembers r1 := by
  cases hs with
  | join hf hlen =>
    intro t ht u hu
    obtain ⟨p, hp, hpu⟩ := hP t ht u hu
    exact ⟨p, List.mem_append_left _ hp, hpu⟩
  | leave => simp [noLeave] at hev
  | disconnect => simp [noLeave] at hev
  | color hc hf hothers =>
    intro t ht u hu
    refine updatePlayer_userId_mem _ ?_ _ (hP t ht u hu)
    intro _; rfl
  | name =>
    intro t ht u hu
    refine updatePlayer_userId_mem _ ?_ _ (hP t ht u hu)
    intro _; rfl
  | toggle _ hf hb _ _ =>
    intro t ht u hu
    apply updatePlayer_userId_mem _ decScore_userId
    rcases List.mem_or_eq_of_mem_set ht with ht | rfl
    · exact hP t ht u hu
    · simp at hu
  | undo _ hf hb _ _ =>
    intro t ht u hu
    apply updatePlayer_userId_mem _ decScore_userId
    rcases List.mem_or_eq_of_mem_set ht with ht | rfl
    · exact hP t ht u hu
    · simp at hu
  | claim _ hf hb _ _ _ =>
    intro t ht u hu
    refine updatePlayer_userId_mem _ ?_ _ ?_
    · intro _; rfl
    rcases List.mem_or_eq_of_mem_set ht with ht | rfl
    · exact hP t ht u hu
    · simp at hu
      obtain ⟨hm, hpu⟩ := findPlayer_some hf
      exact ⟨_, hm, hpu.trans hu⟩
  | edit hb ho =>
    intro t ht u hu
    rcases List.mem_or_eq_of_mem_set ht with ht | rfl
    · exact hP t ht u hu
    · simp [ho] at hu
  | clearRoom =>
    intro t ht u hu
    rw [(generateBoard_blank _ t ht).1] at hu
    cases hu
  | clearBoard =>
    intro t ht u hu
    simp only [List.mem_map] at ht
    obtain ⟨t0, ht0, rfl⟩ := ht
    exact hP t0 ht0 u hu
  | start => exact hP

/-- Claim C2, amended. In every registry reachable by a finite sequence of socket events
none of which is `leaveRoom` or `disconnect`, every tile with a non-null `ownerId` is
owned by the `userId` of a player currently in that room's players list. -/
theorem C2_owner_is_member_without_leave (rooms : Rooms) (h : ReachableVia noLeave rooms)
    (code : String) (room : Room) (hg : rooms.get code = some room)
    (tile : Tile) (ht : tile ∈ room.board) (u : UserId) (hu : tile.ownerId = some u) :
    ∃ p ∈ room.players, p.userId = u := by
  have hinv : OwnersAreMembers room :=
    reachableVia_invariant OwnersAreMembers
      (fun _ src t ht u hu => by
        rw [(generateBoard_blank src t ht).1] at hu
        cases hu)
      (fun _ socket event _ _ _ hallow _ hP hs => ownersAreMembers_step hP hs (fun _ => by
        cases event <;> first | rfl | simp [noLeave] at hallow))
      h code room (Rooms.get_mem hg)
  exact hinv tile ht u hu

/-- Witness for C2: tile 0 of room "AAAA" in `ownerStaysRooms`. -/
theorem C2_owner_is_member_without_leave_witness :
    ReachableVia noLeave ownerStaysRooms ∧
    (ownerStaysRooms.get "AAAA").map (fun r => r.board[0]?.map (fun t => t.ownerId))
      = some (some (some 1)) ∧
    ∃ p ∈ [({ userId := 1, name := "Gracz-AAAA", color := some "#e74c3c", score := 1 } : Player),
           { userId := 2, name := "Gracz-BBBB", color := none, score := 0 }], p.userId = 1 :=
  ⟨reachableVia_runVia ReachableVia.init (ownerLeavesTrace.take 4) (by rfl), by rfl,
   C2_owner_is_member_without_leave ownerStaysRooms
     (reachableVia_runVia ReachableVia.init (ownerLeavesTrace.take 4) (by rfl)) "AAAA"
     { board := (generateBoard noPhrases).set 0
         { label := "Task 1", ownerId := some 1, color := some "#e74c3c" },
       players := [{ userId := 1, name := "Gracz-AAAA", color := some "#e74c3c", score := 1 },
                   { userId := 2, name := "Gracz-BBBB", color := none, score := 0 }],
       status := Status.waiting }
     (by rfl) { label := "Task 1", ownerId := some 1, color := some "#e74c3c" }
     (by decide) 1 (by rfl)⟩

/-- Claim C2, counterexample. After `sockA` (userId 1) claimed tile 0 of room "AAAA" and
left, the reachable registry still has tile 0 owned by userId 1 while the only player in
the room is userId 2. -/
theorem C2_counterexample_owner_left :
    Reachable ownerLeavesRooms ∧
    (ownerLeavesRooms.get "AAAA").map
        (fun r => (r.board[0]?.map (fun t => t.ownerId), r.players.map (fun p => p.userId)))
      = some (some (some 1), [2]) :=
  ⟨reachableVia_runVia ReachableVia.init ownerLeavesTrace (by rfl), by rfl⟩

/-! ## C3: scores count owned tiles -/

theorem ownedCount_set {board : List Tile} {i : Nat} {t : Tile} (t1 : Tile) (uid : UserId)
    (hb : board[i]? = some t) :
    ownedCount (board.set i t1) uid + (if t.ownerId = some uid then 1 else 0)
      = ownedCount board uid + (if t1.ownerId = some uid then 1 else 0) := by
  unfold ownedCount
  induction board generalizing i with
  | nil => simp at hb
  | cons x rest ih =>
    cases i with
    | zero =>
      simp at hb
      subst hb
      simp only [List.set_cons_zero, List.countP_cons, decide_eq_true_eq]
      omega
    | succ k =>
      simp at hb
      have := ih hb
      simp only [List.set_cons_succ, List.countP_cons, decide_eq_true_eq]
      omega

theorem ownedCount_eq_zero {board : List Tile} {uid : UserId}
    (h : ∀ t ∈ board, t.ownerId ≠ some uid) : ownedCount board uid = 0 := by
  unfold ownedCount
  rw [List.countP_eq_zero]
  intro t ht
  simpa using h t ht

theorem ownedCount_pos {board : List Tile} {uid : UserId} {t : Tile} (ht : t ∈ board)
    (ho : t.ownerId = some uid) : 0 < ownedCount board uid := by
  unfold ownedCount
  rw [List.countP_pos_iff]
  exact ⟨t, ht, by simpa using ho⟩

theorem DistinctPlayers.symm_rel :
    Symmetric (fun p q : Player =>
      p.userId ≠ q.userId ∧ ∀ c, p.color = some c → q.color ≠ some c) := by
  intro p q h
  exact ⟨Ne.symm h.1, fun c hq hp => h.2 c hp hq⟩

/-- Two members with the same `userId` are the same entry. -/
theorem DistinctPlayers.eq_of_userId {ps : List Player} (h : DistinctPlayers ps)
    {p q : Player} (hp : p ∈ ps) (hq : q ∈ ps) (hu : p.userId = q.userId) : p = q := by
  by_contra hne
  exact (List.Pairwise.forall DistinctPlayers.symm_rel h hp hq hne).1 hu

/-- Two members with the same non-null color are the same entry. -/
theorem DistinctPlayers.eq_of_color {ps : List Player} (h : DistinctPlayers ps)
    {p q : Player} (hp : p ∈ ps) (hq : q ∈ ps) {c : String} (hpc : p.color = some c)
    (hqc : q.color = some c) : p = q := by
  by_contra hne
  exact (List.Pairwise.forall DistinctPlayers.symm_rel h hp hq hne).2 c hpc hqc

theorem truthy_some {o : Option String} (h : truthy o = true) : ∃ c, o = some c := by
  cases o with
  | none => simp [truthy] at h
  | some c => exact ⟨c, rfl⟩

theorem mem_updatePlayer_of_distinct {ps : List Player} (h : DistinctPlayers ps)
    (f : Player → Player) (uid : UserId) {q : Player} :
    q ∈ updatePlayer f ps uid ↔ ∃ p ∈ ps, (if p.userId = uid then f p else p) = q := by
  rw [updatePlayer_eq_map f uid h.uids, List.mem_map]
/-- A member found before an update that keeps `userId` and `color` is found after it. -/
theorem holder_updatePlayer {ps : List Player} (h : DistinctPlayers ps) (f : Player → Player)
    (uid : UserId) (hid : ∀ p, (f p).userId = p.userId) (hcol : ∀ p, (f p).color = p.color)
    {o : Option UserId} {c : String}
    (hp : ∃ p ∈ ps, o = some p.userId ∧ p.color = some c) :
    ∃ p ∈ updatePlayer f ps uid, o = some p.userId ∧ p.color = some c := by
  obtain ⟨p, hp, ho, hc⟩ := hp
  refine ⟨if p.userId = uid then f p else p,
    (mem_updatePlayer_of_distinct h f uid).mpr ⟨p, hp, rfl⟩, ?_, ?_⟩
  · by_cases hpu : p.userId = uid
    · rw [if_pos hpu, hid]; exact ho
    · rw [if_neg hpu]; exact ho
  · by_cases hpu : p.userId = uid
    · rw [if_pos hpu, hcol]; exact hc
    · rw [if_neg hpu]; exact hc

/-- Invariant `ColoredByOwner` is preserved by the handlers allowed by `keepsScores`. -/
theorem coloredByOwner_step {rooms : Rooms} {socket : Socket} {event : Event} {c : String}
    {r r1 : Room} (hallow : keepsScores rooms socket event = true)
    (hcode : ∀ code, event.code? = some code → code = c ∧ rooms.get code = some r)
    (hD : DistinctPlayers r.players) (hP : ColoredByOwner r)
    (hs : RoomStep socket event r r1) : ColoredByOwner r1 := by
  cases hs with
  | join hf hlen =>
    intro t ht c1 hc1
    obtain ⟨p, hp, h1, h2⟩ := hP t ht c1 hc1
    exact ⟨p, List.mem_append_left _ hp, h1, h2⟩
  | leave => simp [keepsScores] at hallow
  | disconnect => simp [keepsScores] at hallow
  | color hc hf hothers =>
    rename_i code c0 player
    have hget := (hcode code rfl).2
    simp only [keepsScores, hget, hf] at hallow
    have hnone : player.color = none := by simpa using hallow
    intro t ht c1 hc1
    obtain ⟨p, hp, h1, h2⟩ := hP t ht c1 hc1
    have hpu : p.userId ≠ socket.userId := by
      intro hpu
      have := hD.eq_of_userId hp (findPlayer_some hf).1 (hpu.trans (findPlayer_some hf).2.symm)
      rw [this, hnone] at h2
      cases h2
    refine ⟨p, (mem_updatePlayer_of_distinct hD _ _).mpr ⟨p, hp, ?_⟩, h1, h2⟩
    rw [if_neg hpu]
  | name =>
    intro t ht c1 hc1
    refine holder_updatePlayer hD _ _ ?_ ?_ (hP t ht c1 hc1) <;> intro _ <;> rfl
  | toggle _ hf hb _ _ =>
    intro t ht c1 hc1
    rcases List.mem_or_eq_of_mem_set ht with ht | rfl
    · exact holder_updatePlayer hD _ _ decScore_userId decScore_color (hP t ht c1 hc1)
    · simp at hc1
  | undo _ hf hb _ _ =>
    intro t ht c1 hc1
    rcases List.mem_or_eq_of_mem_set ht with ht | rfl
    · exact holder_updatePlayer hD _ _ decScore_userId decScore_color (hP t ht c1 hc1)
    · simp at hc1
  | claim _ hf hb _ _ _ =>
    intro t ht c1 hc1
    rcases List.mem_or_eq_of_mem_set ht with ht | rfl
    · refine holder_updatePlayer hD _ _ ?_ ?_ (hP t ht c1 hc1) <;> intro _ <;> rfl
    · obtain ⟨hm, hpu⟩ := findPlayer_some hf
      refine holder_updatePlayer hD _ _ ?_ ?_ ⟨_, hm, ?_, hc1⟩
      · intro _; rfl
      · intro _; rfl
      · simp [hpu]
  | edit hb ho =>
    intro t ht c1 hc1
    rcases List.mem_or_eq_of_mem_set ht with ht | rfl
    · exact hP t ht c1 hc1
    · exact hP _ (List.getElem?_mem hb) c1 hc1
  | clearRoom => simp [keepsScores] at hallow
  | clearBoard =>
    intro t ht c1 hc1
    simp only [List.mem_map] at ht
    obtain ⟨t0, _, rfl⟩ := ht
    simp at hc1
  | start => exact hP
/-- Invariant `ScoresMatch` is preserved by the handlers allowed by `keepsScores`. -/
theorem scoresMatch_step {rooms : Rooms} {socket : Socket} {event : Event} {r r1 : Room}
    (hallow : keepsScores rooms socket event = true)
    (hD : DistinctPlayers r.players) (hO : OwnersAreMembers r) (hC : ColoredByOwner r)
    (hP : ScoresMatch r) (hs : RoomStep socket event r r1) : ScoresMatch r1 := by
  cases hs with
  | join hf hlen =>
    intro q hq
    rcases List.mem_append.mp hq with hq | hq
    · exact hP q hq
    · simp only [List.mem_singleton] at hq
      subst hq
      symm
      apply ownedCount_eq_zero
      intro t ht ho
      obtain ⟨p, hp, hpu⟩ := hO t ht _ ho
      exact findPlayer_none hf p hp hpu
  | leave => simp [keepsScores] at hallow
  | disconnect => simp [keepsScores] at hallow
  | color hc hf hothers =>
    intro q hq
    obtain ⟨p, hp, rfl⟩ := (mem_updatePlayer_of_distinct hD _ _).mp hq
    by_cases hpu : p.userId = socket.userId
    · rw [if_pos hpu]; exact hP p hp
    · rw [if_neg hpu]; exact hP p hp
  | name =>
    intro q hq
    obtain ⟨p, hp, rfl⟩ := (mem_updatePlayer_of_distinct hD _ _).mp hq
    by_cases hpu : p.userId = socket.userId
    · rw [if_pos hpu]; exact hP p hp
    · rw [if_neg hpu]; exact hP p hp
  | toggle hst hf hb hpc htc =>
    rename_i code i tile player
    obtain ⟨hm, hu⟩ := findPlayer_some hf
    obtain ⟨c, hc⟩ := truthy_some hpc
    obtain ⟨p0, hp0, ho0, hc0⟩ := hC tile (List.getElem?_mem hb) c (htc.trans hc)
    have hown : tile.ownerId = some socket.userId := by
      rw [ho0, hD.eq_of_color hp0 hm hc0 hc, hu]
    intro q hq
    obtain ⟨p, hp, rfl⟩ := (mem_updatePlayer_of_distinct hD _ _).mp hq
    have hcount := ownedCount_set { tile with ownerId := none, color := none } p.userId hb
    have hscore := hP p hp
    by_cases hpu : p.userId = socket.userId
    · rw [if_pos hpu]
      have hpos := ownedCount_pos (List.getElem?_mem hb) hown
      rw [hpu] at hcount hscore
      simp only [hown, if_true] at hcount
      simp only [decScore, decScore_userId]
      have hgt : p.score > 0 := by omega
      simp only [hgt, if_true, hpu]
      simp at hcount
      omega
    · rw [if_neg hpu]
      have hne : ¬ (some socket.userId = some p.userId) := by
        intro h; exact hpu (Option.some.inj h).symm
      simp only [hown, hne, if_false] at hcount
      simp at hcount
      dsimp only
      omega
  | undo hst hf hb hpc htc =>
    rename_i code i tile player
    obtain ⟨hm, hu⟩ := findPlayer_some hf
    obtain ⟨c, hc⟩ := truthy_some hpc
    obtain ⟨p0, hp0, ho0, hc0⟩ := hC tile (List.getElem?_mem hb) c (htc.trans hc)
    have hown : tile.ownerId = some socket.userId := by
      rw [ho0, hD.eq_of_color hp0 hm hc0 hc, hu]
    intro q hq
    obtain ⟨p, hp, rfl⟩ := (mem_updatePlayer_of_distinct hD _ _).mp hq
    have hcount := ownedCount_set { tile with ownerId := none, color := none } p.userId hb
    have hscore := hP p hp
    by_cases hpu : p.userId = socket.userId
    · rw [if_pos hpu]
      have hpos := ownedCount_pos (List.getElem?_mem hb) hown
      rw [hpu] at hcount hscore
      simp only [hown, if_true] at hcount
      simp only [decScore, decScore_userId]
      have hgt : p.score > 0 := by omega
      simp only [hgt, if_true, hpu]
      simp at hcount
      omega
    · rw [if_neg hpu]
      have hne : ¬ (some socket.userId = some p.userId) := by
        intro h; exact hpu (Option.some.inj h).symm
      simp only [hown, hne, if_false] at hcount
      simp at hcount
      dsimp only
      omega
  | claim hst hf hb hpc ho hstatus =>
    rename_i code i tile player status1
    intro q hq
    obtain ⟨p, hp, rfl⟩ := (mem_updatePlayer_of_distinct hD _ _).mp hq
    have hcount := ownedCount_set
      { tile with ownerId := some socket.userId, color := player.color } p.userId hb
    have hscore := hP p hp
    simp only [ho] at hcount
    by_cases hpu : p.userId = socket.userId
    · rw [if_pos hpu]
      rw [hpu] at hcount hscore
      simp at hcount
      dsimp only
      rw [hpu]
      omega
    · rw [if_neg hpu]
      have hne : ¬ (some socket.userId = some p.userId) := by
        intro h; exact hpu (Option.some.inj h).symm
      simp [hne] at hcount
      dsimp only
      omega
  | edit hb ho =>
    rename_i code i tile text
    intro q hq
    have hcount : ownedCount (r.board.set i.toNat
          { tile with label := sliceTo (jsTrim text) 50 }) q.userId
          + (if tile.ownerId = some q.userId then 1 else 0)
        = ownedCount r.board q.userId + (if tile.ownerId = some q.userId then 1 else 0) :=
      ownedCount_set { tile with label := sliceTo (jsTrim text) 50 } q.userId hb
    have hsame := Nat.add_right_cancel hcount
    show q.score = ownedCount (r.board.set i.toNat
          { tile with label := sliceTo (jsTrim text) 50 }) q.userId
    rw [hsame]
    exact hP q hq
  | clearRoom => simp [keepsScores] at hallow
  | clearBoard =>
    intro q hq
    have := hP q hq
    show q.score = ownedCount _ q.userId
    rw [this]
    unfold ownedCount
    rw [List.countP_map]
    rfl
  | start => exact hP
theorem noLeave_of_keepsScores {rooms : Rooms} {socket : Socket} {event : Event}
    (h : keepsScores rooms socket event = true) (rooms1 : Rooms) :
    noLeave rooms1 socket event = true := by
  cases event <;> first | rfl | simp [keepsScores] at h

theorem scoreInv_new (socket : Socket) (src : BoardSource) :
    ScoreInv { board := generateBoard src, players := [newPlayer socket],
               status := Status.waiting } := by
  refine ⟨List.pairwise_singleton _ _, ?_, ?_, ?_⟩
  · intro t ht u hu
    rw [(generateBoard_blank src t ht).1] at hu
    cases hu
  · intro t ht c hc
    rw [(generateBoard_blank src t ht).2] at hc
    cases hc
  · intro p hp
    simp only [List.mem_singleton] at hp
    subst hp
    symm
    apply ownedCount_eq_zero
    intro t ht ho
    rw [(generateBoard_blank src t ht).1] at ho
    cases ho

theorem scoreInv_step {rooms : Rooms} {socket : Socket} {event : Event} {c : String}
    {r r1 : Room} (hallow : keepsScores rooms socket event = true)
    (hcode : ∀ code, event.code? = some code → code = c ∧ rooms.get code = some r)
    (hP : ScoreInv r) (hs : RoomStep socket event r r1) : ScoreInv r1 :=
  ⟨distinctPlayers_step hP.1 hs,
   ownersAreMembers_step hP.2.1 hs (noLeave_of_keepsScores hallow),
   coloredByOwner_step hallow hcode hP.1 hP.2.2.1 hs,
   scoresMatch_step hallow hP.1 hP.2.1 hP.2.2.1 hP.2.2.2 hs⟩

/-- Claim C3, amended. In every registry reachable by a finite sequence of socket events
that contains no `leaveRoom`, `disconnect` or `clearRoom` and in which `chooseColor` is
only sent by a player who has no color yet in the addressed room, every player's score
equals the number of tiles of the room's board whose `ownerId` is that player's
`userId`. -/
theorem C3_score_counts_owned_tiles (rooms : Rooms) (h : ReachableVia keepsScores rooms)
    (code : String) (room : Room) (hg : rooms.get code = some room)
    (p : Player) (hp : p ∈ room.players) :
    p.score = ownedCount room.board p.userId :=
  (reachableVia_invariant ScoreInv scoreInv_new
    (fun _ _ _ _ _ _ hallow hcode hP hs => scoreInv_step hallow hcode hP hs)
    h code room (Rooms.get_mem hg)).2.2.2 p hp

/-- Witness for C3: the player of room "AAAA" in `fourTilesRooms`. -/
theorem C3_score_counts_owned_tiles_witness :
    ReachableVia keepsScores fourTilesRooms ∧
    fourTilesRooms.get "AAAA" = some fourTilesRoom ∧
    (4 : Nat) = ownedCount fourTilesRoom.board 1 :=
  ⟨reachableVia_runVia ReachableVia.init fourTilesTrace (by rfl), by rfl,
   C3_score_counts_owned_tiles fourTilesRooms
     (reachableVia_runVia ReachableVia.init fourTilesTrace (by rfl)) "AAAA" fourTilesRoom
     (by rfl) { userId := 1, name := "Gracz-AAAA", color := some "#e74c3c", score := 4 }
     (by decide)⟩

/-- Claim C3, counterexample. After `sockA` claimed tile 0 of room "AAAA" and sent
`clearRoom`, the reachable registry has a fresh board on which `sockA` owns 0 tiles
while the score of `sockA` is still 1. -/
theorem C3_counterexample_clearRoom_keeps_score :
    Reachable clearRoomRooms ∧
    (clearRoomRooms.get "AAAA").map
        (fun r => r.players.map (fun p => (p.userId, p.score, ownedCount r.board p.userId)))
      = some [(1, 1, 0)] :=
  ⟨reachableVia_runVia ReachableVia.init clearRoomTrace (by rfl), by rfl⟩
/-! ## C11: at most two players, distinct userIds -/

/-- The players list never grows beyond 2 entries. -/
theorem playersLength_step {socket : Socket} {event : Event} {r r1 : Room}
    (hP : r.players.length ≤ 2) (hs : RoomStep socket event r r1) :
    r1.players.length ≤ 2 := by
  cases hs with
  | join hf hlen => simp only [List.length_append, List.length_singleton]; omega
  | leave => exact Nat.le_trans (List.length_filter_le _ _) hP
  | disconnect => exact Nat.le_trans (List.length_filter_le _ _) hP
  | color hc hf hothers => simp only [updatePlayer_length]; exact hP
  | name => simp only [updatePlayer_length]; exact hP
  | toggle _ _ _ _ _ => simp only [updatePlayer_length]; exact hP
  | undo _ _ _ _ _ => simp only [updatePlayer_length]; exact hP
  | claim _ _ _ _ _ _ => simp only [updatePlayer_length]; exact hP
  | edit _ _ => exact hP
  | clearRoom => exact hP
  | clearBoard => exact hP
  | start => exact hP

/-- Claim C11. In every registry reachable by any finite sequence of socket events, every
room's players list has at most 2 entries and no two entries (at different positions)
share a `userId`. -/
theorem C11_at_most_two_distinct_players (rooms : Rooms) (h : Reachable rooms)
    (code : String) (room : Room) (hg : rooms.get code = some room) :
    room.players.length ≤ 2 ∧
    ∀ (i j : Nat) (p q : Player), i ≠ j → room.players[i]? = some p →
      room.players[j]? = some q → p.userId ≠ q.userId := by
  have hlen : room.players.length ≤ 2 :=
    reachableVia_invariant (fun r => r.players.length ≤ 2)
      (fun _ _ => by simp)
      (fun _ _ _ _ _ _ _ _ hP hs => playersLength_step hP hs) h code room (Rooms.get_mem hg)
  have hinv : DistinctPlayers room.players :=
    reachableVia_invariant (fun r => DistinctPlayers r.players)
      (fun _ _ => List.pairwise_singleton _ _)
      (fun _ _ _ _ _ _ _ _ hP hs => distinctPlayers_step hP hs) h code room (Rooms.get_mem hg)
  refine ⟨hlen, ?_⟩
  intro i j p q hij hp hq
  have hpw := List.pairwise_iff_getElem.mp hinv.uids
  obtain ⟨hi, hpi⟩ := List.getElem?_eq_some_iff.mp hp
  obtain ⟨hj, hqj⟩ := List.getElem?_eq_some_iff.mp hq
  rcases Nat.lt_or_gt_of_ne hij with hlt | hgt
  · have := hpw i j hi hj hlt
    rw [hpi, hqj] at this
    exact this
  · have := hpw j i hj hi hgt
    rw [hpi, hqj] at this
    exact Ne.symm this

/-- Witness for C11: room "AAAA" of `twoColorsRooms` has two players with userIds 1, 2. -/
theorem C11_at_most_two_distinct_players_witness :
    Reachable twoColorsRooms ∧ twoColorsRooms.get "AAAA" = some twoColorsRoom ∧
    twoColorsRoom.players.length ≤ 2 ∧ (1 : UserId) ≠ 2 :=
  ⟨reachableVia_runVia ReachableVia.init twoColorsTrace (by rfl), by rfl,
   (C11_at_most_two_distinct_players twoColorsRooms
     (reachableVia_runVia ReachableVia.init twoColorsTrace (by rfl)) "AAAA" twoColorsRoom
     (by rfl)).1,
   (C11_at_most_two_distinct_players twoColorsRooms
     (reachableVia_runVia ReachableVia.init twoColorsTrace (by rfl)) "AAAA" twoColorsRoom
     (by rfl)).2 0 1
     { userId := 1, name := "Gracz-AAAA", color := some "#e74c3c", score := 0 }
     { userId := 2, name := "Gracz-BBBB", color := some "#3498db", score := 0 }
     (by decide) (by rfl) (by rfl)⟩

/-! ## C12: the line catalog -/

/-- Claim C12. The function `computeLines` returns exactly 12 lines: the 5 rows
`[5r, 5r+1, 5r+2, 5r+3, 5r+4]` for r = 0..4, the 5 columns `[c, c+5, c+10, c+15, c+20]`
for c = 0..4, the main diagonal and the anti-diagonal; every line has 5 indices, every
index is below 25, and no two lines (at different positions) have the same set of
indices. -/
theorem C12_computeLines_catalog :
    computeLines =
      (List.range 5).map (fun r => [5 * r, 5 * r + 1, 5 * r + 2, 5 * r + 3, 5 * r + 4]) ++
      (List.range 5).map (fun c => [c, c + 5, c + 10, c + 15, c + 20]) ++
      [[0, 6, 12, 18, 24], [4, 8, 12, 16, 20]] ∧
    computeLines.length = 12 ∧
    (∀ line ∈ computeLines, line.length = 5 ∧ ∀ idx ∈ line, idx < 25) ∧
    computeLines.Pairwise (fun a b => ¬ (∀ idx, idx ∈ a ↔ idx ∈ b)) := by
  refine ⟨by decide, by decide, by decide, ?_⟩
  have h : computeLines.Pairwise (fun a b => ∃ idx ∈ a, idx ∉ b) := by decide
  exact List.Pairwise.imp (fun ⟨idx, ha, hb⟩ hall => hb ((hall idx).mp ha)) h
/-! ## C17: other rooms are untouched -/

theorem Rooms.get_delete_ne {rooms : Rooms} {code c : String} (hne : c ≠ code) :
    (rooms.delete code).get c = rooms.get c := by
  induction rooms with
  | nil => rfl
  | cons x rest ih =>
    obtain ⟨c0, r0⟩ := x
    by_cases hc : c0 = code
    · subst hc
      have : ¬ c0 = c := fun h => hne h.symm
      simp [Rooms.delete, Rooms.get, this]
    · by_cases hc2 : c0 = c
      · subst hc2
        simp [Rooms.delete, Rooms.get, hc]
      · simp [Rooms.delete, Rooms.get, hc, hc2, ih]

theorem Rooms.filter_replace (rooms : Rooms) (code : String) (room : Room) :
    (rooms.replace code room).filter (fun e => decide (e.1 ≠ code))
      = rooms.filter (fun e => decide (e.1 ≠ code)) := by
  induction rooms with
  | nil => rfl
  | cons x rest ih =>
    obtain ⟨c0, r0⟩ := x
    by_cases hc : c0 = code
    · simp [Rooms.replace, hc]
    · simp [Rooms.replace, hc]
      simpa using ih

theorem Rooms.filter_delete (rooms : Rooms) (code : String) :
    (rooms.delete code).filter (fun e => decide (e.1 ≠ code))
      = rooms.filter (fun e => decide (e.1 ≠ code)) := by
  induction rooms with
  | nil => rfl
  | cons x rest ih =>
    obtain ⟨c0, r0⟩ := x
    by_cases hc : c0 = code
    · simp [Rooms.delete, hc]
    · simp [Rooms.delete, hc]
      simpa using ih

/-- Claim C17. Every socket event that carries a room code (joinRoom, leaveRoom,
chooseColor, setName, clickTile, undoTile, editTile, clearRoom, clearBoard, startGame)
leaves the registry entries under every other code unchanged: a lookup of another code
returns the same room (same board, players and status) or is absent as before, and the
sequence of entries with other codes is the same, none added and none removed. -/
theorem C17_other_rooms_untouched (rooms : Rooms) (socket : Socket) (event : Event)
    (code : String) (rooms1 : Rooms) (out : List Emit)
    (hcode : event.code? = some code)
    (h : handle rooms socket event = Except.ok (rooms1, out)) :
    (∀ c, c ≠ code → rooms1.get c = rooms.get c) ∧
    rooms1.filter (fun e => decide (e.1 ≠ code))
      = rooms.filter (fun e => decide (e.1 ≠ code)) := by
  rcases handle_scoped hcode h with hs | ⟨room, room1, _, hs, _⟩ | ⟨_, hs⟩
  · subst hs
    exact ⟨fun _ _ => rfl, rfl⟩
  · subst hs
    exact ⟨fun c hne => Rooms.get_replace_ne _ hne, Rooms.filter_replace _ _ _⟩
  · subst hs
    exact ⟨fun c hne => Rooms.get_delete_ne hne, Rooms.filter_delete _ _⟩

/-- Witness for C17: `sockA` clicks tile 0 of room "AAAA" in a registry that also holds
room "BBBB". -/
theorem C17_other_rooms_untouched_witness :
    (roomAfter (handle [("AAAA", twoColorsRoom), ("BBBB", nearlyFullRoom)] sockA
        (Event.clickTile "AAAA" (some 0))) "AAAA").map (fun r => r.board[0]?)
      = some (some { label := "Task 1", ownerId := some 1, color := some "#e74c3c" }) ∧
    roomAfter (handle [("AAAA", twoColorsRoom), ("BBBB", nearlyFullRoom)] sockA
        (Event.clickTile "AAAA" (some 0))) "BBBB" = some nearlyFullRoom :=
  ⟨by rfl,
   (C17_other_rooms_untouched [("AAAA", twoColorsRoom), ("BBBB", nearlyFullRoom)] sockA
     (Event.clickTile "AAAA" (some 0)) "AAAA"
     ((handle [("AAAA", twoColorsRoom), ("BBBB", nearlyFullRoom)] sockA
        (Event.clickTile "AAAA" (some 0))).toOption.getD ([], [])).1
     ((handle [("AAAA", twoColorsRoom), ("BBBB", nearlyFullRoom)] sockA
        (Event.clickTile "AAAA" (some 0))).toOption.getD ([], [])).2
     (by rfl) (by rfl)).1 "BBBB" (by decide)⟩
/-! ## C14: leaveRoom -/

theorem Rooms.get_delete_self {rooms : Rooms} (hu : UniqueCodes rooms) (code : String) :
    (rooms.delete code).get code = none := by
  induction rooms with
  | nil => rfl
  | cons x rest ih =>
    obtain ⟨c0, r0⟩ := x
    unfold UniqueCodes at hu
    simp only [List.map_cons, List.nodup_cons] at hu
    by_cases hc : c0 = code
    · subst hc
      simp only [Rooms.delete, if_true]
      cases hget : Rooms.get rest c0 with
      | none => rfl
      | some r => exact absurd (List.mem_map_of_mem Prod.fst (Rooms.get_mem hget)) hu.1
    · simp only [Rooms.delete, hc, if_false, Rooms.get]
      exact ih hu.2

/-- Claim C14. After `leaveRoom` on an existing room of a registry with pairwise distinct
codes: the identity is not in that room's players; when no player remains the code is no
longer in the registry; otherwise the room stays under its code with the remaining
players in their previous order and with board and status unchanged. On an unknown code
`leaveRoom` does nothing. -/
theorem C14_leaveRoom_effect (rooms : Rooms) (hu : UniqueCodes rooms) (socket : Socket)
    (code : String) :
    (rooms.get code = none → leaveRoom rooms socket code = Except.ok (rooms, [])) ∧
    (∀ room, rooms.get code = some room →
      (∀ room1, roomAfter (leaveRoom rooms socket code) code = some room1 →
        ∀ p ∈ room1.players, p.userId ≠ socket.userId) ∧
      (room.players.filter (fun p => decide (p.userId ≠ socket.userId)) = [] →
        roomAfter (leaveRoom rooms socket code) code = none) ∧
      (room.players.filter (fun p => decide (p.userId ≠ socket.userId)) ≠ [] →
        roomAfter (leaveRoom rooms socket code) code
          = some { board := room.board,
                   players := room.players.filter (fun p => decide (p.userId ≠ socket.userId)),
                   status := room.status })) := by
  constructor
  · intro hg
    simp [leaveRoom, hg]
  · intro room hg
    have hempty : room.players.filter (fun p => decide (p.userId ≠ socket.userId)) = [] →
        roomAfter (leaveRoom rooms socket code) code = none := by
      intro hf
      have : (removePlayer room socket.userId).players.length = 0 := by
        simp only [removePlayer, hf, List.length_nil]
      simp only [leaveRoom, hg, this, if_true, roomAfter]
      exact Rooms.get_delete_self hu code
    have hsome : room.players.filter (fun p => decide (p.userId ≠ socket.userId)) ≠ [] →
        roomAfter (leaveRoom rooms socket code) code
          = some { board := room.board,
                   players := room.players.filter (fun p => decide (p.userId ≠ socket.userId)),
                   status := room.status } := by
      intro hf
      have : ¬ (removePlayer room socket.userId).players.length = 0 := by
        simp only [removePlayer, List.length_eq_zero]
        exact hf
      simp only [leaveRoom, hg, this, if_false, roomAfter]
      exact Rooms.get_replace_self _ hg
    refine ⟨?_, hempty, hsome⟩
    intro room1 h1 p hp
    by_cases hf : room.players.filter (fun p => decide (p.userId ≠ socket.userId)) = []
    · rw [hempty hf] at h1
      cases h1
    · rw [hsome hf] at h1
      cases h1
      have := (List.mem_filter.mp hp).2
      simpa using this

/-- Witness for C14: `sockA` leaves room "AAAA" of `twoColorsRooms`; `sockB` remains. -/
theorem C14_leaveRoom_effect_witness :
    UniqueCodes twoColorsRooms ∧ twoColorsRooms.get "AAAA" = some twoColorsRoom ∧
    roomAfter (leaveRoom twoColorsRooms sockA "AAAA") "AAAA"
      = some { board := twoColorsRoom.board,
               players := [{ userId := 2, name := "Gracz-BBBB", color := some "#3498db",
                             score := 0 }],
               status := Status.waiting } :=
  ⟨by decide, by rfl,
   ((C14_leaveRoom_effect twoColorsRooms (by decide) sockA "AAAA").2 twoColorsRoom
     (by rfl)).2.2 (by decide)⟩
/-! ## C15: silent rejections -/

/-- Claim C15. The handler `clickTile` returns the registry unchanged and emits nothing
whenever the room code is unknown, the room's status is finished, the acting identity is
not a member or is a member without a color, or the index is not an integer (`none`) or
lies outside [0,25); `undoTile` returns the registry unchanged and emits nothing whenever
the room's status is finished. -/
theorem C15_silent_rejections (rooms : Rooms) (socket : Socket) (code : String)
    (index : Option Int) :
    (rooms.get code = none → clickTile rooms socket code index = Except.ok (rooms, [])) ∧
    (∀ room, rooms.get code = some room →
      (room.status = Status.finished ∨
       findPlayer room.players socket.userId = none ∨
       (∃ p, findPlayer room.players socket.userId = some p ∧ p.color = none) ∨
       index = none ∨
       (∃ i, index = some i ∧ (i < 0 ∨ 25 ≤ i))) →
      clickTile rooms socket code index = Except.ok (rooms, [])) ∧
    (∀ room, rooms.get code = some room → room.status = Status.finished →
      undoTile rooms socket code index = Except.ok (rooms, [])) := by
  refine ⟨?_, ?_, ?_⟩
  · intro hg
    simp [clickTile, hg]
  · intro room hg hcase
    unfold clickTile
    simp only [hg]
    by_cases hst : room.status = Status.finished
    · simp [hst]
    · simp only [hst, if_false]
      cases hf : findPlayer room.players socket.userId with
      | none => rfl
      | some player =>
        simp only []
        cases hpc : truthy player.color with
        | false => simp
        | true =>
          simp only [Bool.not_true, Bool.false_eq_true, if_false]
          rcases hcase with h | h | ⟨p, hp, hcol⟩ | h | ⟨i, hi, hrange⟩
          · exact absurd h hst
          · rw [hf] at h; cases h
          · rw [hf] at hp
            cases hp
            rw [hcol] at hpc
            simp [truthy] at hpc
          · subst h; rfl
          · subst hi
            have hr : i < 0 ∨ i ≥ (TOTAL_TILES : Int) := by
              simp only [TOTAL_TILES, BOARD_SIZE]; push_cast; omega
            simp only [hr, if_true]
  · intro room hg hst
    simp [undoTile, hg, hst]

/-- Witness for C15: in `topRowRooms` room "AAAA" is finished, so a further click is
dropped. -/
theorem C15_silent_rejections_witness :
    (topRowRooms.get "AAAA").map (fun r => r.status) = some Status.finished ∧
    clickTile topRowRooms sockA "AAAA" (some 7) = Except.ok (topRowRooms, []) :=
  ⟨by rfl,
   (C15_silent_rejections topRowRooms sockA "AAAA" (some 7)).2.1
     ((topRowRooms.get "AAAA").getD { board := [], players := [], status := Status.waiting })
     (by rfl) (Or.inl (by rfl))⟩
/-! ## C20: boards have 25 tiles -/

theorem swapAt_length (copy : List String) (i j : Nat) :
    (swapAt copy i j).length = copy.length := by
  unfold swapAt
  split <;> simp

theorem shuffleLoop_length (rand : Nat → Nat) (k : Nat) (copy : List String) :
    (shuffleLoop rand k copy).length = copy.length := by
  induction k generalizing copy with
  | zero => rfl
  | succ k ih => simp only [shuffleLoop, ih, swapAt_length]

theorem generateBoard_length (src : BoardSource) : (generateBoard src).length = 25 := by
  unfold generateBoard
  simp only [List.length_map]
  split
  · rename_i h
    simp only [pickUnique, List.length_take, shuffleLoop_length, TOTAL_TILES, BOARD_SIZE] at h ⊢
    omega
  · rename_i h
    simp only [List.length_append, List.length_map, List.length_range, TOTAL_TILES,
      BOARD_SIZE] at h ⊢
    omega

/-- The board length is preserved by every handler. -/
theorem boardLength_step {socket : Socket} {event : Event} {r r1 : Room}
    (hP : r.board.length = 25) (hs : RoomStep socket event r r1) : r1.board.length = 25 := by
  cases hs with
  | join hf hlen => exact hP
  | leave => exact hP
  | disconnect => exact hP
  | color hc hf hothers => exact hP
  | name => exact hP
  | toggle _ _ _ _ _ => simp only [List.length_set]; exact hP
  | undo _ _ _ _ _ => simp only [List.length_set]; exact hP
  | claim _ _ _ _ _ _ => simp only [List.length_set]; exact hP
  | edit _ _ => simp only [List.length_set]; exact hP
  | clearRoom => exact generateBoard_length _
  | clearBoard => simp only [List.length_map]; exact hP
  | start => exact hP

theorem board_getElem_of_length {board : List Tile} (hlen : board.length = 25) {i : Int}
    (hr : ¬ (i < 0 ∨ i ≥ (TOTAL_TILES : Int))) : ∃ tile, board[i.toNat]? = some tile := by
  have h25 : (TOTAL_TILES : Int) = 25 := by simp [TOTAL_TILES, BOARD_SIZE]
  rw [h25] at hr
  have hlt : i.toNat < board.length := by omega
  exact ⟨board[i.toNat], List.getElem?_eq_getElem hlt⟩

theorem clickTile_completes {rooms : Rooms} (socket : Socket) {code : String} {room : Room}
    (index : Option Int) (hg : rooms.get code = some room) (hlen : room.board.length = 25) :
    ∃ r, clickTile rooms socket code index = Except.ok r := by
  unfold clickTile
  simp only [hg]
  by_cases hst : room.status = Status.finished
  · simp only [hst, if_true]
    exact ⟨_, rfl⟩
  simp only [hst, if_false]
  cases hf : findPlayer room.players socket.userId with
  | none => exact ⟨_, rfl⟩
  | some player =>
    simp only []
    cases hpc : truthy player.color with
    | false =>
      simp only [Bool.not_false, if_true]
      exact ⟨_, rfl⟩
    | true =>
      simp only [Bool.not_true, Bool.false_eq_true, if_false]
      cases index with
      | none => exact ⟨_, rfl⟩
      | some i =>
        simp only []
        by_cases hr : i < 0 ∨ i ≥ (TOTAL_TILES : Int)
        · simp only [hr, if_true]
          exact ⟨_, rfl⟩
        simp only [hr, if_false]
        obtain ⟨tile, hb⟩ := board_getElem_of_length hlen hr
        simp only [hb]
        split
        · exact ⟨_, rfl⟩
        · split
          · exact ⟨_, rfl⟩
          · split
            · exact ⟨_, rfl⟩
            · split <;> exact ⟨_, rfl⟩

theorem undoTile_completes {rooms : Rooms} (socket : Socket) {code : String} {room : Room}
    (index : Option Int) (hg : rooms.get code = some room) (hlen : room.board.length = 25) :
    ∃ r, undoTile rooms socket code index = Except.ok r := by
  unfold undoTile
  simp only [hg]
  by_cases hst : room.status = Status.finished
  · simp only [hst, if_true]
    exact ⟨_, rfl⟩
  simp only [hst, if_false]
  cases hf : findPlayer room.players socket.userId with
  | none => exact ⟨_, rfl⟩
  | some player =>
    simp only []
    cases index with
    | none => exact ⟨_, rfl⟩
    | some i =>
      simp only []
      by_cases hr : i < 0 ∨ i ≥ (TOTAL_TILES : Int)
      · simp only [hr, if_true]
        exact ⟨_, rfl⟩
      simp only [hr, if_false]
      obtain ⟨tile, hb⟩ := board_getElem_of_length hlen hr
      simp only [hb]
      split <;> exact ⟨_, rfl⟩

theorem editTile_completes {rooms : Rooms} {code : String} {room : Room}
    (tileId : Option Int) (text : String) (hg : rooms.get code = some room)
    (hlen : room.board.length = 25) :
    ∃ r, editTile rooms code tileId text = Except.ok r := by
  unfold editTile
  simp only [hg]
  cases tileId with
  | none => exact ⟨_, rfl⟩
  | some i =>
    simp only []
    by_cases hr : i < 0 ∨ i ≥ (TOTAL_TILES : Int)
    · simp only [hr, if_true]
      exact ⟨_, rfl⟩
    simp only [hr, if_false]
    obtain ⟨tile, hb⟩ := board_getElem_of_length hlen hr
    simp only [hb]
    split <;> exact ⟨_, rfl⟩

/-- Claim C20. In every registry reachable by any finite sequence of socket events (for
any phrase file content and any random choices), every room's board has exactly 25
tiles; hence `room.board[i]` is a tile for every integer `0 <= i < 25`, and `clickTile`,
`undoTile` and `editTile` on that room always complete (they never read a field of
`undefined`). -/
theorem C20_board_has_25_tiles (rooms : Rooms) (h : Reachable rooms) (code : String)
    (room : Room) (hg : rooms.get code = some room) :
    room.board.length = 25 ∧
    (∀ i : Int, 0 ≤ i → i < 25 → ∃ tile, room.board[i.toNat]? = some tile) ∧
    (∀ socket index, ∃ r, clickTile rooms socket code index = Except.ok r) ∧
    (∀ socket index, ∃ r, undoTile rooms socket code index = Except.ok r) ∧
    (∀ tileId text, ∃ r, editTile rooms code tileId text = Except.ok r) := by
  have hlen : room.board.length = 25 :=
    reachableVia_invariant (fun r => r.board.length = 25)
      (fun _ src => generateBoard_length src)
      (fun _ _ _ _ _ _ _ _ hP hs => boardLength_step hP hs) h code room (Rooms.get_mem hg)
  refine ⟨hlen, ?_, fun socket index => clickTile_completes socket index hg hlen,
    fun socket index => undoTile_completes socket index hg hlen,
    fun tileId text => editTile_completes tileId text hg hlen⟩
  intro i h0 h25
  apply board_getElem_of_length hlen
  simp only [TOTAL_TILES, BOARD_SIZE]
  push_cast
  omega

/-- Witness for C20: the board of room "AAAA" in `twoColorsRooms`. -/
theorem C20_board_has_25_tiles_witness :
    Reachable twoColorsRooms ∧ twoColorsRooms.get "AAAA" = some twoColorsRoom ∧
    twoColorsRoom.board.length = 25 :=
  ⟨reachableVia_runVia ReachableVia.init twoColorsTrace (by rfl), by rfl,
   (C20_board_has_25_tiles twoColorsRooms
     (reachableVia_runVia ReachableVia.init twoColorsTrace (by rfl)) "AAAA" twoColorsRoom
     (by rfl)).1⟩
/-! ## C16: gameOver exactly on the transition to finished -/

theorem joinRoom_no_gameOver {rooms rooms1 : Rooms} {socket : Socket} {code : String}
    {out : List Emit} (h : joinRoom rooms socket code = Except.ok (rooms1, out)) :
    gameOvers out = [] := by
  unfold joinRoom at h
  simp only [] at h
  repeat' split at h
  all_goals
    simp only [Except.ok.injEq, Prod.mk.injEq] at h
    obtain ⟨_, rfl⟩ := h
    simp [gameOvers, Message.isGameOver, stateUpdate, roomsUpdate]

theorem leaveRoom_no_gameOver {rooms rooms1 : Rooms} {socket : Socket} {code : String}
    {out : List Emit} (h : leaveRoom rooms socket code = Except.ok (rooms1, out)) :
    gameOvers out = [] := by
  unfold leaveRoom at h
  simp only [] at h
  repeat' split at h
  all_goals
    simp only [Except.ok.injEq, Prod.mk.injEq] at h
    obtain ⟨_, rfl⟩ := h
    simp [gameOvers, Message.isGameOver, stateUpdate, roomsUpdate]

theorem chooseColor_no_gameOver {rooms rooms1 : Rooms} {socket : Socket} {code : String}
    {color : Option String} {out : List Emit}
    (h : chooseColor rooms socket code color = Except.ok (rooms1, out)) :
    gameOvers out = [] := by
  unfold chooseColor at h
  simp only [] at h
  repeat' split at h
  all_goals
    simp only [Except.ok.injEq, Prod.mk.injEq] at h
    obtain ⟨_, rfl⟩ := h
    simp [gameOvers, Message.isGameOver, stateUpdate, roomsUpdate]

theorem setName_no_gameOver {rooms rooms1 : Rooms} {socket : Socket} {code name : String}
    {out : List Emit} (h : setName rooms socket code name = Except.ok (rooms1, out)) :
    gameOvers out = [] := by
  unfold setName at h
  simp only [] at h
  repeat' split at h
  all_goals
    simp only [Except.ok.injEq, Prod.mk.injEq] at h
    obtain ⟨_, rfl⟩ := h
    simp [gameOvers, Message.isGameOver, stateUpdate, roomsUpdate]

theorem undoTile_no_gameOver {rooms rooms1 : Rooms} {socket : Socket} {code : String}
    {index : Option Int} {out : List Emit}
    (h : undoTile rooms socket code index = Except.ok (rooms1, out)) :
    gameOvers out = [] := by
  unfold undoTile at h
  simp only [] at h
  repeat' split at h
  all_goals first
    | (simp only [Except.ok.injEq, Prod.mk.injEq] at h
       obtain ⟨_, rfl⟩ := h
       simp [gameOvers, Message.isGameOver, stateUpdate, roomsUpdate])
    | (simp at h)

theorem editTile_no_gameOver {rooms rooms1 : Rooms} {code text : String}
    {tileId : Option Int} {out : List Emit}
    (h : editTile rooms code tileId text = Except.ok (rooms1, out)) :
    gameOvers out = [] := by
  unfold editTile at h
  simp only [] at h
  repeat' split at h
  all_goals first
    | (simp only [Except.ok.injEq, Prod.mk.injEq] at h
       obtain ⟨_, rfl⟩ := h
       simp [gameOvers, Message.isGameOver, stateUpdate, roomsUpdate])
    | (simp at h)

theorem clearRoom_no_gameOver {rooms rooms1 : Rooms} {code : String} {src : BoardSource}
    {out : List Emit} (h : clearRoom rooms code src = Except.ok (rooms1, out)) :
    gameOvers out = [] := by
  unfold clearRoom at h
  simp only [] at h
  repeat' split at h
  all_goals
    simp only [Except.ok.injEq, Prod.mk.injEq] at h
    obtain ⟨_, rfl⟩ := h
    simp [gameOvers, Message.isGameOver, stateUpdate, roomsUpdate]

theorem clearBoard_no_gameOver {rooms rooms1 : Rooms} {code : String}
    {out : List Emit} (h : clearBoard rooms code = Except.ok (rooms1, out)) :
    gameOvers out = [] := by
  unfold clearBoard at h
  simp only [] at h
  repeat' split at h
  all_goals
    simp only [Except.ok.injEq, Prod.mk.injEq] at h
    obtain ⟨_, rfl⟩ := h
    simp [gameOvers, Message.isGameOver, stateUpdate, roomsUpdate]

theorem startGame_no_gameOver {rooms rooms1 : Rooms} {code : String}
    {out : List Emit} (h : startGame rooms code = Except.ok (rooms1, out)) :
    gameOvers out = [] := by
  unfold startGame at h
  simp only [] at h
  repeat' split at h
  all_goals
    simp only [Except.ok.injEq, Prod.mk.injEq] at h
    obtain ⟨_, rfl⟩ := h
    simp [gameOvers, Message.isGameOver, stateUpdate, roomsUpdate]

theorem createRoom_no_gameOver {rooms rooms1 : Rooms} {socket : Socket}
    {draws : List CodeDraw} {src : BoardSource} {out : List Emit}
    (h : createRoom rooms socket draws src = Except.ok (rooms1, out)) :
    gameOvers out = [] := by
  unfold createRoom at h
  simp only [] at h
  repeat' split at h
  all_goals first
    | (simp only [Except.ok.injEq, Prod.mk.injEq] at h
       obtain ⟨_, rfl⟩ := h
       simp [gameOvers, Message.isGameOver, stateUpdate, roomsUpdate])
    | (simp at h)

theorem disconnectLoop_no_gameOver (uid : UserId) (rooms : Rooms) :
    gameOvers (disconnectLoop uid rooms).2 = [] := by
  induction rooms with
  | nil => rfl
  | cons x rest ih =>
    obtain ⟨c, r⟩ := x
    simp only [disconnectLoop]
    split
    · split
      · exact ih
      · simp only [gameOvers, List.filter_cons, stateUpdate, Message.isGameOver] at ih ⊢
        simpa using ih
    · exact ih

theorem disconnect_no_gameOver {rooms rooms1 : Rooms} {socket : Socket}
    {out : List Emit} (h : disconnect rooms socket = Except.ok (rooms1, out)) :
    gameOvers out = [] := by
  simp only [disconnect, Except.ok.injEq, Prod.mk.injEq] at h
  obtain ⟨_, rfl⟩ := h
  have := disconnectLoop_no_gameOver socket.userId rooms
  simp only [gameOvers, List.filter_append] at this ⊢
  rw [this]
  simp [roomsUpdate, Message.isGameOver]

theorem status_same_of_unchanged (rooms : Rooms) (code : String) :
    gameOvers [] = [] ∧ ∀ room room1, rooms.get code = some room →
      rooms.get code = some room1 → room1.status = room.status := by
  refine ⟨rfl, ?_⟩
  intro room room1 h1 h2
  rw [h1] at h2
  cases h2
  rfl

theorem status_same_of_write {rooms : Rooms} {code : String} {room : Room}
    (hg : rooms.get code = some room) (r2 : Room) (hs : r2.status = room.status)
    (o : List Emit) (ho : gameOvers o = []) :
    gameOvers o = [] ∧ ∀ rm rm1, rooms.get code = some rm →
      (rooms.replace code r2).get code = some rm1 → rm1.status = rm.status := by
  refine ⟨ho, ?_⟩
  intro rm rm1 h1 h2
  rw [hg] at h1
  cases h1
  rw [Rooms.get_replace_self _ hg] at h2
  cases h2
  exact hs

/-- Outcome of `clickTile` as far as `gameOver` goes: either no `gameOver` is emitted and
the status of the addressed room is unchanged, or the room was live, is written back
finished, and exactly one `gameOver` is emitted, to that room. -/
theorem clickTile_outcome {rooms rooms1 : Rooms} {socket : Socket} {code : String}
    {index : Option Int} {out : List Emit}
    (h : clickTile rooms socket code index = Except.ok (rooms1, out)) :
    (gameOvers out = [] ∧ ∀ room room1, rooms.get code = some room →
        rooms1.get code = some room1 → room1.status = room.status) ∨
    (∃ room room2 winner reason, rooms.get code = some room ∧
        room.status ≠ Status.finished ∧ rooms1.get code = some room2 ∧
        room2.status = Status.finished ∧
        gameOvers out = [⟨Target.room code, Message.gameOver winner reason⟩]) := by
  unfold clickTile at h
  by_cases hnone : rooms.get code = none
  · simp only [hnone, Except.ok.injEq, Prod.mk.injEq] at h
    obtain ⟨rfl, rfl⟩ := h
    exact Or.inl (status_same_of_unchanged _ _)
  · obtain ⟨room, hg⟩ := Option.ne_none_iff_exists'.mp hnone
    simp only [hg] at h
    repeat' split at h
    all_goals first
      | (simp only [Except.ok.injEq, Prod.mk.injEq] at h
         obtain ⟨rfl, rfl⟩ := h
         first
           | exact Or.inl (status_same_of_unchanged _ _)
           | (refine Or.inl (status_same_of_write hg _ ?_ _ ?_)
              · rfl
              · simp [gameOvers, Message.isGameOver, stateUpdate])
           | exact Or.inr ⟨room, _, _, _, hg, by assumption,
                Rooms.get_replace_self _ hg, rfl, rfl⟩)
      | (simp at h)

theorem handle_get_ne {rooms rooms1 : Rooms} {socket : Socket} {event : Event}
    {code : String} {out : List Emit} (hcode : event.code? = some code)
    (h : handle rooms socket event = Except.ok (rooms1, out)) {c : String} (hne : c ≠ code) :
    rooms1.get c = rooms.get c := by
  rcases handle_scoped hcode h with hs | ⟨room, room1, _, hs, _⟩ | ⟨_, hs⟩
  · rw [hs]
  · rw [hs]; exact Rooms.get_replace_ne _ hne
  · rw [hs]; exact Rooms.get_delete_ne hne

theorem handle_no_gameOver {rooms rooms1 : Rooms} {socket : Socket} {event : Event}
    {out : List Emit} (hev : ∀ c i, event ≠ Event.clickTile c i)
    (h : handle rooms socket event = Except.ok (rooms1, out)) : gameOvers out = [] := by
  cases event with
  | createRoom draws src => exact createRoom_no_gameOver h
  | joinRoom code => exact joinRoom_no_gameOver h
  | leaveRoom code => exact leaveRoom_no_gameOver h
  | chooseColor code color => exact chooseColor_no_gameOver h
  | setName code name => exact setName_no_gameOver h
  | clickTile code index => exact absurd rfl (hev code index)
  | undoTile code index => exact undoTile_no_gameOver h
  | editTile code tileId text => exact editTile_no_gameOver h
  | clearRoom code src => exact clearRoom_no_gameOver h
  | clearBoard code => exact clearBoard_no_gameOver h
  | startGame code => exact startGame_no_gameOver h
  | disconnect => exact disconnect_no_gameOver h

theorem roomStep_not_finishing {socket : Socket} {event : Event} {r r1 : Room}
    (hs : RoomStep socket event r r1) (hev : ∀ c i, event ≠ Event.clickTile c i)
    (hfin : r1.status = Status.finished) : r.status = Status.finished := by
  cases hs with
  | toggle _ _ _ _ _ => exact absurd rfl (hev _ _)
  | claim _ _ _ _ _ _ => exact absurd rfl (hev _ _)
  | start => cases hfin
  | _ => exact hfin

/-- Claim C16. For every completed socket event on a registry with pairwise distinct
codes: when a room's status goes from a non-finished value to finished, the `gameOver`
emits of the event are exactly one, addressed to that room; and when no room makes that
transition, the event emits no `gameOver`. -/
theorem C16_gameOver_iff_finishing (rooms : Rooms) (hu : UniqueCodes rooms) (socket : Socket)
    (event : Event) (rooms1 : Rooms) (out : List Emit)
    (h : handle rooms socket event = Except.ok (rooms1, out)) :
    (∀ code room room1, rooms.get code = some room → rooms1.get code = some room1 →
      room.status ≠ Status.finished → room1.status = Status.finished →
      ∃ winner reason, gameOvers out = [⟨Target.room code, Message.gameOver winner reason⟩]) ∧
    ((∀ code room room1, rooms.get code = some room → rooms1.get code = some room1 →
      room.status ≠ Status.finished → room1.status ≠ Status.finished) →
      gameOvers out = []) := by
  by_cases hev : ∀ c i, event ≠ Event.clickTile c i
  · refine ⟨?_, fun _ => handle_no_gameOver hev h⟩
    intro code room room1 hg hg1 hlive hfin
    exfalso
    rcases handle_mem h (Rooms.get_mem hg1) with hm | ⟨r, hr, _, hs⟩ | ⟨_, _, _, hnone, _⟩
    · have := Rooms.get_of_mem hu hm
      rw [hg] at this
      cases this
      exact hlive hfin
    · have := Rooms.get_of_mem hu hr
      rw [hg] at this
      cases this
      exact hlive (roomStep_not_finishing hs hev hfin)
    · rw [hg] at hnone; cases hnone
  · have hex : ∃ c i, event = Event.clickTile c i := by
      by_contra hcon
      exact hev (fun c i he => hcon ⟨c, i, he⟩)
    obtain ⟨c, idx, rfl⟩ := hex
    have hother : ∀ code room room1, rooms.get code = some room →
        rooms1.get code = some room1 → code ≠ c → room1 = room := by
      intro code room room1 hg hg1 hne
      have := handle_get_ne (rfl : (Event.clickTile c idx).code? = some c) h hne
      rw [hg, hg1] at this
      cases this
      rfl
    rcases clickTile_outcome h with ⟨hnone, hsame⟩ | ⟨rm, rm2, winner, reason, hrm, hlive2, hrm2, hfin2, hone⟩
    · refine ⟨?_, fun _ => hnone⟩
      intro code room room1 hg hg1 hlive hfin
      exfalso
      by_cases hc : code = c
      · subst hc
        rw [hsame room room1 hg hg1] at hfin
        exact hlive hfin
      · rw [hother code room room1 hg hg1 hc] at hfin
        exact hlive hfin
    · constructor
      · intro code room room1 hg hg1 hlive hfin
        by_cases hc : code = c
        · subst hc
          exact ⟨winner, reason, hone⟩
        · exfalso
          rw [hother code room room1 hg hg1 hc] at hfin
          exact hlive hfin
      · intro hno
        exact absurd hfin2 (hno c rm rm2 hrm hrm2 hlive2)

/-- Witness for C16: the click on tile 4 in `fourTilesRooms` finishes room "AAAA" and
emits one `gameOver`. -/
theorem C16_gameOver_iff_finishing_witness :
    UniqueCodes fourTilesRooms ∧ fourTilesRooms.get "AAAA" = some fourTilesRoom ∧
    ∃ winner reason,
      gameOvers (emitsOf (handle fourTilesRooms sockA (Event.clickTile "AAAA" (some 4))))
        = [⟨Target.room "AAAA", Message.gameOver winner reason⟩] :=
  ⟨by decide, by rfl,
   (C16_gameOver_iff_finishing fourTilesRooms (by decide) sockA
     (Event.clickTile "AAAA" (some 4))
     ((handle fourTilesRooms sockA (Event.clickTile "AAAA" (some 4))).toOption.getD ([], [])).1
     ((handle fourTilesRooms sockA (Event.clickTile "AAAA" (some 4))).toOption.getD ([], [])).2
     (by rfl)).1 "AAAA" fourTilesRoom
     ((roomAfter (handle fourTilesRooms sockA (Event.clickTile "AAAA" (some 4))) "AAAA").getD
       fourTilesRoom)
     (by rfl) (by rfl) (by decide) (by rfl)⟩
/-! ## The shuffle of pickUnique -/

theorem count_set_add {l : List String} {i : Nat} {a : String} (y x : String)
    (h : l[i]? = some a) :
    (l.set i y).count x + (if a = x then 1 else 0) = l.count x + (if y = x then 1 else 0) := by
  induction l generalizing i with
  | nil => simp at h
  | cons b rest ih =>
    cases i with
    | zero =>
      simp at h
      subst h
      simp only [List.set_cons_zero, List.count_cons, beq_iff_eq]
      omega
    | succ k =>
      simp at h
      have := ih h
      simp only [List.set_cons_succ, List.count_cons, beq_iff_eq]
      omega

theorem swapAt_perm (copy : List String) (i j : Nat) : (swapAt copy i j).Perm copy := by
  unfold swapAt
  split
  · rename_i a b ha hb
    rw [List.perm_iff_count]
    intro x
    have hi : i < copy.length := (List.getElem?_eq_some_iff.mp ha).1
    have h1 := count_set_add b x ha
    have hb1 : (copy.set i b)[j]? = some b := by
      by_cases hij : i = j
      · subst hij
        exact List.getElem?_set_self hi
      · rw [List.getElem?_set_ne hij]
        exact hb
    have h2 := count_set_add a x hb1
    omega
  · exact List.Perm.refl _

theorem shuffleLoop_perm (rand : Nat → Nat) (k : Nat) (copy : List String) :
    (shuffleLoop rand k copy).Perm copy := by
  induction k generalizing copy with
  | zero => exact List.Perm.refl _
  | succ k ih => exact (ih _).trans (swapAt_perm _ _ _)

/-! ## C13: generated boards -/

theorem placeholders_from (k s n : Nat) :
    (List.range' s n).map (fun i => "Task " ++ toString (k + i + 1))
      = (List.range' (k + s + 1) n).map (fun m => "Task " ++ toString m) := by
  induction n generalizing s with
  | zero => rfl
  | succ n ih =>
    simp only [List.range'_succ, List.map_cons]
    rw [ih (s + 1)]
    rfl

theorem placeholders_eq (k n : Nat) :
    (List.range n).map (fun i => "Task " ++ toString (k + i + 1))
      = (List.range' (k + 1) n).map (fun m => "Task " ++ toString m) := by
  rw [List.range_eq_range']
  exact placeholders_from k 0 n

theorem placeholders_nodup (k : Nat) (hk : k < 25) :
    ((List.range' (k + 1) (25 - k)).map (fun m => "Task " ++ toString m)).Nodup := by
  have hall : ((List.range' 1 25).map (fun m => "Task " ++ toString m)).Nodup := by decide
  have hsplit : List.range' 1 25 = List.range' 1 k ++ List.range' (k + 1) (25 - k) := by
    have h := List.range'_append_1 1 k (25 - k)
    rw [show 1 + k = k + 1 by omega, show 25 - k + k = 25 by omega] at h
    exact h.symm
  rw [hsplit, List.map_append] at hall
  exact (List.nodup_append.mp hall).2.1
theorem generateBoard_labels (src : BoardSource) :
    (generateBoard src).map (fun t => t.label) =
      if (loadPhrases src.file).length ≥ TOTAL_TILES then
        pickUnique src.rand (loadPhrases src.file) TOTAL_TILES
      else loadPhrases src.file ++ (List.range (TOTAL_TILES - (loadPhrases src.file).length)).map
        (fun i => "Task " ++ toString ((loadPhrases src.file).length + i + 1)) := by
  unfold generateBoard
  simp only [List.map_map]
  have hid : ((fun t : Tile => t.label) ∘
      fun label => ({ label := label, ownerId := none, color := none } : Tile)) = id := rfl
  rw [hid, List.map_id]

/-- Claim C13. For every phrase file content, with `pool` the usable phrases kept by
`loadPhrases`, and every outcome of the random choices: every tile of `generateBoard`
has `ownerId` null and `color` null; when the pool has at least 25 phrases and they are
pairwise distinct, the labels are 25 pairwise distinct phrases of the pool; when the
pool has `k < 25` phrases, the labels are the `k` pool phrases followed by the
placeholders "Task k+1", ..., "Task 25", which are pairwise distinct. -/
theorem C13_generateBoard_labels (src : BoardSource) (pool : List String)
    (hpool : loadPhrases src.file = pool) :
    (∀ t ∈ generateBoard src, t.ownerId = none ∧ t.color = none) ∧
    (25 ≤ pool.length → pool.Nodup →
      ((generateBoard src).map (fun t => t.label)).length = 25 ∧
      ((generateBoard src).map (fun t => t.label)).Nodup ∧
      ∀ l ∈ (generateBoard src).map (fun t => t.label), l ∈ pool) ∧
    (pool.length < 25 →
      (generateBoard src).map (fun t => t.label) =
        pool ++ (List.range' (pool.length + 1) (25 - pool.length)).map
          (fun m => "Task " ++ toString m) ∧
      ((List.range' (pool.length + 1) (25 - pool.length)).map
          (fun m => "Task " ++ toString m)).Nodup) := by
  have h25 : TOTAL_TILES = 25 := rfl
  refine ⟨generateBoard_blank src, ?_, ?_⟩
  · intro hlen hnd
    have hsub : ((generateBoard src).map (fun t => t.label)).Sublist
        (shuffleLoop src.rand (pool.length - 1) pool) := by
      rw [generateBoard_labels, hpool, h25, if_pos hlen]
      exact List.take_sublist _ _
    have hperm := shuffleLoop_perm src.rand (pool.length - 1) pool
    refine ⟨?_, ?_, ?_⟩
    · rw [List.length_map]; exact generateBoard_length src
    · exact List.Nodup.sublist hsub (hperm.nodup_iff.mpr hnd)
    · intro l hl
      exact hperm.subset (hsub.subset hl)
  · intro hlt
    refine ⟨?_, placeholders_nodup _ hlt⟩
    rw [generateBoard_labels, hpool, h25, if_neg (by omega), placeholders_eq]

/-- The labels are only as distinct as the pool: a phrase file with 25 times the same
phrase gives a board with 25 times that label, whatever the random choices. -/
theorem generateBoard_keeps_duplicates (rand : Nat → Nat) :
    (generateBoard { file := some (List.replicate 25 (some "x")), rand := rand }).map
        (fun t => t.label) = List.replicate 25 "x" := by
  have hpool : loadPhrases (some (List.replicate 25 (some "x"))) = List.replicate 25 "x" := by
    decide
  rw [List.eq_replicate_iff]
  refine ⟨by rw [List.length_map]; exact generateBoard_length _, ?_⟩
  intro b hb
  rw [generateBoard_labels, hpool] at hb
  simp only [TOTAL_TILES, BOARD_SIZE, List.length_replicate, ge_iff_le, Nat.reduceMul,
    Nat.le_refl, if_true] at hb
  have hmem : b ∈ List.replicate 25 "x" :=
    (shuffleLoop_perm rand _ _).subset ((List.take_sublist _ _).subset hb)
  exact (List.mem_replicate.mp hmem).2

/-- Witness for C13: the board generated from the 25 phrases of `seedSample`. -/
theorem C13_generateBoard_labels_witness :
    loadPhrases seedSource.file = seedSample ∧ 25 ≤ seedSample.length ∧ seedSample.Nodup ∧
    ((generateBoard seedSource).map (fun t => t.label)).length = 25 ∧
    ((generateBoard seedSource).map (fun t => t.label)).Nodup ∧
    ∀ l ∈ (generateBoard seedSource).map (fun t => t.label), l ∈ seedSample :=
  ⟨by decide, by decide, by decide,
   (C13_generateBoard_labels seedSource seedSample (by decide)).2.1 (by decide) (by decide)⟩
/-! ## C19: disconnect and leaveRoom -/

theorem Rooms.get_append_of_not_mem {front : Rooms} {c : String}
    (h : c ∉ front.map Prod.fst) (l : Rooms) : Rooms.get (front ++ l) c = Rooms.get l c := by
  induction front with
  | nil => rfl
  | cons x rest ih =>
    obtain ⟨c0, r0⟩ := x
    simp only [List.map_cons, List.mem_cons, not_or] at h
    have hne : ¬ c0 = c := fun he => h.1 he.symm
    simp only [List.cons_append, Rooms.get, hne, if_false]
    exact ih h.2

theorem Rooms.delete_append_of_not_mem {front : Rooms} {c : String}
    (h : c ∉ front.map Prod.fst) (l : Rooms) :
    Rooms.delete (front ++ l) c = front ++ Rooms.delete l c := by
  induction front with
  | nil => rfl
  | cons x rest ih =>
    obtain ⟨c0, r0⟩ := x
    simp only [List.map_cons, List.mem_cons, not_or] at h
    have hne : ¬ c0 = c := fun he => h.1 he.symm
    simp only [List.cons_append, Rooms.delete, hne, if_false]
    exact congrArg (fun t => (c0, r0) :: t) (ih h.2)

theorem Rooms.replace_append_of_not_mem {front : Rooms} {c : String}
    (h : c ∉ front.map Prod.fst) (l : Rooms) (room : Room) :
    Rooms.replace (front ++ l) c room = front ++ Rooms.replace l c room := by
  induction front with
  | nil => rfl
  | cons x rest ih =>
    obtain ⟨c0, r0⟩ := x
    simp only [List.map_cons, List.mem_cons, not_or] at h
    have hne : ¬ c0 = c := fun he => h.1 he.symm
    simp only [List.cons_append, Rooms.replace, hne, if_false]
    exact congrArg (fun t => (c0, r0) :: t) (ih h.2)

/-- One `leaveRoom` on the head of the part of the registry still to be visited. -/
theorem leaveRoomRegistry_head (socket : Socket) {front : Rooms} {c : String} (r : Room)
    (rest : Rooms) (h : c ∉ front.map Prod.fst) :
    leaveRoomRegistry socket (front ++ (c, r) :: rest) c =
      if (removePlayer r socket.userId).players.length = 0 then front ++ rest
      else front ++ (c, removePlayer r socket.userId) :: rest := by
  have hg : Rooms.get (front ++ (c, r) :: rest) c = some r := by
    rw [Rooms.get_append_of_not_mem h]
    simp [Rooms.get]
  unfold leaveRoomRegistry leaveRoom
  simp only [hg]
  by_cases hzero : (removePlayer r socket.userId).players.length = 0
  · simp only [hzero, if_true]
    rw [Rooms.delete_append_of_not_mem h]
    simp [Rooms.delete]
  · simp only [hzero, if_false]
    rw [Rooms.replace_append_of_not_mem h]
    simp [Rooms.replace]

theorem leaveEveryRoom_loop (socket : Socket) (todo front : Rooms)
    (hu : UniqueCodes (front ++ todo)) (hne : ∀ c r, (c, r) ∈ todo → r.players ≠ []) :
    (todo.map Prod.fst).foldl (leaveRoomRegistry socket) (front ++ todo)
      = front ++ (disconnectLoop socket.userId todo).1 := by
  induction todo generalizing front with
  | nil => simp [disconnectLoop]
  | cons x rest ih =>
    obtain ⟨c, r⟩ := x
    have hkeys : (front.map Prod.fst ++ c :: rest.map Prod.fst).Nodup := by
      simpa [UniqueCodes] using hu
    have hcfront : c ∉ front.map Prod.fst := by
      intro hc
      exact (List.nodup_append.mp hkeys).2.2 hc (List.mem_cons_self _ _)
    have hr : r.players ≠ [] := hne c r (List.mem_cons_self _ _)
    have hrest : ∀ c1 r1, (c1, r1) ∈ rest → r1.players ≠ [] :=
      fun c1 r1 hm => hne c1 r1 (List.mem_cons_of_mem _ hm)
    simp only [List.map_cons, List.foldl_cons]
    rw [leaveRoomRegistry_head socket r rest hcfront]
    by_cases hzero : (removePlayer r socket.userId).players.length = 0
    · rw [if_pos hzero]
      have hu1 : UniqueCodes (front ++ rest) := by
        unfold UniqueCodes
        rw [List.map_append]
        exact List.Nodup.sublist
          (List.Sublist.append_left (List.sublist_cons_self _ _) _) hkeys
      rw [ih front hu1 hrest]
      have hdiff : r.players.length ≠ (removePlayer r socket.userId).players.length := by
        rw [hzero]
        intro h0
        exact hr (List.length_eq_zero.mp h0)
      simp only [disconnectLoop]
      rw [if_pos hdiff, if_pos hzero]
    · rw [if_neg hzero]
      have hu1 : UniqueCodes ((front ++ [(c, removePlayer r socket.userId)]) ++ rest) := by
        unfold UniqueCodes
        simpa using hkeys
      have := ih (front ++ [(c, removePlayer r socket.userId)]) hu1 hrest
      simp only [List.append_assoc, List.singleton_append] at this
      rw [this]
      simp only [disconnectLoop]
      rw [if_neg hzero]
      split <;> rfl

theorem disconnectLoop_get {uid : UserId} {rooms : Rooms} (hu : UniqueCodes rooms)
    {c : String} {r : Room} (hg : rooms.get c = some r) :
    (disconnectLoop uid rooms).1.get c =
      if r.players.length ≠ (removePlayer r uid).players.length ∧
          (removePlayer r uid).players.length = 0 then none
      else some (removePlayer r uid) := by
  induction rooms with
  | nil => simp [Rooms.get] at hg
  | cons x rest ih =>
    obtain ⟨c0, r0⟩ := x
    have hu0 := hu
    unfold UniqueCodes at hu
    simp only [List.map_cons, List.nodup_cons] at hu
    by_cases hc : c0 = c
    · subst hc
      simp only [Rooms.get, if_true, Option.some.injEq] at hg
      subst hg
      simp only [disconnectLoop]
      by_cases hdiff : r0.players.length ≠ (removePlayer r0 uid).players.length
      · by_cases hzero : (removePlayer r0 uid).players.length = 0
        · rw [if_pos hdiff, if_pos hzero, if_pos ⟨hdiff, hzero⟩]
          cases hget : (disconnectLoop uid rest).1.get c0 with
          | none => rfl
          | some r1 =>
            exfalso
            apply hu.1
            exact (disconnectLoop_keys_sublist uid rest).subset
              (List.mem_map_of_mem Prod.fst (Rooms.get_mem hget))
        · rw [if_pos hdiff, if_neg hzero, if_neg (fun h => hzero h.2)]
          simp only [Rooms.get, if_true]
      · rw [if_neg hdiff, if_neg (fun h => hdiff h.1)]
        simp only [Rooms.get, if_true]
    · simp only [Rooms.get, hc, if_false] at hg
      have hrec := ih hu.2 hg
      simp only [disconnectLoop]
      split
      · split
        · exact hrec
        · simp only [Rooms.get, hc, if_false]
          exact hrec
      · simp only [Rooms.get, hc, if_false]
        exact hrec

/-- No handler leaves a room without players in the registry. -/
theorem playersNonempty_step {socket : Socket} {event : Event} {r r1 : Room}
    (hP : r.players ≠ []) (hs : RoomStep socket event r r1) : r1.players ≠ [] := by
  have hupd : ∀ f : Player → Player, updatePlayer f r.players socket.userId ≠ [] := by
    intro f he
    have := updatePlayer_length f r.players socket.userId
    rw [he] at this
    exact hP (List.length_eq_zero.mp this.symm)
  cases hs with
  | join hf hlen => simp
  | leave hne => exact hne
  | disconnect hor =>
    rcases hor with hne | hlen
    · exact hne
    · intro he
      rw [he] at hlen
      exact hP (List.length_eq_zero.mp hlen.symm)
  | color hc hf hothers => exact hupd _
  | name => exact hupd _
  | toggle _ _ _ _ _ => exact hupd _
  | undo _ _ _ _ _ => exact hupd _
  | claim _ _ _ _ _ _ => exact hupd _
  | edit _ _ => exact hP
  | clearRoom => exact hP
  | clearBoard => exact hP
  | start => exact hP

/-- Every room of a registry reachable by socket events has at least one player. -/
theorem reachableVia_players_nonempty {allowed : Rooms → Socket → Event → Bool}
    {rooms : Rooms} (h : ReachableVia allowed rooms) :
    ∀ c r, (c, r) ∈ rooms → r.players ≠ [] :=
  reachableVia_invariant (fun r => r.players ≠ []) (fun _ _ => by simp)
    (fun _ _ _ _ _ _ _ _ hP hs => playersNonempty_step hP hs) h

theorem removePlayer_of_absent {r : Room} {uid : UserId}
    (h : ∀ p ∈ r.players, p.userId ≠ uid) : removePlayer r uid = r := by
  unfold removePlayer
  have : r.players.filter (fun p => decide (p.userId ≠ uid)) = r.players := by
    rw [List.filter_eq_self]
    intro p hp
    simpa using h p hp
  rw [this]

theorem removePlayer_of_all {r : Room} {uid : UserId}
    (h : ∀ p ∈ r.players, p.userId = uid) : (removePlayer r uid).players = [] := by
  unfold removePlayer
  simp only [List.filter_eq_nil_iff]
  intro p hp
  simpa using h p hp

/-- Claim C19, amended. For every registry with pairwise distinct codes and every
identity: when every room has at least one player (as in every registry reachable by
socket events), the registry after the disconnect handler equals the registry obtained by
applying `leaveRoom` for that identity to every room code present in the registry; and
in any case, after disconnect the identity is a member of no room, every room it was the
last member of has been deleted, and rooms it was not a member of are unchanged. -/
theorem C19_disconnect_refines_leaveRoom (rooms : Rooms) (hu : UniqueCodes rooms)
    (socket : Socket) :
    ((∀ c r, (c, r) ∈ rooms → r.players ≠ []) →
      ∃ out, disconnect rooms socket = Except.ok (leaveEveryRoom socket rooms, out)) ∧
    ∃ rooms1 out, disconnect rooms socket = Except.ok (rooms1, out) ∧
      (∀ c r1, (c, r1) ∈ rooms1 → ∀ p ∈ r1.players, p.userId ≠ socket.userId) ∧
      (∀ c r, rooms.get c = some r → r.players ≠ [] →
        (∀ p ∈ r.players, p.userId = socket.userId) → rooms1.get c = none) ∧
      (∀ c r, rooms.get c = some r → (∀ p ∈ r.players, p.userId ≠ socket.userId) →
        rooms1.get c = some r) := by
  constructor
  · intro hne
    have := leaveEveryRoom_loop socket rooms [] (by simpa using hu) hne
    simp only [List.nil_append] at this
    unfold leaveEveryRoom
    rw [this]
    exact ⟨_, rfl⟩
  · refine ⟨_, _, rfl, ?_, ?_, ?_⟩
    · intro c r1 hm p hp
      obtain ⟨r, _, he, _⟩ := disconnectLoop_mem hm
      rw [he] at hp
      have := (List.mem_filter.mp hp).2
      simpa using this
    · intro c r hg hne hall
      rw [disconnectLoop_get hu hg]
      have hzero : (removePlayer r socket.userId).players.length = 0 := by
        rw [removePlayer_of_all hall]; rfl
      have hdiff : r.players.length ≠ (removePlayer r socket.userId).players.length := by
        rw [hzero]
        exact fun h0 => hne (List.length_eq_zero.mp h0)
      rw [if_pos ⟨hdiff, hzero⟩]
    · intro c r hg hnone
      rw [disconnectLoop_get hu hg, removePlayer_of_absent hnone]
      rw [if_neg (fun h => h.1 rfl)]

/-- Witness for C19: `sockA` disconnects from the reachable registry `twoColorsRooms`. -/
theorem C19_disconnect_refines_leaveRoom_witness :
    UniqueCodes twoColorsRooms ∧
    (leaveEveryRoom sockA twoColorsRooms).get "AAAA"
      = some { board := twoColorsRoom.board,
               players := [{ userId := 2, name := "Gracz-BBBB", color := some "#3498db",
                             score := 0 }],
               status := Status.waiting } ∧
    ∃ out, disconnect twoColorsRooms sockA
      = Except.ok (leaveEveryRoom sockA twoColorsRooms, out) :=
  ⟨by decide, by rfl,
   (C19_disconnect_refines_leaveRoom twoColorsRooms (by decide) sockA).1
     (reachableVia_players_nonempty
       (reachableVia_runVia ReachableVia.init twoColorsTrace (by rfl) :
         Reachable twoColorsRooms))⟩

/-- Claim C19, counterexample. A registry holding a room without players, as left by one
`POST /rooms` on the empty registry: the disconnect handler keeps the room (the identity
was not a member), while `leaveRoom` for that identity on its code deletes it. -/
theorem C19_counterexample_empty_room :
    postRooms [] [(0, 0, 0, 0)] noPhrases = Except.ok (emptyRoomRooms, "AAAA") ∧
    roomAfter (disconnect emptyRoomRooms sockA) "AAAA"
      = some { board := generateBoard noPhrases, players := [], status := Status.waiting } ∧
    leaveEveryRoom sockA emptyRoomRooms = [] :=
  ⟨by rfl, by rfl, by rfl⟩
/-! ## C18: the shuffle as a bijection -/

theorem swapAt_getElem?_other (l : List String) {i j m : Nat} (hi : m ≠ i) (hj : m ≠ j) :
    (swapAt l i j)[m]? = l[m]? := by
  unfold swapAt
  split
  · rw [List.getElem?_set_ne (Ne.symm hj), List.getElem?_set_ne (Ne.symm hi)]
  · rfl

theorem swapAt_getElem?_left (l : List String) {i j : Nat} (hi : i < l.length)
    (hj : j < l.length) : (swapAt l i j)[i]? = l[j]? := by
  unfold swapAt
  rw [List.getElem?_eq_getElem hi, List.getElem?_eq_getElem hj]
  simp only []
  by_cases hij : i = j
  · subst hij
    rw [List.getElem?_set_self (by simpa using hi)]
  · rw [List.getElem?_set_ne (Ne.symm hij), List.getElem?_set_self hi]

theorem shuffleLoop_getElem?_above {rand : Nat → Nat} (hv : ValidChoices rand) (k : Nat)
    (l : List String) {m : Nat} (hm : k < m) : (shuffleLoop rand k l)[m]? = l[m]? := by
  induction k generalizing l with
  | zero => rfl
  | succ k ih =>
    simp only [shuffleLoop]
    rw [ih _ (by omega)]
    have := hv (k + 1)
    exact swapAt_getElem?_other l (by omega) (by omega)

theorem shuffleLoop_getElem?_last {rand : Nat → Nat} (hv : ValidChoices rand) (k : Nat)
    (l : List String) (hk : k + 1 < l.length) :
    (shuffleLoop rand (k + 1) l)[k + 1]? = l[rand (k + 1)]? := by
  simp only [shuffleLoop]
  rw [shuffleLoop_getElem?_above hv k _ (Nat.lt_succ_self k)]
  have := hv (k + 1)
  exact swapAt_getElem?_left l hk (by omega)

theorem shuffleLoop_congr {rand rand1 : Nat → Nat} (k : Nat) (l : List String)
    (h : ∀ i, 1 ≤ i → i ≤ k → rand i = rand1 i) :
    shuffleLoop rand k l = shuffleLoop rand1 k l := by
  induction k generalizing l with
  | zero => rfl
  | succ k ih =>
    simp only [shuffleLoop]
    rw [h (k + 1) (by omega) (Nat.le_refl _)]
    exact ih _ (fun i h1 h2 => h i h1 (by omega))

/-- Two valid choice sequences that shuffle a duplicate-free list to the same result
agree at every loop index. -/
theorem shuffleLoop_injective {rand rand1 : Nat → Nat} (hv : ValidChoices rand)
    (hv1 : ValidChoices rand1) (k : Nat) (l : List String) (hnd : l.Nodup)
    (hk : k < l.length) (heq : shuffleLoop rand k l = shuffleLoop rand1 k l) :
    ∀ i, 1 ≤ i → i ≤ k → rand i = rand1 i := by
  induction k generalizing l with
  | zero => intro i h1 h2; omega
  | succ k ih =>
    have hlast : l[rand (k + 1)]? = l[rand1 (k + 1)]? := by
      rw [← shuffleLoop_getElem?_last hv k l hk, ← shuffleLoop_getElem?_last hv1 k l hk, heq]
    have h1 := hv (k + 1)
    have h2 := hv1 (k + 1)
    have hidx : rand (k + 1) = rand1 (k + 1) := by
      rw [List.getElem?_eq_getElem (by omega), List.getElem?_eq_getElem (by omega),
        Option.some_inj] at hlast
      exact (hnd.getElem_inj_iff).mp hlast
    simp only [shuffleLoop] at heq
    rw [← hidx] at heq
    have hrec := ih (swapAt l (k + 1) (rand (k + 1)))
      ((swapAt_perm _ _ _).nodup_iff.mpr hnd) (by rw [swapAt_length]; omega) heq
    intro i hi1 hi2
    by_cases hik : i = k + 1
    · rw [hik]; exact hidx
    · exact hrec i hi1 (by omega)

theorem eq_of_perm_of_tail_eq {l target : List String} (hnd : l.Nodup)
    (hperm : target.Perm l) (hagree : ∀ m, 0 < m → target[m]? = l[m]?) : target = l := by
  cases l with
  | nil => exact hperm.eq_nil
  | cons a ls =>
    cases target with
    | nil => exact absurd hperm.symm.eq_nil (by simp)
    | cons b ts =>
      have htail : ts = ls := by
        apply List.ext_getElem?
        intro m
        have := hagree (m + 1) (Nat.succ_pos m)
        simpa using this
      subst htail
      have hb : b ∈ a :: ts := hperm.subset (List.mem_cons_self _ _)
      have hndt : (b :: ts).Nodup := hperm.nodup_iff.mpr hnd
      rcases List.mem_cons.mp hb with hb | hb
      · rw [hb]
      · exact absurd hb (List.nodup_cons.mp hndt).1

/-- Every arrangement of a duplicate-free list that differs from it only at indices up to
`k` is produced by the loop, started at `k`, for some valid choice sequence. -/
theorem shuffleLoop_surjective (k : Nat) (l target : List String) (hnd : l.Nodup)
    (hk : k < l.length) (hperm : target.Perm l)
    (hagree : ∀ m, k < m → target[m]? = l[m]?) :
    ∃ rand, ValidChoices rand ∧ shuffleLoop rand k l = target := by
  induction k generalizing l with
  | zero =>
    exact ⟨fun _ => 0, fun _ => Nat.zero_le _, (eq_of_perm_of_tail_eq hnd hperm hagree).symm⟩
  | succ k ih =>
    have hlen : target.length = l.length := hperm.length_eq
    have hndt : target.Nodup := hperm.nodup_iff.mpr hnd
    have hkt : k + 1 < target.length := by omega
    have hx : target[k + 1] ∈ l := hperm.subset (List.getElem_mem hkt)
    obtain ⟨j, hj, hjx⟩ := List.getElem_of_mem hx
    have hjle : j ≤ k + 1 := by
      by_contra hgt
      have hjm : k + 1 < j := by omega
      have h1 := hagree j hjm
      rw [List.getElem?_eq_getElem (by omega), List.getElem?_eq_getElem hj, Option.some_inj,
        hjx] at h1
      have := (hndt.getElem_inj_iff).mp h1
      omega
    have hnd1 : (swapAt l (k + 1) j).Nodup := (swapAt_perm _ _ _).nodup_iff.mpr hnd
    have hagree1 : ∀ m, k < m → target[m]? = (swapAt l (k + 1) j)[m]? := by
      intro m hm
      by_cases hmk : m = k + 1
      · subst hmk
        rw [swapAt_getElem?_left l hk hj, List.getElem?_eq_getElem hkt,
          List.getElem?_eq_getElem hj, hjx]
      · rw [swapAt_getElem?_other l hmk (by omega)]
        exact hagree m (by omega)
    obtain ⟨rand0, hv0, hrun⟩ := ih (swapAt l (k + 1) j) hnd1
      (by rw [swapAt_length]; omega) (hperm.trans (swapAt_perm _ _ _).symm) hagree1
    refine ⟨fun i => if i = k + 1 then j else rand0 i, ?_, ?_⟩
    · intro i
      by_cases hik : i = k + 1
      · simp only [hik, if_true]; exact hjle
      · simp only [hik, if_false]; exact hv0 i
    · simp only [shuffleLoop, if_true]
      rw [← hrun]
      apply shuffleLoop_congr
      intro i _ hi2
      have : i ≠ k + 1 := by omega
      simp only [this, if_false]

/-- Claim C18. With each `Math.floor(Math.random() * (i + 1))` of `pickUnique` an
arbitrary integer between 0 and `i`: for every list `items` and every choice sequence the
shuffled copy is a permutation of `items`, and `pickUnique(items, count)` is its first
`min(count, n)` elements; when the items are pairwise distinct, every permutation of
`items` is the shuffled copy for some choice sequence, and two choice sequences with the
same shuffled copy agree at every loop index `i = 1 .. n-1`; the permutations of `items`
are `n!` pairwise distinct lists. -/
theorem C18_pickUnique_shuffle (items : List String) :
    (∀ rand count, ValidChoices rand →
      (shuffleLoop rand (items.length - 1) items).Perm items ∧
      pickUnique rand items count
        = (shuffleLoop rand (items.length - 1) items).take (min count items.length)) ∧
    (items.Nodup → ∀ target ∈ items.permutations,
      ∃ rand, ValidChoices rand ∧ shuffleLoop rand (items.length - 1) items = target ∧
        ∀ rand1, ValidChoices rand1 → shuffleLoop rand1 (items.length - 1) items = target →
          ∀ i, 1 ≤ i → i < items.length → rand1 i = rand i) ∧
    (items.Nodup → items.permutations.Nodup) ∧
    items.permutations.length = items.length.factorial := by
  refine ⟨?_, ?_, fun hnd => List.nodup_permutations items hnd, List.length_permutations items⟩
  · intro rand count _
    refine ⟨shuffleLoop_perm _ _ _, ?_⟩
    unfold pickUnique
    rw [List.take_eq_take, shuffleLoop_length]
    omega
  · intro hnd target htarget
    have hperm : target.Perm items := List.mem_permutations.mp htarget
    by_cases hlen : items.length = 0
    · have hnil : items = [] := List.length_eq_zero.mp hlen
      subst hnil
      have ht : target = [] := hperm.eq_nil
      subst ht
      refine ⟨fun _ => 0, fun _ => Nat.zero_le _, rfl, ?_⟩
      intro rand1 _ _ i _ hi
      simp at hi
    · have hk : items.length - 1 < items.length := by omega
      have hagree : ∀ m, items.length - 1 < m → target[m]? = items[m]? := by
        intro m hm
        rw [List.getElem?_eq_none (by rw [hperm.length_eq]; omega),
          List.getElem?_eq_none (by omega)]
      obtain ⟨rand, hv, hrun⟩ :=
        shuffleLoop_surjective (items.length - 1) items target hnd hk hperm hagree
      refine ⟨rand, hv, hrun, ?_⟩
      intro rand1 hv1 hrun1 i hi1 hi2
      exact shuffleLoop_injective hv1 hv (items.length - 1) items hnd hk
        (hrun1.trans hrun.symm) i hi1 (by omega)

/-- Witness for C18: the three-element list "a", "b", "c" and its arrangement "c", "a",
"b". -/
theorem C18_pickUnique_shuffle_witness :
    ["a", "b", "c"].Nodup ∧
    ∃ rand, ValidChoices rand ∧ shuffleLoop rand 2 ["a", "b", "c"] = ["c", "a", "b"] ∧
      ∀ rand1, ValidChoices rand1 → shuffleLoop rand1 2 ["a", "b", "c"] = ["c", "a", "b"] →
        ∀ i, 1 ≤ i → i < 3 → rand1 i = rand i :=
  ⟨by decide,
   (C18_pickUnique_shuffle ["a", "b", "c"]).2.1 (by decide) ["c", "a", "b"]
     (List.mem_permutations.mpr (by decide))⟩

end Bingo
